import Mathlib

/-!
Verification of the natural-language specification of the `inc` incremental
backup tool against a shallow embedding of its Go source.

The embedding translates, faithfully to the source:
  * the `file.File` record and its mode predicates (file/args_test.go part),
  * the bundler (`backup/bundle.go`: `makeBundle`, `splitBundlesBySizeLimit`,
    `bundleSmallFiles`, `bundleSmallFilesAcrossPaths`),
  * the hex key factory (`backup/util.go`: `hexLog`, `keyFactory`),
  * the manifest data model and its operations (`backup/manifest.go`:
    `Has`, `removeEntry`, `Remove`, `Compare`, `Update`, `LatestEntries`,
    `buildPathMap`), with Go pointer identity between `entries` and
    `pathMap` rendered as index identity (`pathMap` maps a path to the
    index of its entry in `entries`),
  * the backup orchestrator (`backup/backup.go`: `backupLatest`,
    `saveManifest`), sequentialised: the Go code runs bundle uploads under
    a semaphore and joins on all of them before writing the manifest, and
    each rollback touches only its own bundle's paths, so the final state
    is the sequential fold over bundles with a per-bundle failure oracle,
  * the JSON compatibility layer (`util/json.go` `ParseVersionJSON`,
    `store/metadata.go` `getStoreMetadata`, `backup/manifest.go` and
    `backup/compatibility.go` manifest decoding), over an explicit JSON
    value type; Go library primitives (time parsing, base64) appear as
    parameters,
  * the streaming crypto envelope (`store/crypto/crypto.go`:
    `padBuffer`, `unpadBuffer`, `encryptReader.Read`, `decryptReader.Read`,
    `EncryptReader`, `DecryptReader`) as explicit state machines driven by
    an arbitrary schedule of positive read sizes; AES and HMAC-SHA1 appear
    as an abstract block cipher (with its inverse) and an abstract MAC.

Machine integers: Go `int64` fields are `Int`; byte values are `Nat`.
No arithmetic in the verified paths overflows 64 bits on the inputs the
claims quantify over, except where noted (Go `%` on negative ints is
truncated division, modelled with `Int.tmod`).
-/

namespace Inc

/-- A byte string, each element a byte value. -/
abbrev Bytes := List Nat

/-! ## File records (package file) -/

/-- Go `os.ModeDir` is bit 31 of `os.FileMode`. -/
def modeDirBit : Nat := 31

/-- Go `os.ModeSymlink` is bit 27 of `os.FileMode`. -/
def modeSymlinkBit : Nat := 27

/-- Mask of Go `os.ModeType`: ModeDir, ModeSymlink, ModeNamedPipe,
ModeSocket, ModeDevice, ModeCharDevice, ModeIrregular. -/
def modeTypeMask : Nat :=
  2 ^ 31 + 2 ^ 27 + 2 ^ 25 + 2 ^ 24 + 2 ^ 26 + 2 ^ 21 + 2 ^ 19

/-- The all-zero value of a Go `[sha1.Size]byte`, meaning unset checksum. -/
def zeroSHA1 : Bytes := List.replicate 20 0

/-- Embeds `file.File`: one scanned filesystem entry. -/
structure File where
  root : String
  name : String
  size : Int
  mode : Nat
  modTime : Int
  uid : Int
  gid : Int
  sha1 : Bytes
deriving Repr, DecidableEq, Inhabited

/-- Embeds `File.Path`: the full path. Go joins with `filepath.Join`;
the claims treat the joined path as an opaque key, so plain
concatenation with a separator is used. -/
def File.path (f : File) : String := f.root ++ "/" ++ f.name

/-- Embeds `File.IsDir`. -/
def File.isDir (f : File) : Bool := f.mode.testBit modeDirBit

/-- Embeds `File.IsSymlink`. -/
def File.isSymlink (f : File) : Bool := f.mode.testBit modeSymlinkBit

/-- Embeds `File.IsRegular` (Go `FileMode.IsRegular`: no type bits set). -/
def File.isRegular (f : File) : Bool := f.mode &&& modeTypeMask == 0

/-- Embeds `File.HasChecksum`. -/
def File.hasChecksum (f : File) : Bool := f.sha1 ≠ zeroSHA1

/-! ## The bundler (backup/bundle.go) -/

/-- Embeds `c_BUNDLE_LIMIT_SIZE = 1000 << 6`. -/
def c_BUNDLE_LIMIT_SIZE : Int := 1000 * 2 ^ 6

/-- Embeds `c_BUNDLE_MAX_SIZE = 1000 << 10`. -/
def c_BUNDLE_MAX_SIZE : Int := 1000 * 2 ^ 10

/-- Embeds `makeBundle`. -/
def makeBundle (files : List File) : List (List File) :=
  if files.length > 0 then [files] else []

/-- Embeds the body of `splitBundlesBySizeLimit` for one bundle:
the switch sends directories to `dirs`, files above the cutoff to `big`,
the rest to `small`; the three parts are appended in that order. -/
def splitOneBundle (bundle : List File) : List (List File) :=
  [bundle.filter (fun f => ¬f.isDir ∧ ¬(f.size > c_BUNDLE_LIMIT_SIZE)),
   bundle.filter (fun f => ¬f.isDir ∧ f.size > c_BUNDLE_LIMIT_SIZE),
   bundle.filter (fun f => f.isDir)]

/-- Embeds `splitBundlesBySizeLimit`. -/
def splitBundlesBySizeLimit (inb : List (List File)) : List (List File) :=
  inb.flatMap splitOneBundle

/-- Lexicographic order on character lists, the order Go `<` gives on
its (byte-compared) strings; the paths the claims touch are ASCII, where
byte order and code-point order agree. -/
def charListLt : List Char → List Char → Bool
  | [], [] => false
  | [], _ :: _ => true
  | _ :: _, [] => false
  | a :: as, b :: bs =>
      if a.toNat < b.toNat then true
      else if b.toNat < a.toNat then false
      else charListLt as bs

/-- String order used by the sort comparators. -/
def strLt (a b : String) : Bool := charListLt a.data b.data

/-- The Go `ByPath.Less` comparator: by root, then by name. -/
def byPathLess (a b : File) : Bool :=
  if a.root = b.root then strLt a.name b.name else strLt a.root b.root

/-- Insertion of a file into a path-sorted list. Go uses the unstable
`sort.Sort`; the claims proved here do not depend on the order produced,
only on it being a by-path sort, so a deterministic insertion sort
stands in for it. -/
def insertByPath (f : File) : List File → List File
  | [] => [f]
  | g :: gs => if byPathLess f g then f :: g :: gs else g :: insertByPath f gs

/-- Deterministic by-path sort standing in for `sort.Sort(file.ByPath(b))`. -/
def sortByPath (b : List File) : List File := b.foldr insertByPath []

/-- Embeds `sortBundlesByPath`. -/
def sortBundlesByPath (bundles : List (List File)) : List (List File) :=
  bundles.map sortByPath

/-- State of the imperative loop in `bundleSmallFiles`: emitted bundles,
the current bundle, its running byte total, and the deferred directory
bundle. -/
structure BsfState where
  out : List (List File)
  curr : List File
  currBytes : Int
  dirs : List File
deriving Repr

/-- Embeds the `nextBundle` closure in `bundleSmallFiles`. -/
def bsfNext (st : BsfState) : BsfState :=
  if st.curr.length > 0 then
    { st with out := st.out ++ [st.curr], curr := [], currBytes := 0 }
  else st

/-- Embeds one iteration of the inner loop of `bundleSmallFiles`. -/
def bsfStep (st : BsfState) (f : File) : BsfState :=
  if f.isDir then { st with dirs := st.dirs ++ [f] }
  else
    let st := if f.size > c_BUNDLE_LIMIT_SIZE then bsfNext st else st
    let st := if st.currBytes > c_BUNDLE_MAX_SIZE then bsfNext st else st
    { st with curr := st.curr ++ [f], currBytes := st.currBytes + f.size }

/-- Embeds the outer loop of `bundleSmallFiles`: each input bundle is
folded through `bsfStep`, then `nextBundle` runs. -/
def bsfBundle (st : BsfState) (bundle : List File) : BsfState :=
  bsfNext (bundle.foldl bsfStep st)

/-- Embeds `bundleSmallFiles`. -/
def bundleSmallFiles (inb : List (List File)) : List (List File) :=
  let st := inb.foldl bsfBundle ⟨[], [], 0, []⟩
  st.out ++ (if st.dirs.length > 0 then [st.dirs] else [])

/-- Embeds `bundleSmallFilesAcrossPaths`. -/
def bundleSmallFilesAcrossPaths (files : List File) : List (List File) :=
  bundleSmallFiles (sortBundlesByPath (splitBundlesBySizeLimit (makeBundle files)))

/-- Sum of the sizes of a list of files. -/
def sumSizes (b : List File) : Int := (b.map File.size).sum

/-! ## The object key factory (backup/util.go) -/

/-- Embeds `hexLog`: how many hexadecimal places are needed for a number
of size n.  The Go parameter is an `int64` and `n >> 4` is an arithmetic
shift; the function is only applied to non-negative bundle counts, so a
`Nat` argument with `n / 16` is the same function. -/
def hexLog (n : Nat) : Nat :=
  if n < 16 then 1 else 1 + hexLog (n / 16)

/-- Lowercase hexadecimal digit for a value below 16 (as printed by
Go `%x`). -/
def hexDigit (d : Nat) : Char :=
  if d < 10 then Char.ofNat (48 + d) else Char.ofNat (87 + d)

/-- Hex digits of n, most significant first, no leading zeros (empty
for 0). -/
def hexDigits (n : Nat) : List Char :=
  if n = 0 then [] else hexDigits (n / 16) ++ [hexDigit (n % 16)]

/-- Lowercase hex rendering of n as printed by Go `%x`. -/
def hexStr (n : Nat) : String :=
  if n = 0 then "0" else String.mk (hexDigits n)

/-- Embeds Go `fmt.Sprintf("%0*x", w, n)`: zero-padded to width w on the
left, never truncated. -/
def goHexPad (w : Nat) (n : Nat) : String :=
  let s := hexStr n
  if s.length < w then String.mk (List.replicate (w - s.length) '0') ++ s else s

/-- Embeds `keyFactory size` at its i-th invocation: the factory formats
the counter i with format string `%0{hexLog size}x`. -/
def keyFactory (size : Nat) (i : Nat) : String :=
  goHexPad (hexLog size) i

/-- Numeric value of a list of hex digit characters (0 for characters
outside [0-9a-f]); used to state that padded keys stay injective. -/
def hexCharVal (c : Char) : Nat :=
  if 48 ≤ c.toNat ∧ c.toNat ≤ 57 then c.toNat - 48
  else if 97 ≤ c.toNat ∧ c.toNat ≤ 102 then c.toNat - 87 else 0

/-- Value denoted by a hex string. -/
def hexVal (s : String) : Nat :=
  s.data.foldl (fun acc c => 16 * acc + hexCharVal c) 0

/-! ## The manifest (backup/manifest.go)

Go keeps `entries []*ManifestEntry` and `pathMap map[string]*ManifestEntry`
whose values are pointers into the same heap cells as the list elements.
The embedding replaces pointers by positions: `entries : List Entry` and
`pathMap : String → Option Nat`, an index into `entries`.  Go pointer
identity (`pathMap[p]` is the very cell holding the entry) becomes index
identity (`pathMap p = some i` and the entry lives at position i), and
the in-place write `*ptr = *e` becomes `entries.set i e`. -/

/-- Embeds `ManifestEntryPart` (`store.ByteRange` is a pair of ints). -/
structure ManifestEntryPart where
  key : String
  range : Int × Int
deriving Repr, DecidableEq, Inhabited

/-- Embeds `ManifestEntry`. -/
structure ManifestEntry where
  file : File
  set : String
  parts : List ManifestEntryPart
deriving Repr, DecidableEq, Inhabited

/-- Path of the file underlying an entry. -/
def ManifestEntry.path (e : ManifestEntry) : String := e.file.path

/-- Embeds `Manifest`.  Times are unix seconds as `Int`. -/
structure Manifest where
  version : Int
  lastSet : String
  created : Int
  updated : Int
  entries : List ManifestEntry
  pathMap : String → Option Nat

/-- Embeds `Manifest.Has`. -/
def Manifest.Has (m : Manifest) (f : File) : Bool := (m.pathMap f.path).isSome

/-- The entry a path resolves to through the index (the Go expression
`m.pathMap[p]`, dereferenced). -/
def Manifest.find (m : Manifest) (p : String) : Option ManifestEntry :=
  (m.pathMap p).bind (fun i => m.entries[i]?)

/-- Embeds `Manifest.buildPathMap`: walk the entries in order, binding
each path to its position; a later entry with the same path overwrites
an earlier binding, as in the Go map assignment. -/
def buildPathMap (entries : List ManifestEntry) : String → Option Nat :=
  entries.enum.foldl
    (fun acc ie => fun p => if p = ie.2.path then some ie.1 else acc p)
    (fun _ => none)

/-- Embeds `Manifest.removeEntry`, called with the index i that
`pathMap` gave for the entry being removed.  The Go body copies the last
entry into the removed entry's cell, repoints `pathMap` at that cell,
truncates the list, and finally deletes the removed path. -/
def Manifest.removeEntry (m : Manifest) (i : Nat) : Manifest :=
  let lastIndex := m.entries.length - 1
  let lastEntry := m.entries.getD lastIndex default
  let oldPath := (m.entries.getD i default).path
  { m with
    entries := (m.entries.set i lastEntry).take lastIndex,
    pathMap := fun p =>
      if p = oldPath then none
      else if p = lastEntry.path then some i
      else m.pathMap p }

/-- Embeds `Manifest.Remove`; returns the Go boolean and the new state. -/
def Manifest.Remove (m : Manifest) (f : File) : Bool × Manifest :=
  match m.pathMap f.path with
  | none => (false, m)
  | some i => (true, m.removeEntry i)

/-- State after `Manifest.Remove`, discarding the boolean. -/
def Manifest.remove2 (m : Manifest) (f : File) : Manifest := (m.Remove f).2

/-! ### The checksum pass (file/check.go `ChecksumFilesFS`)

The pass first counts the regular/symlink files that lack a checksum and
returns at once when there are none; otherwise its main loop re-reads and
re-hashes every regular and symlink file in every group, overwriting any
checksum already present.  The filesystem read is the oracle
`cs : String → Bytes`, mapping a path to the SHA-1 of its current
contents (or of its link target). -/

/-- Whether a file would be counted by the first loop of
`ChecksumFilesFS` (regular or symlink, checksum unset). -/
def needsChecksum (f : File) : Bool :=
  (f.isRegular || f.isSymlink) && !f.hasChecksum

/-- The main loop body of `ChecksumFilesFS` for one file. -/
def checksumOne (cs : String → Bytes) (f : File) : File :=
  if f.isRegular then { f with sha1 := cs f.path }
  else if f.isSymlink then { f with sha1 := cs f.path }
  else f

/-- Embeds `ChecksumFilesFS` over a list of groups. -/
def ChecksumFiles (cs : String → Bytes) (groups : List (List File)) :
    List (List File) :=
  if groups.all (fun g => g.all (fun f => !needsChecksum f)) then groups
  else groups.map (List.map (checksumOne cs))

/-! ### Compare -/

/-- The first pass of `Manifest.Compare`: partition the scan into
touched and changed, in scan order. -/
def comparePass1 (before : Manifest) (after : List File) :
    List File × List File :=
  after.foldl
    (fun tc a =>
      match before.find a.path with
      | some b =>
          if ¬a.isDir ∧ a.size ≠ b.file.size then (tc.1, tc.2 ++ [a])
          else if a.modTime ≠ b.file.modTime then (tc.1 ++ [a], tc.2)
          else tc
      | none => (tc.1, tc.2 ++ [a]))
    ([], [])

/-- Embeds `Manifest.Compare`.  `cs` is the checksum oracle used by the
`ChecksumFiles` call on the touched and changed groups. -/
def Manifest.Compare (before : Manifest) (cs : String → Bytes)
    (after : List File) : List File :=
  let tc := comparePass1 before after
  let groups := ChecksumFiles cs [tc.1, tc.2]
  let touched := groups.getD 0 []
  let changed := groups.getD 1 []
  changed ++ touched.filter (fun a =>
    match before.find a.path with
    | some b => a.sha1 ≠ b.file.sha1
    | none => false)

/-! ### Update and LatestEntries -/

/-- The loop body of `Manifest.Update` for one file of a bundle with
storage key `key`: build the new entry and either overwrite in place
(same cell, hence same index) or append. -/
def updateOne (set : String) (key : String) (m : Manifest) (f : File) :
    Manifest :=
  let parts : List ManifestEntryPart := if f.isDir then [] else [⟨key, (0, 0)⟩]
  let newEntry : ManifestEntry := ⟨f, set, parts⟩
  match m.pathMap f.path with
  | some i => { m with entries := m.entries.set i newEntry }
  | none =>
      { m with
        entries := m.entries ++ [newEntry],
        pathMap := fun p =>
          if p = f.path then some m.entries.length else m.pathMap p }

/-- Embeds `Manifest.Update`.  The wall clock is abstracted: `newSet` is
the fresh `manifestKey(now)` and `now` the update time. -/
def Manifest.Update (m : Manifest) (cs : String → Bytes) (newSet : String)
    (now : Int) (files : List File) : Manifest :=
  let files := (ChecksumFiles cs [files]).getD 0 []
  let m := { m with lastSet := newSet, updated := now }
  let bundles := bundleSmallFilesAcrossPaths files
  (bundles.enum).foldl
    (fun m kb => kb.2.foldl (updateOne newSet (keyFactory bundles.length kb.1)) m)
    m

/-- Embeds `NewManifest`. -/
def NewManifest (cs : String → Bytes) (newSet : String) (now : Int)
    (files : List File) : Manifest :=
  let m : Manifest := ⟨0, "", 0, 0, [], fun _ => none⟩
  let m := m.Update cs newSet now files
  { m with created := now }

/-- Embeds `Manifest.LatestEntries`, as an association list in first-use
order of the object keys (the Go map iteration order is arbitrary; the
claims quantify over the bundles, not their order). -/
def Manifest.LatestEntries (m : Manifest) : List (String × List ManifestEntry) :=
  let objsOf := fun (e : ManifestEntry) =>
    if e.set = m.lastSet then e.parts.map (fun p => m.lastSet ++ "/" ++ p.key)
    else []
  let keys := (m.entries.flatMap objsOf).dedup
  keys.map (fun k =>
    (k, m.entries.flatMap (fun e =>
      if e.set = m.lastSet then
        (e.parts.filter (fun p => m.lastSet ++ "/" ++ p.key = k)).map (fun _ => e)
      else [])))

/-! ## The backup orchestrator (backup/backup.go)

The store is reduced to what `backupLatest` observes of it: the set of
object keys present and the `manifest/latest` user-metadata pointer.
A failure oracle `fails : String → Bool` says, per bundle object key,
whether anything in its open-pack / put / close sequence errors; on
failure the mock storage layer retains no object (store_test.go
`TestPackerErrors` checks `IsNotExist` after a failed pack).  The Go
loop runs bundle uploads concurrently under a semaphore and joins on all
of them before `saveManifest`; each iteration touches only its own
bundle's paths, so the joined state is the sequential fold below. -/

/-- Observable store state. -/
structure StoreSt where
  objs : String → Bool
  latestPtr : Option String

/-- A put into the store. -/
def StoreSt.put (st : StoreSt) (key : String) : StoreSt :=
  { st with objs := fun k => if k = key then true else st.objs k }

/-- Embeds `saveManifest`: put `manifest/<lastSet>`, then set the
`manifest/latest` pointer (the local scratch file write is not part of
the store). -/
def saveManifest (st : StoreSt) (m : Manifest) : StoreSt :=
  { st.put ("manifest/" ++ m.lastSet) with latestPtr := some m.lastSet }

/-- Accumulator of the upload loop: store, manifest, and the running
`totalPuts` counter. -/
structure BackupAcc where
  store : StoreSt
  manifest : Manifest
  totalPuts : Int

/-- Embeds one bundle upload of `backupLatest`: on failure, remove every
file of the bundle from the manifest and decrement `totalPuts`; on
success the packed object lands in the store. -/
def backupBundle (fails : String → Bool) (acc : BackupAcc)
    (kv : String × List ManifestEntry) : BackupAcc :=
  let files := ((kv.2.filter (fun e => !e.file.isDir)).map (·.file))
  if fails kv.1 then
    { acc with
      manifest := files.foldl Manifest.remove2 acc.manifest,
      totalPuts := acc.totalPuts - 1 }
  else
    { acc with store := acc.store.put ("blob/" ++ kv.1) }

/-- Embeds `backupLatest`.  Returns the final store, manifest, counter
and whether the function returned nil (the final `saveManifest` store
writes are modelled as succeeding; a failure there is fatal and outside
these claims). -/
def backupLatest (fails : String → Bool) (st : StoreSt) (m : Manifest) :
    StoreSt × Manifest × Int × Bool :=
  let latest := m.LatestEntries
  let totalPuts : Int := latest.length
  if totalPuts > 0 then
    let acc := latest.foldl (backupBundle fails) ⟨st, m, totalPuts⟩
    (saveManifest acc.store acc.manifest, acc.manifest, acc.totalPuts, true)
  else
    (st, m, totalPuts, true)

/-- The paths `backupBundle` removes from the manifest when a bundle
fails: the non-directory files of its entries. -/
def bundleRemovedPaths (kv : String × List ManifestEntry) : List String :=
  ((kv.2.filter (fun e => !e.file.isDir)).map (·.file)).map File.path

/-! ## JSON values and the version dispatch (util/json.go, store/metadata.go)

JSON text that fails to scan is `none`; otherwise the parsed value.
Numbers are restricted to integers: the decoded fields are all Go
integer types, and a fractional value fails their decode just as a
wrong type does. -/

/-- A parsed JSON value. -/
inductive JVal where
  | jnull
  | jbool (b : Bool)
  | jnum (n : Int)
  | jstr (s : String)
  | jarr (xs : List JVal)
  | jobj (kvs : List (String × JVal))

/-- Last value bound to a key in an object (Go's decoder lets later
duplicate keys win). -/
def jlookup (k : String) : List (String × JVal) → Option JVal
  | [] => none
  | kv :: rest => match jlookup k rest with
    | some v => some v
    | none => if kv.1 = k then some kv.2 else none

/-- Embeds `util.ParseVersionJSON`: unmarshal into a struct with a
single int field decoded from key "version".  A missing key or a null
leaves the field at zero; a non-object document other than null, or a
non-integer version value, makes the unmarshal fail. -/
def ParseVersionJSON (raw : Option JVal) : Option Int :=
  match raw with
  | none => none
  | some .jnull => some 0
  | some (.jobj kvs) =>
      match jlookup "version" kvs with
      | none => some 0
      | some .jnull => some 0
      | some (.jnum n) => some n
      | some _ => none
  | some _ => none

/-- Outcome of `getStoreMetadata`'s parsing path. -/
inductive MetaResult where
  | ok
  | errMalformedMetadata
  | errBadVersion

/-- Embeds the parsing tail of `Store.getStoreMetadata` (after the layer
read): dispatch on `ParseVersionJSON`; in the version-1 arm run the full
struct unmarshal `dec` and fall through to `ErrMalformedMetadata` when
it fails.  `dec` stands for `json.Unmarshal(data, &md)`. -/
def getStoreMetadata (dec : JVal → Bool) (raw : Option JVal) : MetaResult :=
  match ParseVersionJSON raw with
  | some v =>
      if v = 1 then
        match raw with
        | some j => if dec j then .ok else .errMalformedMetadata
        | none => .errMalformedMetadata
      else .errBadVersion
  | none => .errMalformedMetadata

/-! ## Manifest JSON decoding (backup/manifest.go, backup/compatibility.go)

Decoding can end three ways: a value, an error returned to the caller,
or a runtime panic (the decoders dereference `*keymap[k]` without a nil
check, and the v2 `"_"` handler indexes `setKey[1]` without a length
check).  Go library primitives appear as parameters: `pt` is
`time.Time.UnmarshalJSON` (RFC3339 text to a time value, `none` on bad
format) and `b64` is base64 decoding for `[]byte` fields.  Error
messages are not modelled: the decoders collect field errors in a map
and return one in map-iteration order, which Go does not determinise. -/

/-- Outcome of a decode: value, error, or runtime panic. -/
inductive DRes (α : Type) where
  | ok (a : α)
  | err
  | panic
deriving Repr

/-- Whether a decode panicked. -/
def DRes.isPanic : DRes α → Bool
  | .panic => true
  | _ => false

/-- Whether a decode produced a value. -/
def DRes.isOk : DRes α → Bool
  | .ok _ => true
  | _ => false

/-- Go `json.Unmarshal` of a value into a string field: null is a no-op,
a JSON string is taken, anything else errors. -/
def decStrField (cur : String) : JVal → DRes String
  | .jnull => .ok cur
  | .jstr s => .ok s
  | _ => .err

/-- Go `json.Unmarshal` into an int64 field. -/
def decIntField (cur : Int) : JVal → DRes Int
  | .jnull => .ok cur
  | .jnum n => .ok n
  | _ => .err

/-- Go `json.Unmarshal` into an `os.FileMode` (uint32) field: negative
or oversized numbers error. -/
def decModeField (cur : Nat) : JVal → DRes Nat
  | .jnull => .ok cur
  | .jnum n => if 0 ≤ n ∧ n < 2 ^ 32 then .ok n.toNat else .err
  | _ => .err

/-- Go `json.Unmarshal` into a `time.Time` field, via the parameter. -/
def decTimeField (pt : String → Option Int) (cur : Int) : JVal → DRes Int
  | .jnull => .ok cur
  | .jstr s => match pt s with
    | some t => .ok t
    | none => .err
  | _ => .err

/-- Go `copy(f.SHA1[:], b)`: write b over the front of the 20-byte
array, leaving the tail. -/
def copySHA1 (cur : Bytes) (b : Bytes) : Bytes :=
  b.take 20 ++ cur.drop (min 20 b.length)

/-- Go `json.Unmarshal` into a `[]byte` field: a base64 string. -/
def decSHA1Field (b64 : String → Option Bytes) (cur : Bytes) : JVal → DRes Bytes
  | .jnull => .ok cur
  | .jstr s => match b64 s with
    | some b => .ok (copySHA1 cur b)
    | none => .err
  | _ => .err

/-- Decode of a JSON array into `[2]int` (Go zeroes missing elements and
discards extras). -/
def decRangeField (cur : Int × Int) : JVal → DRes (Int × Int)
  | .jnull => .ok cur
  | .jarr xs =>
      match (xs.take 2).mapM (fun v => match v with
        | .jnum n => some n
        | _ => none) with
      | some ns => .ok (ns.getD 0 0, ns.getD 1 0)
      | none => .err
  | _ => .err

/-- Sequencing of decodes (an error or panic aborts what follows). -/
def DRes.bind : DRes α → (α → DRes β) → DRes β
  | .ok a, f => f a
  | .err, _ => .err
  | .panic, _ => .panic

/-- Standard struct decode of one `ManifestEntryPart` (no custom
unmarshaller: unknown keys ignored, null a no-op, fields read in JSON
order). -/
def decPart (j : JVal) : DRes ManifestEntryPart :=
  match j with
  | .jnull => .ok default
  | .jobj kvs =>
      kvs.foldl
        (fun (acc : DRes ManifestEntryPart) kv =>
          acc.bind fun p =>
            if kv.1 = "key" then
              (decStrField p.key kv.2).bind fun s => .ok { p with key := s }
            else if kv.1 = "range" then
              (decRangeField p.range kv.2).bind fun r => .ok { p with range := r }
            else .ok p)
        (.ok default)
  | _ => .err

/-- Decode of a list of JSON values, aborting at the first failure (the
Go array walker propagates element failures at once). -/
def decList (dec : JVal → DRes α) : List JVal → DRes (List α)
  | [] => .ok []
  | x :: xs => (dec x).bind fun a => (decList dec xs).bind fun as => .ok (a :: as)

/-- Decode of the optional `parts` field: a JSON array of parts. -/
def decPartsField (cur : List ManifestEntryPart) :
    JVal → DRes (List ManifestEntryPart)
  | .jnull => .ok cur
  | .jarr xs => decList decPart xs
  | _ => .err

/-- Embeds `ManifestEntry.UnmarshalJSON` (the v3 entry codec).  The map
literal dereferences `*keymap[k]` for root, name, mode, mtime, uid, gid
and set in source order, so the first missing key is a nil-pointer
panic; a JSON null decodes into the keymap as a nil map with the same
effect.  Field decode errors are collected and one is returned; the
optional parts, size and sha1 fields decode afterwards. -/
def unmarshalEntryV3 (pt : String → Option Int) (b64 : String → Option Bytes)
    (j : JVal) : DRes ManifestEntry :=
  match j with
  | .jnull => .panic
  | .jobj kvs =>
      match jlookup "root" kvs, jlookup "name" kvs, jlookup "mode" kvs,
            jlookup "mtime" kvs, jlookup "uid" kvs, jlookup "gid" kvs,
            jlookup "set" kvs with
      | some vroot, some vname, some vmode, some vmtime, some vuid,
        some vgid, some vset =>
          (decStrField "" vroot).bind fun root =>
          (decStrField "" vname).bind fun name =>
          (decModeField 0 vmode).bind fun mode =>
          (decTimeField pt 0 vmtime).bind fun mtime =>
          (decIntField 0 vuid).bind fun uid =>
          (decIntField 0 vgid).bind fun gid =>
          (decStrField "" vset).bind fun set =>
          ((jlookup "parts" kvs).elim (.ok []) (decPartsField [])).bind fun parts =>
          ((jlookup "size" kvs).elim (.ok 0) (decIntField 0)).bind fun size =>
          ((jlookup "sha1" kvs).elim (.ok zeroSHA1) (decSHA1Field b64 zeroSHA1)).bind
            fun sha1 =>
          .ok ⟨⟨root, name, size, mode, mtime, uid, gid, sha1⟩, set, parts⟩
      | _, _, _, _, _, _, _ => .panic
  | _ => .err

/-- Partial manifest fields accumulated by the v3 struct decode. -/
structure ManifestFields where
  version : Int := 0
  lastSet : String := ""
  created : Int := 0
  updated : Int := 0
  entries : List ManifestEntry := []

/-- Embeds `Manifest.UnmarshalJSON` (the v3 codec): a standard struct
decode walking the JSON keys in document order, followed by
`buildPathMap`. -/
def unmarshalManifestV3 (pt : String → Option Int) (b64 : String → Option Bytes)
    (j : JVal) : DRes Manifest :=
  let finish := fun (t : ManifestFields) =>
    DRes.ok (Manifest.mk t.version t.lastSet t.created t.updated t.entries
      (buildPathMap t.entries))
  match j with
  | .jnull => finish {}
  | .jobj kvs =>
      (kvs.foldl
        (fun (acc : DRes ManifestFields) kv =>
          acc.bind fun t =>
            if kv.1 = "version" then
              (decIntField t.version kv.2).bind fun v => .ok { t with version := v }
            else if kv.1 = "lastSet" then
              (decStrField t.lastSet kv.2).bind fun s => .ok { t with lastSet := s }
            else if kv.1 = "created" then
              (decTimeField pt t.created kv.2).bind fun c => .ok { t with created := c }
            else if kv.1 = "updated" then
              (decTimeField pt t.updated kv.2).bind fun u => .ok { t with updated := u }
            else if kv.1 = "entries" then
              (match kv.2 with
                | .jnull => .ok t
                | .jarr xs =>
                    (decList (unmarshalEntryV3 pt b64) xs).bind fun es =>
                      .ok { t with entries := es }
                | _ => .err)
            else .ok t)
        (.ok {}))
        |>.bind finish
  | _ => .err

/-- Embeds `unmarshalV2ManifestEntry`.  The map literal dereferences
root, name, mode, mtime, uid, gid in source order (nil pointer panic on
first missing key; a null entry has the same effect through a nil map);
the optional `"_"` value splits on "/" and indexes element 1, an
out-of-range panic when the string has no slash (a null `"_"` leaves
the string empty with the same effect); sha1 is optional. -/
def unmarshalEntryV2 (pt : String → Option Int) (b64 : String → Option Bytes)
    (j : JVal) : DRes ManifestEntry :=
  match j with
  | .jnull => .panic
  | .jobj kvs =>
      match jlookup "root" kvs, jlookup "name" kvs, jlookup "mode" kvs,
            jlookup "mtime" kvs, jlookup "uid" kvs, jlookup "gid" kvs with
      | some vroot, some vname, some vmode, some vmtime, some vuid, some vgid =>
          (decStrField "" vroot).bind fun root =>
          (decStrField "" vname).bind fun name =>
          (decModeField 0 vmode).bind fun mode =>
          (decTimeField pt 0 vmtime).bind fun mtime =>
          (decIntField 0 vuid).bind fun uid =>
          (decIntField 0 vgid).bind fun gid =>
          ((jlookup "size" kvs).elim (.ok 0) (decIntField 0)).bind fun size =>
          (DRes.bind
            (match jlookup "_" kvs with
            | none => DRes.ok ("", ([] : List ManifestEntryPart))
            | some v =>
                (decStrField "" v).bind fun obj =>
                  let setKey := obj.splitOn "/"
                  if h : 1 < setKey.length then
                    .ok (setKey.headD "",
                      [ManifestEntryPart.mk (setKey.get ⟨1, h⟩) (0, 0)])
                  else .panic))
            fun sp =>
          ((jlookup "sha1" kvs).elim (.ok zeroSHA1) (decSHA1Field b64 zeroSHA1)).bind
            fun sha1 =>
          .ok ⟨⟨root, name, size, mode, mtime, uid, gid, sha1⟩, sp.1, sp.2⟩
      | _, _, _, _, _, _ => .panic
  | _ => .err

/-- Embeds `unmarshalV2ManifestEntries`: unmarshal into a list of raw
messages (null gives an empty slice) and decode each in order. -/
def unmarshalEntriesV2 (pt : String → Option Int) (b64 : String → Option Bytes) :
    JVal → DRes (List ManifestEntry)
  | .jnull => .ok []
  | .jarr xs => decList (unmarshalEntryV2 pt b64) xs
  | _ => .err

/-- Embeds `unmarshalV2Manifest`: the map literal dereferences
`*keymap[k]` for version, key, created and entries in source order
(panic on the first missing one), decodes the four fields, and builds
the path map. -/
def unmarshalManifestV2 (pt : String → Option Int) (b64 : String → Option Bytes)
    (j : JVal) : DRes Manifest :=
  match j with
  | .jnull => .panic
  | .jobj kvs =>
      match jlookup "version" kvs, jlookup "key" kvs, jlookup "created" kvs,
            jlookup "entries" kvs with
      | some vver, some vkey, some vcreated, some ventries =>
          (decIntField 0 vver).bind fun ver =>
          (decStrField "" vkey).bind fun lastSet =>
          (decTimeField pt 0 vcreated).bind fun created =>
          (unmarshalEntriesV2 pt b64 ventries).bind fun es =>
          .ok (Manifest.mk ver lastSet created 0 es (buildPathMap es))
      | _, _, _, _ => .panic
  | _ => .err

/-- Embeds `ReadManifestData`: dispatch on `ParseVersionJSON` to the v2
or v3 codec; unknown versions are `ErrBadVersion` and an unreadable
version is `ErrMalformedConfig` (both plain errors here). -/
def ReadManifestData (pt : String → Option Int) (b64 : String → Option Bytes)
    (raw : Option JVal) : DRes Manifest :=
  match raw with
  | none => .err
  | some j =>
      match ParseVersionJSON (some j) with
      | none => .err
      | some v =>
          if v = 1 ∨ v = 2 then unmarshalManifestV2 pt b64 j
          else if v = 3 then unmarshalManifestV3 pt b64 j
          else .err

/-! ## The crypto envelope (store/crypto/crypto.go)

The AES-256 block cipher is abstracted as a pair of byte-block maps
(theorems hypothesise that they are mutually inverse and preserve the
16-byte block length, which `crypto/aes` guarantees); HMAC-SHA1 is a
map from the signed bytes to a 20-byte tag.  `encryptReader.Read` and
`decryptReader.Read` become step functions on explicit states; a run
of `ioutil.ReadAll`, or any other consumer, is a schedule of positive
read sizes driving the step function.  `io.CopyN(dst, src, n)` keeps
calling Read on src until it has n bytes or src is exhausted, so a
mid-pipeline wrapper that splits reads (e.g. `iotest.OneByteReader`)
does not change what one step transfers; feeding the decrypter from a
live encrypter is therefore the same as feeding it the byte string the
encrypter produces. -/

/-- Go `aes.BlockSize`. -/
def aesBlockSize : Nat := 16

/-- Go `c_HMAC_SIZE = sha1.Size`. -/
def c_HMAC_SIZE : Nat := 20

/-- An abstract block cipher (stands for `aes.NewCipher(encKey)`). -/
structure BlockCipher where
  enc : Bytes → Bytes
  dec : Bytes → Bytes

/-- Byte-wise xor of two blocks. -/
def xorBytes (a b : Bytes) : Bytes := List.zipWith Nat.xor a b

/-- CBC encryption of a whole number of blocks with chain value prev
(the state kept by `cipher.NewCBCEncrypter` across `CryptBlocks`
calls). -/
def cbcEnc (C : BlockCipher) (prev : Bytes) (bs : Bytes) : Bytes :=
  if h : bs = [] then []
  else
    let c := C.enc (xorBytes (bs.take aesBlockSize) prev)
    c ++ cbcEnc C c (bs.drop aesBlockSize)
termination_by bs.length
decreasing_by
  simp only [List.length_drop, aesBlockSize]
  have hl : bs.length ≠ 0 := fun hl => h (List.eq_nil_of_length_eq_zero hl)
  omega

/-- The CBC chain value after encrypting bs starting from prev. -/
def cbcEncChain (C : BlockCipher) (prev : Bytes) (bs : Bytes) : Bytes :=
  if h : bs = [] then prev
  else cbcEncChain C (C.enc (xorBytes (bs.take aesBlockSize) prev))
    (bs.drop aesBlockSize)
termination_by bs.length
decreasing_by
  simp only [List.length_drop, aesBlockSize]
  have hl : bs.length ≠ 0 := fun hl => h (List.eq_nil_of_length_eq_zero hl)
  omega

/-- CBC decryption of a whole number of blocks with chain value prev. -/
def cbcDec (C : BlockCipher) (prev : Bytes) (bs : Bytes) : Bytes :=
  if h : bs = [] then []
  else
    xorBytes (C.dec (bs.take aesBlockSize)) prev ++
      cbcDec C (bs.take aesBlockSize) (bs.drop aesBlockSize)
termination_by bs.length
decreasing_by
  simp only [List.length_drop, aesBlockSize]
  have hl : bs.length ≠ 0 := fun hl => h (List.eq_nil_of_length_eq_zero hl)
  omega

/-- The CBC chain value after decrypting bs starting from prev (the last
ciphertext block seen). -/
def cbcDecChain (prev : Bytes) (bs : Bytes) : Bytes :=
  if h : bs = [] then prev
  else cbcDecChain (bs.take aesBlockSize) (bs.drop aesBlockSize)
termination_by bs.length
decreasing_by
  simp only [List.length_drop, aesBlockSize]
  have hl : bs.length ≠ 0 := fun hl => h (List.eq_nil_of_length_eq_zero hl)
  omega

/-- Embeds `padBuffer`: PKCS#7 padding to the next whole block (a full
extra block when already aligned). -/
def padBytes (bs : Bytes) : Bytes :=
  let p := aesBlockSize - bs.length % aesBlockSize
  bs ++ List.replicate p p

/-- Outcome of `unpadBuffer`. -/
inductive UnpadRes where
  | ok (out : Bytes)
  | invalid (msg : String)
  | panicked

/-- Embeds `unpadBuffer`: read the final byte as the pad length,
validate it and the pad bytes, truncate.  An empty buffer indexes
`data[-1]` and a pad longer than the buffer slices out of range; both
are runtime panics in Go. -/
def unpadBytes (bs : Bytes) : UnpadRes :=
  if bs.length = 0 then .panicked
  else
    let p := bs.getLastD 0
    if p > aesBlockSize ∨ p = 0 then .invalid "invalid padding length"
    else if bs.length < p then .panicked
    else if (bs.drop (bs.length - p)).all (· = p) then
      .ok (bs.take (bs.length - p))
    else .invalid "invalid padding bytes"

/-- The envelope produced for plaintext x with initialisation vector iv:
what any complete read of `EncryptReader` yields. -/
def refEncrypt (C : BlockCipher) (mac : Bytes → Bytes) (iv x : Bytes) : Bytes :=
  let ct := cbcEnc C iv (padBytes x)
  iv ++ ct ++ mac (iv ++ ct)

/-- State of `encryptReader`: pending input, CBC chain value, the bytes
fed to the HMAC so far, the output buffer, and the end-of-input flag. -/
structure EncSt where
  text : Bytes
  prev : Bytes
  macMsg : Bytes
  buf : Bytes
  fin : Bool

/-- Embeds `EncryptReader`: the fresh reader seeds the buffer and the
HMAC with the IV. -/
def encInit (iv x : Bytes) : EncSt := ⟨x, iv, iv, iv, false⟩

/-- Embeds one call of `encryptReader.Read` with a buffer of size k:
drain the output buffer; if unsatisfied and not finished, pull the next
whole blocks from the input (padding and signing at end of input),
encrypt them in place, and drain again. -/
def encStep (C : BlockCipher) (mac : Bytes → Bytes) (k : Nat) (st : EncSt) :
    Bytes × EncSt :=
  let n := min k st.buf.length
  let out1 := st.buf.take n
  let buf1 := st.buf.drop n
  if n = k ∨ st.fin then (out1, { st with buf := buf1 })
  else
    let target := ((k - n) / aesBlockSize + 1) * aesBlockSize
    let fin2 := decide (st.text.length < target)
    let chunk := st.text.take target
    let text2 := st.text.drop target
    let padded := if fin2 then padBytes chunk else chunk
    let ct := cbcEnc C st.prev padded
    let prev2 := cbcEncChain C st.prev padded
    let macMsg2 := st.macMsg ++ ct
    let buf2 := if fin2 then ct ++ mac macMsg2 else ct
    let m := min (k - n) buf2.length
    (out1 ++ buf2.take m, ⟨text2, prev2, macMsg2, buf2.drop m, fin2⟩)

/-- Drive `encryptReader` with read sizes `sched i, sched (i+1), ...`
until it reports end of stream, collecting the output; none when the
fuel runs out first. -/
def encDrive (C : BlockCipher) (mac : Bytes → Bytes) (sched : Nat → Nat) :
    Nat → Nat → EncSt → Option Bytes
  | 0, _, _ => none
  | fuel + 1, i, st =>
      if st.fin ∧ st.buf = [] then some []
      else
        let os := encStep C mac (sched i) st
        (encDrive C mac sched fuel (i + 1) os.2).map (fun rest => os.1 ++ rest)

/-- State of `decryptReader`: pending input, the read-ahead buffer of
undecrypted bytes, decrypted pending output, HMAC input so far, CBC
chain value, end-of-input flag. -/
structure DecSt where
  text : Bytes
  enc : Bytes
  buf : Bytes
  macMsg : Bytes
  prev : Bytes
  fin : Bool

/-- Result of one `decryptReader.Read` call: output and new state, an
error returned to the caller, or a runtime panic. -/
inductive DecStepRes where
  | cont (out : Bytes) (st : DecSt)
  | fail (msg : String)
  | panicked

/-- Shared tail of `decryptReader.Read`: move target bytes from the
read-ahead into the work buffer, HMAC then CBC-decrypt them, and at end
of input verify the trailing HMAC and strip the padding. -/
def decProcess (C : BlockCipher) (mac : Bytes → Bytes) (st : DecSt)
    (k n : Nat) (out1 : Bytes) (target : Nat) (enc1 text2 : Bytes)
    (fin2 : Bool) : DecStepRes :=
  let ctChunk := enc1.take target
  let enc2 := enc1.drop target
  let macMsg2 := st.macMsg ++ ctChunk
  let pt := cbcDec C st.prev ctChunk
  let prev2 := cbcDecChain st.prev ctChunk
  if fin2 then
    if mac macMsg2 ≠ enc2 then .fail "ciphertext not authentic"
    else
      match unpadBytes pt with
      | .panicked => .panicked
      | .invalid msg => .fail msg
      | .ok un =>
          let m := min (k - n) un.length
          .cont (out1 ++ un.take m) ⟨text2, enc2, un.drop m, macMsg2, prev2, true⟩
  else
    let m := min (k - n) pt.length
    .cont (out1 ++ pt.take m) ⟨text2, enc2, pt.drop m, macMsg2, prev2, false⟩

/-- Embeds one call of `decryptReader.Read` with a buffer of size k:
drain the plaintext buffer; if unsatisfied and not finished, read ahead
by `HMAC_size + 1` past the blocks needed so the trailing HMAC is never
decrypted.  At end of input the Go target `e.enc.Len() - c_HMAC_SIZE`
is a possibly negative int checked with truncated `%`; a negative
multiple of 16 slips through, `io.CopyN` then copies nothing and
returns no error, and the `copied != target` sanity check panics. -/
def decStep (C : BlockCipher) (mac : Bytes → Bytes) (k : Nat) (st : DecSt) :
    DecStepRes :=
  let n := min k st.buf.length
  let out1 := st.buf.take n
  let buf1 := st.buf.drop n
  if n = k ∨ st.fin then .cont out1 { st with buf := buf1 }
  else
    let target0 := ((k - n) / aesBlockSize + 1) * aesBlockSize
    let want := target0 + c_HMAC_SIZE + 1
    let fin2 := st.text.length < want
    let enc1 := st.enc ++ st.text.take want
    let text2 := st.text.drop want
    if fin2 then
      let ti : Int := (enc1.length : Int) - (c_HMAC_SIZE : Int)
      if ti.tmod 16 ≠ 0 then .fail "ciphertext is not a multiple of the block size"
      else if ti < 0 then .panicked
      else decProcess C mac st k n out1 ti.toNat enc1 text2 true
    else decProcess C mac st k n out1 target0 enc1 text2 false

/-- Embeds `aesCrypter.DecryptReader`: consume the 16-byte IV (too few
bytes is the "ciphertext too short" error), seed the HMAC with it. -/
def decInit (y : Bytes) : Option DecSt :=
  if y.length < aesBlockSize then none
  else some ⟨y.drop aesBlockSize, [], [], y.take aesBlockSize,
    y.take aesBlockSize, false⟩

/-- Outcome of a complete decrypting read: the plaintext, an error, or a
panic. -/
inductive DecOut where
  | bytes (bs : Bytes)
  | error (msg : String)
  | panicked
deriving Repr, DecidableEq

/-- Drive `decryptReader` with read sizes from the schedule until end of
stream, error, or panic; none when the fuel runs out first. -/
def decDrive (C : BlockCipher) (mac : Bytes → Bytes) (sched : Nat → Nat) :
    Nat → Nat → DecSt → Option DecOut
  | 0, _, _ => none
  | fuel + 1, i, st =>
      if st.fin ∧ st.buf = [] then some (.bytes [])
      else
        match decStep C mac (sched i) st with
        | .fail msg => some (.error msg)
        | .panicked => some .panicked
        | .cont out st2 =>
            (decDrive C mac sched fuel (i + 1) st2).map (fun r =>
              match r with
              | .bytes bs => .bytes (out ++ bs)
              | other => other)

/-- A complete decryption of the byte string y: `DecryptReader` followed
by reads of the scheduled sizes until the stream ends. -/
def decRun (C : BlockCipher) (mac : Bytes → Bytes) (sched : Nat → Nat)
    (fuel : Nat) (y : Bytes) : Option DecOut :=
  match decInit y with
  | none => some (.error "ciphertext too short")
  | some st => decDrive C mac sched fuel 0 st

/-! ## Concrete values used by counterexamples and witnesses -/

/-- A regular file of exactly the small-file cutoff size. -/
def c4file : File := ⟨"/d", "f", 64000, 0, 0, 0, 0, zeroSHA1⟩

/-- Fresh scan record (no checksum yet) used by the C3 witness. -/
def c3freshScan : File := ⟨"/a", "x", 6, 0, 11, 0, 0, zeroSHA1⟩

/-- Stored manifest entry used by the C3 counterexample. -/
def c3entry : ManifestEntry :=
  ⟨⟨"/a", "x", 5, 0, 10, 0, 0, List.replicate 20 1⟩, "s", []⟩

/-- A one-entry manifest. -/
def c3before : Manifest := ⟨3, "s", 0, 0, [c3entry], buildPathMap [c3entry]⟩

/-- A scanned file at the same path with equal size and mtime but a
different checksum. -/
def c3scan : File := ⟨"/a", "x", 5, 0, 10, 0, 0, List.replicate 20 2⟩

/-- First of two decoded entries sharing the path "/a/x". -/
def c5e1 : ManifestEntry := ⟨⟨"/a", "x", 1, 0, 0, 0, 0, zeroSHA1⟩, "s", []⟩

/-- Second decoded entry at the same path. -/
def c5e2 : ManifestEntry := ⟨⟨"/a", "x", 2, 0, 0, 0, 0, zeroSHA1⟩, "s", []⟩

/-- A version-3 manifest entry object with the seven required keys. -/
def c5jentry (size : Int) : JVal :=
  .jobj [("root", .jstr "/a"), ("name", .jstr "x"), ("mode", .jnum 0),
    ("mtime", .jstr "t"), ("uid", .jnum 0), ("gid", .jnum 0),
    ("set", .jstr "s"), ("size", .jnum size)]

/-- A version-3 manifest document whose two entries share one path. -/
def c5json : JVal :=
  .jobj [("version", .jnum 3), ("entries", .jarr [c5jentry 1, c5jentry 2])]

/-- The manifest that decoding `c5json` produces. -/
def c5decoded : Manifest :=
  ⟨3, "", 0, 0, [c5e1, c5e2], buildPathMap [c5e1, c5e2]⟩

/-- A store with no objects and no pointer. -/
def stEmpty : StoreSt := ⟨fun _ => false, none⟩

/-- A directory entry (Go mode bit 31 set). -/
def c10dir : File := ⟨"/d", "sub", 0, 2 ^ 31, 5, 0, 0, zeroSHA1⟩

/-- The empty manifest value. -/
def mEmpty : Manifest := ⟨0, "", 0, 0, [], fun _ => none⟩

/-- A manifest holding one freshly-backed-up small file, as `Update`
builds it. -/
def c2m : Manifest := NewManifest (fun _ => zeroSHA1) "aaaa" 0 [c3freshScan]

/-- The identity block cipher: a concrete `BlockCipher` for witnesses
(it preserves block length and is its own inverse). -/
def idCipher : BlockCipher := ⟨fun b => b, fun b => b⟩

/-- A concrete 20-byte MAC for witnesses. -/
def zmac : Bytes → Bytes := fun _ => List.replicate 20 7

/-! ## Predicates used to state the claims -/

/-- The manifest invariant of the spec, with Go pointer identity read as
index identity: every path the index knows resolves to an entry at that
path, and every entry is indexed under its own path at its own
position.  Together these give at most one entry per path. -/
def Inv (m : Manifest) : Prop :=
  (∀ p i, m.pathMap p = some i →
    ∃ h : i < m.entries.length, (m.entries.get ⟨i, h⟩).path = p)
  ∧ ∀ i, (h : i < m.entries.length) →
      m.pathMap ((m.entries.get ⟨i, h⟩).path) = some i

/-- First-pass changed test of `Compare`: new path, or a non-directory
whose size differs from the stored entry. -/
def isNewOrResized (before : Manifest) (a : File) : Bool :=
  match before.find a.path with
  | none => true
  | some b => decide (¬a.isDir ∧ a.size ≠ b.file.size)

/-- First-pass touched test of `Compare`: known path, not caught by the
size test, mtime differing from the stored entry. -/
def isTouched (before : Manifest) (a : File) : Bool :=
  match before.find a.path with
  | none => false
  | some b =>
      decide (¬(¬a.isDir ∧ a.size ≠ b.file.size) ∧ a.modTime ≠ b.file.modTime)

/-- Every proper prefix of the bundle stays within the running-total
cap: the loop cuts before adding a file exactly when the total already
exceeds the cap, so whatever was in the bundle before its last file
obeys the cap. -/
def prefixBounded (b : List File) : Prop :=
  ∀ j, 0 < j → j < b.length → sumSizes (b.take j) ≤ c_BUNDLE_MAX_SIZE

/-- Files above the small-file cutoff only ever sit first in a bundle
(a big file forces a bundle break before it is added). -/
def bigOnlyFirst (b : List File) : Prop :=
  ∀ j, (hj : j < b.length) → 0 < j →
    ¬(b.get ⟨j, hj⟩).size > c_BUNDLE_LIMIT_SIZE

/-- Invariant of the emitted bundles of `bundleSmallFiles`. -/
def GoodOut (out : List (List File)) : Prop :=
  ∀ b ∈ out, b ≠ [] ∧ (∀ f ∈ b, f.isDir = false) ∧ prefixBounded b ∧
    bigOnlyFirst b

/-- Invariant of the `bundleSmallFiles` loop state. -/
def GoodSt (st : BsfState) : Prop :=
  GoodOut st.out ∧ (∀ f ∈ st.curr, f.isDir = false) ∧ prefixBounded st.curr ∧
    bigOnlyFirst st.curr ∧ st.currBytes = sumSizes st.curr ∧
    (∀ f ∈ st.dirs, f.isDir = true)

/-! # Theorems

Claim theorems are named after their claim ids in the results file;
everything else is shared supporting material. -/

/-! ## Hex key factory lemmas (claim C8) -/

theorem hexLog_pos (n : Nat) : 1 ≤ hexLog n := by
  rw [hexLog]
  split <;> omega

theorem hexLog_lt_pow (n : Nat) : n < 16 ^ hexLog n := by
  induction n using Nat.strong_induction_on with
  | _ n ih =>
    rw [hexLog]
    split
    · rename_i h
      simpa using h
    · rename_i h
      have hd : n / 16 < n := Nat.div_lt_self (by omega) (by omega)
      have hk := ih (n / 16) hd
      rw [pow_add, pow_one]
      omega

theorem hexLog_pow_le (n : Nat) (h16 : 16 ≤ n) : 16 ^ (hexLog n - 1) ≤ n := by
  induction n using Nat.strong_induction_on with
  | _ n ih =>
    rw [hexLog]
    rw [if_neg (by omega)]
    simp only [Nat.add_sub_cancel_left]
    by_cases hc : 16 ≤ n / 16
    · have hd : n / 16 < n := Nat.div_lt_self (by omega) (by omega)
      have hih := ih (n / 16) hd hc
      have hp : 1 ≤ hexLog (n / 16) := hexLog_pos _
      have hh : hexLog (n / 16) = (hexLog (n / 16) - 1) + 1 := by omega
      rw [hh, pow_succ]
      have : 16 ^ (hexLog (n / 16) - 1) * 16 ≤ (n / 16) * 16 :=
        Nat.mul_le_mul_right 16 hih
      omega
    · have h1 : hexLog (n / 16) = 1 := by
        rw [hexLog, if_pos (by omega)]
      rw [h1, pow_one]
      omega

theorem hexLog_mono {i j : Nat} (h : i ≤ j) : hexLog i ≤ hexLog j := by
  by_cases hi : i < 16
  · have h1 : hexLog i = 1 := by rw [hexLog, if_pos hi]
    rw [h1]
    exact hexLog_pos j
  · have h1 := hexLog_pow_le i (by omega)
    have h2 := hexLog_lt_pow j
    have h3 : 16 ^ (hexLog i - 1) < 16 ^ hexLog j := by omega
    have h4 := (Nat.pow_lt_pow_iff_right (by omega : 1 < 16)).mp h3
    omega

theorem hexLog_eq_clog (N : Nat) (hN : 1 ≤ N) :
    hexLog N = max 1 (Nat.clog 16 (N + 1)) := by
  have hlt := hexLog_lt_pow N
  have hpos := hexLog_pos N
  have hub : Nat.clog 16 (N + 1) ≤ hexLog N :=
    (Nat.le_pow_iff_clog_le (by omega)).mp (by omega)
  by_cases h16 : N < 16
  · have h1 : hexLog N = 1 := by rw [hexLog, if_pos h16]
    omega
  · have hlb := hexLog_pow_le N (by omega)
    have hcl : hexLog N - 1 < Nat.clog 16 (N + 1) :=
      (Nat.pow_lt_iff_lt_clog (by omega)).mp (by omega)
    omega

theorem hexDigits_length (n : Nat) : n ≠ 0 → (hexDigits n).length = hexLog n := by
  induction n using Nat.strong_induction_on with
  | _ n ih =>
    intro h
    rw [hexDigits, if_neg h, hexLog]
    by_cases h16 : n < 16
    · rw [if_pos h16, Nat.div_eq_of_lt h16, hexDigits]
      simp
    · rw [if_neg h16]
      have hd : n / 16 < n := Nat.div_lt_self (by omega) (by omega)
      have hne : n / 16 ≠ 0 := by
        have h2 := (Nat.one_le_div_iff (by omega : 0 < 16)).mpr (by omega : 16 ≤ n)
        omega
      rw [List.length_append, ih (n / 16) hd hne]
      simp
      omega

theorem hexStr_length (n : Nat) : (hexStr n).length = hexLog n := by
  rw [hexStr]
  by_cases h : n = 0
  · subst h
    rw [if_pos rfl, hexLog]
    decide
  · rw [if_neg h]
    have := hexDigits_length n h
    simpa [String.length] using this

theorem goHexPad_length (w n : Nat) :
    (goHexPad w n).length = max w (hexStr n).length := by
  rw [goHexPad]
  by_cases h : (hexStr n).length < w
  · rw [if_pos h, String.length_append]
    have hz : (String.mk (List.replicate (w - (hexStr n).length) '0')).length
        = w - (hexStr n).length := by
      show (List.replicate (w - (hexStr n).length) '0').length = _
      simp
    rw [hz]
    omega
  · rw [if_neg h]
    omega

theorem hexCharVal_hexDigit : ∀ d, d < 16 → hexCharVal (hexDigit d) = d := by
  decide

theorem hexVal_fold (n : Nat) :
    ∀ a, (hexDigits n).foldl (fun acc c => 16 * acc + hexCharVal c) a =
      a * 16 ^ (hexDigits n).length + n := by
  induction n using Nat.strong_induction_on with
  | _ n ih =>
    intro a
    by_cases h : n = 0
    · subst h
      rw [hexDigits]
      simp
    · rw [hexDigits, if_neg h, List.foldl_append, List.length_append]
      have hd : n / 16 < n := Nat.div_lt_self (by omega) (by omega)
      rw [ih (n / 16) hd a]
      simp only [List.foldl_cons, List.foldl_nil, List.length_cons,
        List.length_nil]
      have hv : hexCharVal (hexDigit (n % 16)) = n % 16 :=
        hexCharVal_hexDigit _ (Nat.mod_lt _ (by omega))
      rw [hv]
      have hnm := Nat.div_add_mod n 16
      have hp : 16 ^ (0 + 1) = 16 := by norm_num
      calc 16 * (a * 16 ^ (hexDigits (n / 16)).length + n / 16) + n % 16
          = a * (16 ^ (hexDigits (n / 16)).length * 16) +
              (16 * (n / 16) + n % 16) := by ring
        _ = a * 16 ^ ((hexDigits (n / 16)).length + (0 + 1)) + n := by
              rw [hnm, pow_add, hp]

theorem hexVal_hexStr (n : Nat) : hexVal (hexStr n) = n := by
  rw [hexStr]
  by_cases h : n = 0
  · subst h
    decide
  · rw [if_neg h, hexVal]
    show (hexDigits n).foldl _ 0 = n
    rw [hexVal_fold n 0]
    simp

theorem hexVal_zero_pad (m : Nat) (l : List Char) :
    (List.replicate m '0' ++ l).foldl (fun acc c => 16 * acc + hexCharVal c) 0 =
      l.foldl (fun acc c => 16 * acc + hexCharVal c) 0 := by
  rw [List.foldl_append]
  congr 1
  induction m with
  | zero => simp
  | succ m ihm =>
      rw [List.replicate_succ, List.foldl_cons]
      simpa using ihm

theorem hexVal_goHexPad (w n : Nat) : hexVal (goHexPad w n) = n := by
  rw [goHexPad]
  by_cases h : (hexStr n).length < w
  · simp only [if_pos h]
    show ((String.mk (List.replicate (w - (hexStr n).length) '0') ++
      hexStr n).data).foldl _ 0 = n
    rw [String.data_append]
    show (List.replicate (w - (hexStr n).length) '0' ++ (hexStr n).data).foldl _ 0 = n
    rw [hexVal_zero_pad]
    exact hexVal_hexStr n
  · simp only [if_neg h]
    exact hexVal_hexStr n

/-- Claim C8: for every N at least 1, the key factory created with N
yields, at its i-th call, the lowercase hex string for i zero-padded to
exactly the minimum width expressing N, namely the ceiling of
log16(N+1) with a lower bound of 1 (stated with `Nat.clog`); the
first N keys decode densely to 0..N-1 and are pairwise distinct. -/
theorem C8_keyFactory_dense_padded (N : Nat) (hN : 1 ≤ N) :
    hexLog N = max 1 (Nat.clog 16 (N + 1))
    ∧ (∀ i, i < N → (keyFactory N i).length = max 1 (Nat.clog 16 (N + 1)))
    ∧ (∀ i, hexVal (keyFactory N i) = i)
    ∧ (∀ i j, i < N → j < N → i ≠ j → keyFactory N i ≠ keyFactory N j) := by
  refine ⟨hexLog_eq_clog N hN, fun i hi => ?_, fun i => hexVal_goHexPad _ i,
    fun i j _ _ hne heq => ?_⟩
  · rw [← hexLog_eq_clog N hN, keyFactory, goHexPad_length, hexStr_length]
    have := hexLog_mono (Nat.le_of_lt hi)
    omega
  · have h1 := hexVal_goHexPad (hexLog N) i
    have h2 := hexVal_goHexPad (hexLog N) j
    rw [keyFactory] at heq
    rw [keyFactory] at heq
    rw [heq] at h1
    omega

/-- Witness for C8 at N = 3. -/
theorem C8_keyFactory_dense_padded_witness :
    1 ≤ 3
    ∧ (hexLog 3 = max 1 (Nat.clog 16 (3 + 1))
      ∧ (∀ i, i < 3 → (keyFactory 3 i).length = max 1 (Nat.clog 16 (3 + 1)))
      ∧ (∀ i, hexVal (keyFactory 3 i) = i)
      ∧ (∀ i j, i < 3 → j < 3 → i ≠ j → keyFactory 3 i ≠ keyFactory 3 j)) :=
  ⟨by decide, C8_keyFactory_dense_padded 3 (by decide)⟩

/-! ## Bundler lemmas (claim C4) -/

theorem sumSizes_append (a b : List File) :
    sumSizes (a ++ b) = sumSizes a + sumSizes b := by
  simp [sumSizes]

theorem sumSizes_nil : sumSizes [] = 0 := rfl

theorem prefixBounded_nil : prefixBounded [] := by
  intro j hj hlt
  simp at hlt

theorem prefixBounded_singleton (f : File) : prefixBounded [f] := by
  intro j hj hlt
  simp at hlt
  omega

theorem prefixBounded_append (b : List File) (f : File)
    (hb : prefixBounded b) (hs : sumSizes b ≤ c_BUNDLE_MAX_SIZE) :
    prefixBounded (b ++ [f]) := by
  intro j hj hlt
  simp only [List.length_append, List.length_singleton] at hlt
  have hle : j ≤ b.length := by omega
  rw [List.take_append_of_le_length hle]
  by_cases hcase : j < b.length
  · exact hb j hj hcase
  · have : j = b.length := by omega
    rw [this, List.take_length]
    exact hs

theorem bigOnlyFirst_nil : bigOnlyFirst [] := by
  intro j hj
  simp at hj

theorem bigOnlyFirst_singleton (f : File) : bigOnlyFirst [f] := by
  intro j hj hpos
  simp at hj
  omega

theorem bigOnlyFirst_append (b : List File) (f : File)
    (hb : bigOnlyFirst b) (hf : ¬f.size > c_BUNDLE_LIMIT_SIZE) :
    bigOnlyFirst (b ++ [f]) := by
  intro j hj hpos
  simp only [List.length_append, List.length_singleton] at hj
  by_cases hcase : j < b.length
  · have := hb j hcase hpos
    rw [List.get_eq_getElem] at *
    rwa [List.getElem_append_left hcase]
  · have hjb : j = b.length := by omega
    rw [List.get_eq_getElem]
    subst hjb
    simp
    omega

theorem goodSt_next {st : BsfState} (h : GoodSt st) :
    GoodSt (bsfNext st) ∧ (bsfNext st).curr = [] ∧
      (bsfNext st).currBytes = 0 ∧ (bsfNext st).dirs = st.dirs ∧
      GoodOut (bsfNext st).out := by
  obtain ⟨hout, hcd, hcp, hcb, hby, hd⟩ := h
  rw [bsfNext]
  by_cases hc : st.curr.length > 0
  · rw [if_pos hc]
    refine ⟨⟨?_, by simp, prefixBounded_nil, bigOnlyFirst_nil, by simp [sumSizes], hd⟩,
      rfl, rfl, rfl, ?_⟩
    · intro b hb
      simp only [List.mem_append, List.mem_singleton] at hb
      rcases hb with hb | hb
      · exact hout b hb
      · subst hb
        exact ⟨by intro hn; rw [hn] at hc; simp at hc, hcd, hcp, hcb⟩
    · intro b hb
      simp only [List.mem_append, List.mem_singleton] at hb
      rcases hb with hb | hb
      · exact hout b hb
      · subst hb
        exact ⟨by intro hn; rw [hn] at hc; simp at hc, hcd, hcp, hcb⟩
  · rw [if_neg hc]
    have hcurr : st.curr = [] := by
      cases hcc : st.curr with
      | nil => rfl
      | cons a l => rw [hcc] at hc; simp at hc
    refine ⟨⟨hout, hcd, hcp, hcb, hby, hd⟩, hcurr, ?_, rfl, hout⟩
    rw [hby, hcurr]
    rfl

theorem goodSt_append (st : BsfState) (f : File) (h : GoodSt st)
    (hdir : f.isDir = false)
    (hsum : sumSizes st.curr ≤ c_BUNDLE_MAX_SIZE)
    (hbig : f.size > c_BUNDLE_LIMIT_SIZE → st.curr = []) :
    GoodSt { st with curr := st.curr ++ [f],
                     currBytes := st.currBytes + f.size } := by
  obtain ⟨hout, hcd, hcp, hcb, hby, hd⟩ := h
  refine ⟨hout, ?_, prefixBounded_append _ _ hcp hsum, ?_, ?_, hd⟩
  · intro g hg
    simp only [List.mem_append, List.mem_singleton] at hg
    rcases hg with hg | hg
    · exact hcd g hg
    · subst hg; exact hdir
  · by_cases hfs : f.size > c_BUNDLE_LIMIT_SIZE
    · show bigOnlyFirst (st.curr ++ [f])
      rw [hbig hfs]
      simpa using bigOnlyFirst_singleton f
    · exact bigOnlyFirst_append _ _ hcb hfs
  · show st.currBytes + f.size = sumSizes (st.curr ++ [f])
    rw [hby, sumSizes_append]
    simp [sumSizes]

theorem goodSt_step {st : BsfState} (f : File) (h : GoodSt st) :
    GoodSt (bsfStep st f) ∧
      (bsfStep st f).dirs = st.dirs ++ (if f.isDir then [f] else []) := by
  rw [bsfStep]
  by_cases hdir : f.isDir
  · rw [if_pos hdir, if_pos hdir]
    obtain ⟨hout, hcd, hcp, hcb, hby, hd⟩ := h
    refine ⟨⟨hout, hcd, hcp, hcb, hby, ?_⟩, rfl⟩
    intro g hg
    simp only [List.mem_append, List.mem_singleton] at hg
    rcases hg with hg | hg
    · exact hd g hg
    · subst hg; exact hdir
  · rw [if_neg hdir, if_neg hdir]
    dsimp only
    have hdb : f.isDir = false := by simpa using hdir
    by_cases hf : f.size > c_BUNDLE_LIMIT_SIZE
    · rw [if_pos hf]
      obtain ⟨hg1, hc1, hb1, hd1, _⟩ := goodSt_next h
      rw [hb1, if_neg (by norm_num [c_BUNDLE_MAX_SIZE])]
      refine ⟨goodSt_append _ f hg1 hdb ?_ (fun _ => hc1), by simp [hd1]⟩
      rw [hc1, sumSizes_nil]
      norm_num [c_BUNDLE_MAX_SIZE]
    · rw [if_neg hf]
      by_cases h2 : st.currBytes > c_BUNDLE_MAX_SIZE
      · rw [if_pos h2]
        obtain ⟨hg1, hc1, hb1, hd1, _⟩ := goodSt_next h
        refine ⟨goodSt_append _ f hg1 hdb ?_ (fun hb => absurd hb hf), by simp [hd1]⟩
        rw [hc1, sumSizes_nil]
        norm_num [c_BUNDLE_MAX_SIZE]
      · rw [if_neg h2]
        refine ⟨goodSt_append _ f h hdb ?_ (fun hb => absurd hb hf), by simp⟩
        have hby := h.2.2.2.2.1
        omega

theorem goodSt_foldl (b : List File) : ∀ st, GoodSt st →
    GoodSt (b.foldl bsfStep st) ∧
      (b.foldl bsfStep st).dirs = st.dirs ++ b.filter (fun f => f.isDir) := by
  induction b with
  | nil =>
      intro st h
      simpa using h
  | cons f fs ih =>
      intro st h
      obtain ⟨h1, hd1⟩ := goodSt_step f h
      obtain ⟨h2, hd2⟩ := ih _ h1
      rw [List.foldl_cons]
      refine ⟨h2, ?_⟩
      rw [hd2, hd1, List.filter_cons]
      by_cases hf : f.isDir
      · simp [hf]
      · simp [hf]

theorem goodSt_bundle (bundle : List File) (st : BsfState) (h : GoodSt st) :
    GoodSt (bsfBundle st bundle) ∧
      (bsfBundle st bundle).dirs = st.dirs ++ bundle.filter (fun f => f.isDir) := by
  obtain ⟨h1, hd1⟩ := goodSt_foldl bundle st h
  obtain ⟨h2, _, _, hd2, _⟩ := goodSt_next h1
  rw [bsfBundle]
  exact ⟨h2, by rw [hd2, hd1]⟩

theorem goodSt_foldl_bundles (inb : List (List File)) : ∀ st, GoodSt st →
    GoodSt (inb.foldl bsfBundle st) ∧
      (inb.foldl bsfBundle st).dirs =
        st.dirs ++ (inb.flatMap id).filter (fun f => f.isDir) := by
  induction inb with
  | nil =>
      intro st h
      simpa using h
  | cons b bs ih =>
      intro st h
      obtain ⟨h1, hd1⟩ := goodSt_bundle b st h
      obtain ⟨h2, hd2⟩ := ih _ h1
      rw [List.foldl_cons]
      refine ⟨h2, ?_⟩
      rw [hd2, hd1]
      simp [List.filter_append, List.append_assoc]

theorem goodSt_init : GoodSt ⟨[], [], 0, []⟩ := by
  refine ⟨?_, ?_, prefixBounded_nil, bigOnlyFirst_nil, rfl, ?_⟩
  · intro b hb
    simp at hb
  · intro f hf
    simp at hf
  · intro f hf
    simp at hf

theorem bundleSmallFiles_good (inb : List (List File)) :
    ∃ mains dirsb,
      bundleSmallFiles inb = mains ++ (if dirsb = [] then [] else [dirsb])
      ∧ GoodOut mains
      ∧ (∀ f ∈ dirsb, f.isDir = true)
      ∧ dirsb = (inb.flatMap id).filter (fun f => f.isDir) := by
  obtain ⟨hg, hd⟩ := goodSt_foldl_bundles inb ⟨[], [], 0, []⟩ goodSt_init
  refine ⟨(inb.foldl bsfBundle ⟨[], [], 0, []⟩).out,
    (inb.foldl bsfBundle ⟨[], [], 0, []⟩).dirs, ?_, hg.1, hg.2.2.2.2.2,
    by simpa using hd⟩
  rw [bundleSmallFiles]
  by_cases hdn : (inb.foldl bsfBundle ⟨[], [], 0, []⟩).dirs = []
  · rw [if_neg (by rw [hdn]; simp), if_pos hdn]
  · rw [if_pos (by cases hc : (inb.foldl bsfBundle ⟨[], [], 0, []⟩).dirs with
      | nil => exact absurd hc hdn
      | cons a l => simp), if_neg hdn]

theorem sumSizes_le_of_prefixBounded (b : List File) (hne : b ≠ [])
    (hp : prefixBounded b)
    (hsmall : ∀ f ∈ b, f.size ≤ c_BUNDLE_LIMIT_SIZE) :
    sumSizes b ≤ c_BUNDLE_MAX_SIZE + c_BUNDLE_LIMIT_SIZE := by
  have hb := List.dropLast_append_getLast hne
  have hsum : sumSizes b = sumSizes b.dropLast + (b.getLast hne).size := by
    conv_lhs => rw [← hb]
    rw [sumSizes_append]
    simp [sumSizes]
  have hlast : (b.getLast hne).size ≤ c_BUNDLE_LIMIT_SIZE :=
    hsmall _ (List.getLast_mem hne)
  have hdrop : sumSizes b.dropLast ≤ c_BUNDLE_MAX_SIZE := by
    by_cases h1 : b.length ≤ 1
    · have : b.dropLast = [] := by
        cases b with
        | nil => rfl
        | cons a l =>
            cases l with
            | nil => rfl
            | cons c m => simp at h1
      rw [this, sumSizes_nil]
      norm_num [c_BUNDLE_MAX_SIZE]
    · have hj := hp (b.length - 1) (by omega) (by omega)
      rwa [← List.dropLast_eq_take] at hj
  omega

/-- Claim C4, amended: the small-file bundling cuts a bundle when the
running total already exceeds BUNDLE_MAX before the next file is added,
so within every emitted non-directory bundle each proper prefix sums to
at most 1 024 000 bytes and, when all its files are at most SMALL_LIMIT,
the bundle total is at most 1 088 000 bytes (not 1 024 000 as claimed);
a file above SMALL_LIMIT only ever opens a bundle; the directory
bundle, when non-empty, comes last. -/
theorem C4_bundle_policy (files : List File) :
    ∃ mains dirsb,
      bundleSmallFilesAcrossPaths files =
        mains ++ (if dirsb = [] then [] else [dirsb])
      ∧ (∀ b ∈ mains,
          b ≠ [] ∧ (∀ f ∈ b, f.isDir = false) ∧ prefixBounded b ∧
            bigOnlyFirst b ∧
            ((∀ f ∈ b, f.size ≤ c_BUNDLE_LIMIT_SIZE) →
              sumSizes b ≤ c_BUNDLE_MAX_SIZE + c_BUNDLE_LIMIT_SIZE))
      ∧ (∀ f ∈ dirsb, f.isDir = true) := by
  obtain ⟨mains, dirsb, heq, hg, hdirs, _⟩ := bundleSmallFiles_good
    (sortBundlesByPath (splitBundlesBySizeLimit (makeBundle files)))
  refine ⟨mains, dirsb, heq, fun b hb => ?_, hdirs⟩
  obtain ⟨h1, h2, h3, h4⟩ := hg b hb
  exact ⟨h1, h2, h3, h4, fun hs => sumSizes_le_of_prefixBounded b h1 h3 hs⟩

/-- Witness for C4 at a one-file input. -/
theorem C4_bundle_policy_witness :
    ∃ mains dirsb,
      bundleSmallFilesAcrossPaths [c4file] =
        mains ++ (if dirsb = [] then [] else [dirsb])
      ∧ (∀ b ∈ mains,
          b ≠ [] ∧ (∀ f ∈ b, f.isDir = false) ∧ prefixBounded b ∧
            bigOnlyFirst b ∧
            ((∀ f ∈ b, f.size ≤ c_BUNDLE_LIMIT_SIZE) →
              sumSizes b ≤ c_BUNDLE_MAX_SIZE + c_BUNDLE_LIMIT_SIZE))
      ∧ (∀ f ∈ dirsb, f.isDir = true) :=
  C4_bundle_policy [c4file]

/-- Counterexample to claim C4 as stated: seventeen regular files of
exactly 64 000 bytes land in a single emitted bundle whose total,
1 088 000 bytes, exceeds BUNDLE_MAX = 1 024 000: the loop cuts only
when the running total already exceeds the cap. -/
theorem C4_counterexample :
    ∃ b ∈ bundleSmallFilesAcrossPaths (List.replicate 17 c4file),
      sumSizes b > c_BUNDLE_MAX_SIZE := by
  decide

/-! ## Compare lemmas (claim C3) -/

theorem comparePass1_eq (before : Manifest) (after : List File) :
    comparePass1 before after =
      (after.filter (isTouched before), after.filter (isNewOrResized before)) := by
  suffices h : ∀ (l : List File) (t c : List File),
      l.foldl
        (fun tc a =>
          match before.find a.path with
          | some b =>
              if ¬a.isDir ∧ a.size ≠ b.file.size then (tc.1, tc.2 ++ [a])
              else if a.modTime ≠ b.file.modTime then (tc.1 ++ [a], tc.2)
              else tc
          | none => (tc.1, tc.2 ++ [a])) (t, c) =
        (t ++ l.filter (isTouched before), c ++ l.filter (isNewOrResized before)) by
    simpa [comparePass1] using h after [] []
  intro l
  induction l with
  | nil =>
      intro t c
      simp
  | cons a l ih =>
      intro t c
      rw [List.foldl_cons, List.filter_cons, List.filter_cons]
      cases hf : before.find a.path with
      | none =>
          have h1 : isTouched before a = false := by
            simp [isTouched, hf]
          have h2 : isNewOrResized before a = true := by
            simp [isNewOrResized, hf]
          simp only [hf, h1, h2, ih]
          simp
      | some b =>
          by_cases hc : ¬a.isDir ∧ a.size ≠ b.file.size
          · have h1 : isTouched before a = false := by
              simp only [isTouched, hf]
              exact decide_eq_false (fun hpair => hpair.1 hc)
            have h2 : isNewOrResized before a = true := by
              simp only [isNewOrResized, hf]
              exact decide_eq_true hc
            simp only [hf, if_pos hc, h1, h2, ih]
            simp
          · by_cases hm : a.modTime ≠ b.file.modTime
            · have h1 : isTouched before a = true := by
                simp only [isTouched, hf]
                exact decide_eq_true ⟨hc, hm⟩
              have h2 : isNewOrResized before a = false := by
                simp only [isNewOrResized, hf]
                exact decide_eq_false hc
              simp only [hf, if_neg hc, if_pos hm, h1, h2, ih]
              simp
            · have h1 : isTouched before a = false := by
                simp only [isTouched, hf]
                exact decide_eq_false (fun hpair => hm hpair.2)
              have h2 : isNewOrResized before a = false := by
                simp only [isNewOrResized, hf]
                exact decide_eq_false hc
              simp only [hf, if_neg hc, if_neg hm, h1, h2, ih]
              simp

theorem checksumOne_of_clean (cs : String → Bytes) (f : File)
    (h : needsChecksum f = false) (hz : f.sha1 = zeroSHA1) :
    checksumOne cs f = f := by
  rw [checksumOne]
  have hnc : f.hasChecksum = false := by
    simp [File.hasChecksum, hz]
  rw [needsChecksum] at h
  simp only [hnc, Bool.not_false, Bool.and_true, Bool.or_eq_false_iff] at h
  rw [if_neg (by simp [h.1]), if_neg (by simp [h.2])]

theorem list_map_self {α : Type} (f : α → α) (l : List α)
    (h : ∀ x ∈ l, f x = x) : l.map f = l := by
  induction l with
  | nil => rfl
  | cons a l ih =>
      rw [List.map_cons, h a (by simp), ih (fun x hx => h x (by simp [hx]))]

theorem ChecksumFiles_fresh (cs : String → Bytes) (gs : List (List File))
    (hz : ∀ g ∈ gs, ∀ f ∈ g, f.sha1 = zeroSHA1) :
    ChecksumFiles cs gs = gs.map (List.map (checksumOne cs)) := by
  rw [ChecksumFiles]
  by_cases hall : gs.all (fun g => g.all (fun f => !needsChecksum f)) = true
  · rw [if_pos hall]
    simp only [List.all_eq_true, Bool.not_eq_true'] at hall
    symm
    apply list_map_self
    intro g hg
    apply list_map_self
    intro f hf
    exact checksumOne_of_clean cs f (hall g hg f hf) (hz g hg f hf)
  · rw [if_neg hall]

theorem checksumOne_path (cs : String → Bytes) (f : File) :
    (checksumOne cs f).path = f.path := by
  rw [checksumOne]
  split
  · rfl
  · split <;> rfl

/-- Claim C3, amended: over a fresh scan (scan records carry no
checksums), Compare returns exactly the new files and the
non-directories whose size differs, each with checksums filled in, plus
the files whose mtime differs (but which the size test did not catch)
and whose post-checksum sha1 differs from the stored one; consequently
a file whose mtime differs but whose sha1 matches is not returned, and
a file whose mtime and size both match is not returned, but a file
whose content hash differs while its size and mtime both match is not
returned either, so the returned set is not all of those whose
(size, sha1) pair differs. -/
theorem C3_compare_characterization (before : Manifest) (cs : String → Bytes)
    (after : List File) (hfresh : ∀ a ∈ after, a.sha1 = zeroSHA1) :
    before.Compare cs after =
      (after.filter (isNewOrResized before)).map (checksumOne cs)
      ++ ((after.filter (isTouched before)).map (checksumOne cs)).filter
          (fun a => match before.find a.path with
            | some b => a.sha1 ≠ b.file.sha1
            | none => false)
    ∧ ((after.map File.path).Nodup →
        ∀ a ∈ after, ∀ b, before.find a.path = some b →
        ((a.modTime = b.file.modTime ∧ (a.isDir = true ∨ a.size = b.file.size)) ∨
          ((checksumOne cs a).sha1 = b.file.sha1 ∧
            (a.isDir = true ∨ a.size = b.file.size))) →
        ¬ a.path ∈ (before.Compare cs after).map File.path) := by
  have hchar : before.Compare cs after =
      (after.filter (isNewOrResized before)).map (checksumOne cs)
      ++ ((after.filter (isTouched before)).map (checksumOne cs)).filter
          (fun a => match before.find a.path with
            | some b => a.sha1 ≠ b.file.sha1
            | none => false) := by
    rw [Manifest.Compare, comparePass1_eq,
      ChecksumFiles_fresh cs _ (by
        intro g hg f hf
        simp only [List.mem_cons, List.not_mem_nil, or_false] at hg
        rcases hg with hg | hg <;>
          exact hfresh f (List.mem_of_mem_filter (hg ▸ hf)))]
    simp
  refine ⟨hchar, fun hnd a ha b hb hgood hmem => ?_⟩
  rw [hchar] at hmem
  simp only [List.map_append, List.mem_append, List.mem_map] at hmem
  have hinj := List.inj_on_of_nodup_map hnd
  rcases hmem with ⟨x, ⟨a2, ha2, hxa⟩, hxp⟩ | ⟨x, hx, hxp⟩
  · have ha2f := List.mem_of_mem_filter ha2
    have hpath : a2.path = a.path := by
      rw [← hxp, ← hxa, checksumOne_path]
    have haa : a2 = a := hinj ha2f ha hpath
    subst haa
    have := List.of_mem_filter ha2
    rw [isNewOrResized, hb] at this
    have hprop := of_decide_eq_true this
    rcases hgood with ⟨_, hds⟩ | ⟨_, hds⟩ <;>
      rcases hds with hd | hs
    · exact hprop.1 (by simp [hd])
    · exact hprop.2 hs
    · exact hprop.1 (by simp [hd])
    · exact hprop.2 hs
  · have hxf := List.mem_of_mem_filter hx
    obtain ⟨a2, ha2, hxa⟩ := List.mem_map.mp hxf
    have ha2f := List.mem_of_mem_filter ha2
    have hpath : a2.path = a.path := by
      rw [← hxp, ← hxa, checksumOne_path]
    have haa : a2 = a := hinj ha2f ha hpath
    subst haa
    have htch := List.of_mem_filter ha2
    rw [isTouched, hb] at htch
    have htprop := of_decide_eq_true htch
    have hflt := List.of_mem_filter hx
    rw [← hxa] at hflt
    rw [show (checksumOne cs a2).path = a2.path from checksumOne_path cs a2,
      hb] at hflt
    have hsha := of_decide_eq_true hflt
    rcases hgood with ⟨hmt, _⟩ | ⟨hcs, _⟩
    · exact htprop.2 hmt
    · exact hsha hcs

/-- Witness for C3 at a fresh one-file scan against a one-entry
manifest. -/
theorem C3_compare_characterization_witness :
    (∀ a ∈ [c3freshScan], a.sha1 = zeroSHA1)
    ∧ (c3before.Compare (fun _ => List.replicate 20 2) [c3freshScan] =
        (([c3freshScan].filter (isNewOrResized c3before)).map
          (checksumOne (fun _ => List.replicate 20 2)))
        ++ ((([c3freshScan].filter (isTouched c3before)).map
          (checksumOne (fun _ => List.replicate 20 2))).filter
          (fun a => match c3before.find a.path with
            | some b => a.sha1 ≠ b.file.sha1
            | none => false))
      ∧ (([c3freshScan].map File.path).Nodup →
          ∀ a ∈ [c3freshScan], ∀ b, c3before.find a.path = some b →
          ((a.modTime = b.file.modTime ∧ (a.isDir = true ∨ a.size = b.file.size)) ∨
            ((checksumOne (fun _ => List.replicate 20 2) a).sha1 = b.file.sha1 ∧
              (a.isDir = true ∨ a.size = b.file.size))) →
          ¬ a.path ∈ (c3before.Compare (fun _ => List.replicate 20 2)
            [c3freshScan]).map File.path)) :=
  ⟨by decide, C3_compare_characterization c3before _ [c3freshScan] (by decide)⟩

/-- Counterexample to claim C3 as stated: a scanned file at a stored
path with equal size and mtime but different sha1 has a differing
(size, sha1) pair yet Compare returns nothing. -/
theorem C3_counterexample :
    c3before.Compare (fun _ => List.replicate 20 2) [c3scan] = []
    ∧ c3before.find c3scan.path = some c3entry
    ∧ c3scan.size = c3entry.file.size
    ∧ c3scan.sha1 ≠ c3entry.file.sha1 := by
  decide

/-! ## Manifest invariant lemmas (claim C5) -/

theorem Inv_updateOne (s k : String) (m : Manifest) (f : File) (h : Inv m) :
    Inv (updateOne s k m f) := by
  obtain ⟨h1, h2⟩ := h
  rw [updateOne]
  cases hf : m.pathMap f.path with
  | some i =>
      rw [Inv]
      dsimp only
      obtain ⟨hi, hip⟩ := h1 _ _ hf
      simp only [List.get_eq_getElem] at hip
      constructor
      · intro p j hpj
        obtain ⟨hj, hjp⟩ := h1 p j hpj
        simp only [List.get_eq_getElem] at hjp
        refine ⟨by simpa using hj, ?_⟩
        simp only [List.get_eq_getElem]
        by_cases hij : j = i
        · subst hij
          have hpf : p = f.path := by rw [← hjp, hip]
          rw [List.getElem_set_self]
          · rw [hpf]
            rfl
        · rw [List.getElem_set_ne (fun hne => hij hne.symm)]
          exact hjp
      · intro j hj
        simp only [List.length_set] at hj
        simp only [List.get_eq_getElem]
        by_cases hij : j = i
        · subst hij
          rw [List.getElem_set_self]
          show m.pathMap f.path = some j
          exact hf
        · rw [List.getElem_set_ne (fun hne => hij hne.symm)]
          exact h2 j hj
  | none =>
      rw [Inv]
      dsimp only
      constructor
      · intro p j hpj
        by_cases hpf : p = f.path
        · subst hpf
          simp only [if_pos rfl] at hpj
          have hj : j = m.entries.length := by
            cases hpj
            rfl
          subst hj
          refine ⟨by simp, ?_⟩
          simp only [List.get_eq_getElem]
          rw [List.getElem_append_right (by omega)]
          simp
          rfl
        · rw [if_neg hpf] at hpj
          obtain ⟨hj, hjp⟩ := h1 p j hpj
          refine ⟨by simp; omega, ?_⟩
          simp only [List.get_eq_getElem] at *
          rw [List.getElem_append_left hj]
          exact hjp
      · intro j hj
        simp only [List.length_append, List.length_singleton] at hj
        simp only [List.get_eq_getElem]
        by_cases hje : j < m.entries.length
        · rw [List.getElem_append_left hje]
          have hne : m.entries[j].path ≠ f.path := by
            intro heq
            have := h2 j hje
            simp only [List.get_eq_getElem] at this
            rw [heq, hf] at this
            cases this
          rw [if_neg hne]
          have := h2 j hje
          simpa using this
        · have hje2 : j = m.entries.length := by omega
          subst hje2
          rw [List.getElem_append_right (by omega)]
          simp only [Nat.sub_self]
          have : (ManifestEntry.mk f s
              (if f.isDir then [] else [⟨k, (0, 0)⟩])).path = f.path := rfl
          simp only [List.getElem_singleton]
          rw [this, if_pos rfl]

theorem Inv_foldl_updateOne (s k : String) (bundle : List File) :
    ∀ m, Inv m → Inv (bundle.foldl (updateOne s k) m) := by
  induction bundle with
  | nil => intro m h; exact h
  | cons f fs ih =>
      intro m h
      rw [List.foldl_cons]
      exact ih _ (Inv_updateOne s k m f h)

theorem Inv_foldl_bundles (s : String) (keyf : Nat → String)
    (bs : List (Nat × List File)) :
    ∀ m, Inv m →
      Inv (bs.foldl (fun m kb => kb.2.foldl (updateOne s (keyf kb.1)) m) m) := by
  induction bs with
  | nil => intro m h; exact h
  | cons kb rest ih =>
      intro m h
      rw [List.foldl_cons]
      exact ih _ (Inv_foldl_updateOne s (keyf kb.1) kb.2 m h)

theorem Inv_fields (m : Manifest) (v : Int) (ls : String) (c u : Int)
    (h : Inv m) :
    Inv ⟨v, ls, c, u, m.entries, m.pathMap⟩ := h

theorem Inv_Update (m : Manifest) (cs : String → Bytes) (newSet : String)
    (now : Int) (files : List File) (h : Inv m) :
    Inv (m.Update cs newSet now files) := by
  rw [Manifest.Update]
  apply Inv_foldl_bundles
  exact h

theorem Inv_empty : Inv ⟨0, "", 0, 0, [], fun _ => none⟩ := by
  constructor
  · intro p i hpi
    cases hpi
  · intro i hi
    simp at hi

theorem Inv_congr (m2 m : Manifest) (he : m2.entries = m.entries)
    (hp : m2.pathMap = m.pathMap) (h : Inv m) : Inv m2 := by
  rw [Inv] at h ⊢
  rw [he, hp]
  exact h

theorem NewManifest_entries (cs : String → Bytes) (s2 : String) (n : Int)
    (fs : List File) :
    (NewManifest cs s2 n fs).entries =
      (Manifest.Update ⟨0, "", 0, 0, [], fun _ => none⟩ cs s2 n fs).entries := rfl

theorem NewManifest_pathMap (cs : String → Bytes) (s2 : String) (n : Int)
    (fs : List File) :
    (NewManifest cs s2 n fs).pathMap =
      (Manifest.Update ⟨0, "", 0, 0, [], fun _ => none⟩ cs s2 n fs).pathMap := rfl

theorem Inv_NewManifest (cs : String → Bytes) (newSet : String) (now : Int)
    (files : List File) : Inv (NewManifest cs newSet now files) :=
  Inv_congr _ _ (NewManifest_entries cs newSet now files)
    (NewManifest_pathMap cs newSet now files)
    (Inv_Update ⟨0, "", 0, 0, [], fun _ => none⟩ cs newSet now files Inv_empty)

theorem Inv_removeEntry (m : Manifest) (i : Nat) (p0 : String)
    (hInv : Inv m) (hp : m.pathMap p0 = some i) :
    Inv (m.removeEntry i) := by
  obtain ⟨h1, h2⟩ := hInv
  obtain ⟨hi, hip⟩ := h1 p0 i hp
  simp only [List.get_eq_getElem] at hip
  rw [Manifest.removeEntry, Inv]
  dsimp only
  have hlen : (((m.entries.set i (m.entries.getD (m.entries.length - 1) default)).take
      (m.entries.length - 1))).length = m.entries.length - 1 := by
    rw [List.length_take, List.length_set]
    omega
  have hlt1 : m.entries.length - 1 < m.entries.length := by omega
  have hlast : m.entries.getD (m.entries.length - 1) default =
      m.entries[m.entries.length - 1] :=
    List.getD_eq_getElem m.entries default hlt1
  have holdp : (m.entries.getD i default).path = p0 := by
    rw [List.getD_eq_getElem m.entries default hi, hip]
  constructor
  · intro p j hpj
    rw [holdp] at hpj
    by_cases hpo : p = p0
    · rw [if_pos hpo] at hpj
      cases hpj
    · rw [if_neg hpo] at hpj
      by_cases hpl : p = (m.entries.getD (m.entries.length - 1) default).path
      · rw [if_pos hpl] at hpj
        have hji : j = i := by cases hpj; rfl
        subst hji
        -- removing a non-last entry: the last entry's path lands at slot j
        have hjl : j ≠ m.entries.length - 1 := by
          intro heq
          apply hpo
          subst heq
          rw [hpl, hlast]
          exact hip
        refine ⟨by omega, ?_⟩
        simp only [List.get_eq_getElem]
        rw [List.getElem_take, List.getElem_set_self]
        · exact hpl.symm
      · rw [if_neg hpl] at hpj
        obtain ⟨hj, hjp⟩ := h1 p j hpj
        simp only [List.get_eq_getElem] at hjp
        have hjne : j ≠ m.entries.length - 1 := by
          intro heq
          apply hpl
          subst heq
          rw [hlast]
          exact hjp.symm
        have hjni : j ≠ i := by
          intro heq
          apply hpo
          subst heq
          rw [← hjp]
          exact hip
        refine ⟨by omega, ?_⟩
        simp only [List.get_eq_getElem]
        rw [List.getElem_take, List.getElem_set_ne (fun hne => hjni hne.symm)]
        exact hjp
  · intro j hj
    rw [hlen] at hj
    simp only [List.get_eq_getElem]
    rw [holdp]
    by_cases hji : j = i
    · subst hji
      rw [List.getElem_take, List.getElem_set_self]
      have hjl : j ≠ m.entries.length - 1 := by omega
      have hne : (m.entries.getD (m.entries.length - 1) default).path ≠ p0 := by
        rw [hlast]
        intro heq
        have := h2 (m.entries.length - 1) (by omega)
        simp only [List.get_eq_getElem] at this
        rw [heq, hp] at this
        have : m.entries.length - 1 = j := by cases this; rfl
        omega
      rw [if_neg hne, if_pos rfl]
    · rw [List.getElem_take, List.getElem_set_ne (fun hne => hji hne.symm)]
      have hjlen : j < m.entries.length := by omega
      have hq := h2 j hjlen
      simp only [List.get_eq_getElem] at hq
      have hqp0 : m.entries[j].path ≠ p0 := by
        intro heq
        rw [heq, hp] at hq
        have : i = j := by cases hq; rfl
        exact hji this.symm
      have hql : m.entries[j].path ≠
          (m.entries.getD (m.entries.length - 1) default).path := by
        rw [hlast]
        intro heq
        have hlast2 := h2 (m.entries.length - 1) (by omega)
        simp only [List.get_eq_getElem] at hlast2
        rw [← heq, hq] at hlast2
        have : j = m.entries.length - 1 := by cases hlast2; rfl
        omega
      rw [if_neg hqp0, if_neg hql]
      exact hq

theorem Inv_Remove (m : Manifest) (f : File) (h : Inv m) :
    Inv (m.Remove f).2 := by
  rw [Manifest.Remove]
  cases hf : m.pathMap f.path with
  | none => exact h
  | some i => exact Inv_removeEntry m i f.path h hf

theorem buildPathMap_append (l : List ManifestEntry) (x : ManifestEntry) :
    buildPathMap (l ++ [x]) =
      fun p => if p = x.path then some l.length else buildPathMap l p := by
  rw [buildPathMap, List.enum_append, List.foldl_append]
  rw [buildPathMap]
  simp [List.enumFrom]

theorem buildPathMap_some (l : List ManifestEntry) :
    ∀ p i, buildPathMap l p = some i →
      ∃ h : i < l.length, (l.get ⟨i, h⟩).path = p := by
  induction l using List.reverseRecOn with
  | nil =>
      intro p i h
      simp [buildPathMap, List.enum] at h
  | append_singleton l x ih =>
      intro p i h
      rw [buildPathMap_append] at h
      dsimp only at h
      by_cases hp : p = x.path
      · rw [if_pos hp] at h
        have hil : i = l.length := by cases h; rfl
        subst hil
        refine ⟨by simp, ?_⟩
        simp only [List.get_eq_getElem]
        rw [List.getElem_append_right (by omega)]
        simp [hp]
      · rw [if_neg hp] at h
        obtain ⟨hi, hip⟩ := ih p i h
        refine ⟨by simp; omega, ?_⟩
        simp only [List.get_eq_getElem] at *
        rw [List.getElem_append_left hi]
        exact hip

theorem buildPathMap_complete : ∀ (l : List ManifestEntry),
    (l.map ManifestEntry.path).Nodup →
    ∀ i, (h : i < l.length) → buildPathMap l ((l.get ⟨i, h⟩).path) = some i := by
  intro l
  induction l using List.reverseRecOn with
  | nil =>
      intro _ i h
      simp at h
  | append_singleton l x ih =>
      intro hnd i h
      rw [List.map_append, List.nodup_append] at hnd
      obtain ⟨hnd1, _, hdisj⟩ := hnd
      rw [buildPathMap_append]
      dsimp only
      simp only [List.get_eq_getElem]
      simp only [List.length_append, List.length_singleton] at h
      by_cases hi : i < l.length
      · rw [List.getElem_append_left hi]
        have hmem : l[i].path ∈ l.map ManifestEntry.path :=
          List.mem_map_of_mem _ (List.getElem_mem hi)
        have hne : l[i].path ≠ x.path := by
          intro heq
          exact hdisj hmem (by simp [heq])
        rw [if_neg hne]
        exact ih hnd1 i hi
      · have hil : i = l.length := by omega
        subst hil
        rw [List.getElem_append_right (by omega)]
        simp only [Nat.sub_self, List.getElem_singleton]
        simp

/-- Claim C5, amended: NewManifest, Update and Remove preserve the
manifest invariant (unique paths, index correctness, index identity in
place of Go pointer identity); rebuilding the path index after
unmarshalling establishes the invariant provided the decoded entries
carry pairwise distinct paths — decoded data with two entries at one
path violates it (see the counterexample). -/
theorem C5_manifest_invariant :
    (∀ (m : Manifest) (cs : String → Bytes) (newSet : String) (now : Int)
      (files : List File), Inv m → Inv (m.Update cs newSet now files))
    ∧ (∀ (m : Manifest) (f : File), Inv m → Inv (m.Remove f).2)
    ∧ (∀ (cs : String → Bytes) (newSet : String) (now : Int)
        (files : List File), Inv (NewManifest cs newSet now files))
    ∧ (∀ (m : Manifest), m.pathMap = buildPathMap m.entries →
        (m.entries.map ManifestEntry.path).Nodup → Inv m) := by
  refine ⟨fun m cs newSet now files h => Inv_Update m cs newSet now files h,
    fun m f h => Inv_Remove m f h,
    fun cs newSet now files => Inv_NewManifest cs newSet now files,
    fun m hpm hnd => ⟨?_, ?_⟩⟩
  · intro p i hpi
    rw [hpm] at hpi
    exact buildPathMap_some m.entries p i hpi
  · intro i hlt
    rw [hpm]
    exact buildPathMap_complete m.entries hnd i hlt

/-- Witness for C5: the invariant established on a one-entry manifest,
then preserved through an update and a removal. -/
theorem C5_manifest_invariant_witness :
    Inv c3before
    ∧ Inv (c3before.Update (fun _ => zeroSHA1) "t" 1 [c3scan])
    ∧ Inv (c3before.Remove c3scan).2 := by
  have h4 := C5_manifest_invariant.2.2.2 c3before rfl (by decide)
  exact ⟨h4,
    C5_manifest_invariant.1 c3before (fun _ => zeroSHA1) "t" 1 [c3scan] h4,
    C5_manifest_invariant.2.1 c3before c3scan h4⟩

/-- Counterexample to claim C5 as stated: version-3 manifest data whose
two entries share the path "/a/x" unmarshals without error, but the
resulting manifest violates the invariant — the path map sends the
shared path to the second entry, so the first entry is not indexed
under its own path and two entries share one path. -/
theorem C5_counterexample :
    unmarshalManifestV3 (fun _ => some 0) (fun _ => some []) c5json =
      .ok c5decoded
    ∧ ¬ Inv c5decoded := by
  constructor
  · rfl
  · intro hInv
    have h0lt : 0 < c5decoded.entries.length := by decide
    have h0 := hInv.2 0 h0lt
    have hpath : (c5decoded.entries.get ⟨0, h0lt⟩).path = "/a/x" := rfl
    rw [hpath] at h0
    have hval : c5decoded.pathMap "/a/x" = some 1 := by decide
    rw [hval] at h0
    exact absurd h0 (by decide)

/-! ## Backup orchestrator lemmas (claims C2 and C10) -/

theorem string_append_left_cancel (a b c : String) (h : a ++ b = a ++ c) :
    b = c := by
  have hd : a.data ++ b.data = a.data ++ c.data := congrArg String.data h
  exact String.ext (List.append_cancel_left hd)

theorem manifest_blob_ne (s t : String) : "manifest/" ++ s ≠ "blob/" ++ t := by
  intro h
  have hd := congrArg (fun x => x.data.head?) h
  have h1 : ("manifest/" ++ s).data.head? = some 'm' := rfl
  have h2 : ("blob/" ++ t).data.head? = some 'b' := rfl
  simp only [h1, h2] at hd
  cases hd

theorem find_of_mem_inv (m : Manifest) (h : Inv m) (e : ManifestEntry)
    (he : e ∈ m.entries) : m.find e.path = some e := by
  obtain ⟨j, hj, hje⟩ := List.mem_iff_getElem.mp he
  have h2 := h.2 j hj
  simp only [List.get_eq_getElem, hje] at h2
  rw [Manifest.find, h2, Option.some_bind, List.getElem?_eq_getElem hj, hje]

theorem entry_unique_inv (m : Manifest) (h : Inv m) {e e2 : ManifestEntry}
    (he : e ∈ m.entries) (he2 : e2 ∈ m.entries) (hp : e.path = e2.path) :
    e = e2 := by
  have f1 := find_of_mem_inv m h e he
  have f2 := find_of_mem_inv m h e2 he2
  rw [hp, f2] at f1
  cases f1
  rfl

theorem find_remove2 (m : Manifest) (f : File) (h : Inv m) (p : String) :
    (m.remove2 f).find p = if p = f.path then none else m.find p := by
  rw [Manifest.remove2, Manifest.Remove]
  cases hf : m.pathMap f.path with
  | none =>
      dsimp only
      by_cases hp : p = f.path
      · rw [if_pos hp, hp, Manifest.find, hf]
        rfl
      · rw [if_neg hp]
  | some i =>
      dsimp only
      obtain ⟨hi, hip⟩ := h.1 f.path i hf
      simp only [List.get_eq_getElem] at hip
      have hlt1 : m.entries.length - 1 < m.entries.length := by omega
      have hlast : m.entries.getD (m.entries.length - 1) default =
          m.entries[m.entries.length - 1] :=
        List.getD_eq_getElem m.entries default hlt1
      have holdp : (m.entries.getD i default).path = f.path := by
        rw [List.getD_eq_getElem m.entries default hi, hip]
      rw [Manifest.removeEntry, Manifest.find]
      dsimp only
      rw [holdp]
      by_cases hp : p = f.path
      · rw [if_pos hp, if_pos hp]
        rfl
      · rw [if_neg hp, if_neg hp]
        by_cases hpl : p = (m.entries.getD (m.entries.length - 1) default).path
        · rw [if_pos hpl]
          have hii : i ≠ m.entries.length - 1 := by
            intro heq
            apply hp
            rw [hpl, hlast]
            subst heq
            exact hip
          have hfind : m.find p =
              some (m.entries[m.entries.length - 1]) := by
            rw [Manifest.find]
            have h2 := h.2 (m.entries.length - 1) (by omega)
            simp only [List.get_eq_getElem] at h2
            rw [hpl, hlast, h2, Option.some_bind,
              List.getElem?_eq_getElem (by omega : m.entries.length - 1 < m.entries.length)]
          rw [hfind, Option.some_bind]
          rw [List.getElem?_eq_getElem (by
            rw [List.length_take, List.length_set]
            omega)]
          rw [List.getElem_take, List.getElem_set_self]
          rw [hlast]
        · rw [if_neg hpl]
          rw [Manifest.find]
          cases hq : m.pathMap p with
          | none => rfl
          | some j =>
              obtain ⟨hj, hjp⟩ := h.1 p j hq
              simp only [List.get_eq_getElem] at hjp
              have hjne : j ≠ m.entries.length - 1 := by
                intro heq
                apply hpl
                subst heq
                rw [hlast]
                exact hjp.symm
              have hjni : j ≠ i := by
                intro heq
                apply hp
                subst heq
                rw [← hjp, hip]
              rw [Option.some_bind, Option.some_bind]
              rw [List.getElem?_eq_getElem (by
                  rw [List.length_take, List.length_set]
                  omega),
                List.getElem?_eq_getElem hj]
              rw [List.getElem_take, List.getElem_set_ne (fun hne => hjni hne.symm)]

theorem Inv_remove2 (m : Manifest) (f : File) (h : Inv m) :
    Inv (m.remove2 f) := Inv_Remove m f h

theorem Inv_removeList (fs : List File) :
    ∀ m, Inv m → Inv (fs.foldl Manifest.remove2 m) := by
  induction fs with
  | nil => intro m h; exact h
  | cons f fs ih =>
      intro m h
      rw [List.foldl_cons]
      exact ih _ (Inv_remove2 m f h)

theorem find_removeList (fs : List File) :
    ∀ m, Inv m → ∀ p,
      (fs.foldl Manifest.remove2 m).find p =
        if p ∈ fs.map File.path then none else m.find p := by
  induction fs with
  | nil =>
      intro m h p
      simp
  | cons f fs ih =>
      intro m h p
      rw [List.foldl_cons, ih _ (Inv_remove2 m f h) p, List.map_cons]
      by_cases hrest : p ∈ fs.map File.path
      · rw [if_pos hrest, if_pos (by simp [hrest])]
      · rw [if_neg hrest, find_remove2 m f h p]
        by_cases hf : p = f.path
        · rw [if_pos hf, if_pos (by simp [hf])]
        · rw [if_neg hf, if_neg (by simp [hf, hrest])]

/-- Characterization of the sequential fold of `backupBundle`. -/
theorem backupFold_spec (fails : String → Bool)
    (L : List (String × List ManifestEntry)) :
    ∀ (st : StoreSt) (m : Manifest) (t : Int), Inv m →
      Inv (L.foldl (backupBundle fails) ⟨st, m, t⟩).manifest
      ∧ (∀ p, (L.foldl (backupBundle fails) ⟨st, m, t⟩).manifest.find p =
          if p ∈ (L.filter (fun kv => fails kv.1)).flatMap bundleRemovedPaths
          then none else m.find p)
      ∧ (∀ k, (L.foldl (backupBundle fails) ⟨st, m, t⟩).store.objs k =
          (st.objs k ||
            (L.filter (fun kv => fails kv.1 = false)).any
              (fun kv => "blob/" ++ kv.1 = k)))
      ∧ (L.foldl (backupBundle fails) ⟨st, m, t⟩).totalPuts =
          t - ((L.filter (fun kv => fails kv.1)).length : Int) := by
  induction L with
  | nil =>
      intro st m t h
      refine ⟨h, fun p => by simp, fun k => by simp, by simp⟩
  | cons kv L ih =>
      intro st m t h
      rw [List.foldl_cons]
      by_cases hf : fails kv.1
      · have hstep : backupBundle fails ⟨st, m, t⟩ kv =
            ⟨st, (((kv.2.filter (fun e => !e.file.isDir)).map (·.file)).foldl
              Manifest.remove2 m), t - 1⟩ := by
          rw [backupBundle, if_pos hf]
        rw [hstep]
        have hInv2 := Inv_removeList
          ((kv.2.filter (fun e => !e.file.isDir)).map (fun x => x.file)) m h
        obtain ⟨ih1, ih2, ih3, ih4⟩ := ih st _ (t - 1) hInv2
        refine ⟨ih1, fun p => ?_, fun k => ?_, ?_⟩
        · rw [ih2 p]
          rw [find_removeList _ m h p]
          rw [List.filter_cons_of_pos (by simpa using hf), List.flatMap_cons]
          by_cases hrest : p ∈ (L.filter (fun kv => fails kv.1)).flatMap
              bundleRemovedPaths
          · rw [if_pos hrest, if_pos (by simp [hrest])]
          · rw [if_neg hrest]
            by_cases hme : p ∈ bundleRemovedPaths kv
            · rw [if_pos (by
                rw [bundleRemovedPaths] at hme
                exact hme), if_pos (by simp [hme])]
            · rw [if_neg (by
                rw [bundleRemovedPaths] at hme
                exact hme), if_neg (by simp [hme, hrest])]
        · rw [ih3 k, List.filter_cons_of_neg (by simpa using hf)]
        · rw [ih4, List.filter_cons_of_pos (by simpa using hf)]
          simp only [List.length_cons]
          push_cast
          ring
      · have hstep : backupBundle fails ⟨st, m, t⟩ kv =
            ⟨st.put ("blob/" ++ kv.1), m, t⟩ := by
          rw [backupBundle, if_neg (by simpa using hf)]
        rw [hstep]
        obtain ⟨ih1, ih2, ih3, ih4⟩ := ih (st.put ("blob/" ++ kv.1)) m t h
        refine ⟨ih1, fun p => ?_, fun k => ?_, ?_⟩
        · rw [ih2 p, List.filter_cons_of_neg (by simpa using hf)]
        · rw [ih3 k]
          rw [List.filter_cons_of_pos (by simpa using hf)]
          rw [StoreSt.put]
          dsimp only
          by_cases hk : k = "blob/" ++ kv.1
          · rw [if_pos hk]
            simp [hk]
          · rw [if_neg hk]
            simp only [List.any_cons]
            have hker : ¬("blob/" ++ kv.1 = k) :=
              fun heq => hk heq.symm
            simp [hker]
        · rw [ih4, List.filter_cons_of_neg (by simpa using hf)]

theorem list_len_le_one {α : Type} (l : List α) (h : l.length ≤ 1)
    {a b : α} (ha : a ∈ l) (hb : b ∈ l) : a = b := by
  cases l with
  | nil => cases ha
  | cons x xs =>
      cases xs with
      | nil =>
          simp only [List.mem_singleton] at ha hb
          rw [ha, hb]
      | cons y ys => simp at h

theorem latestEntries_keys_nodup (m : Manifest) :
    (m.LatestEntries.map Prod.fst).Nodup := by
  rw [Manifest.LatestEntries]
  rw [List.map_map]
  have h : ((m.entries.flatMap fun e =>
      if e.set = m.lastSet then e.parts.map (fun p => m.lastSet ++ "/" ++ p.key)
      else []).dedup).Nodup := List.nodup_dedup _
  simpa [Function.comp_def] using h

theorem latestEntries_mem (m : Manifest) (kv : String × List ManifestEntry)
    (hkv : kv ∈ m.LatestEntries) (e : ManifestEntry) (he : e ∈ kv.2) :
    e ∈ m.entries ∧ e.set = m.lastSet ∧
      ∃ pt ∈ e.parts, m.lastSet ++ "/" ++ pt.key = kv.1 := by
  rw [Manifest.LatestEntries] at hkv
  simp only [List.mem_map] at hkv
  obtain ⟨k, hk, hkv2⟩ := hkv
  rw [← hkv2] at he
  dsimp only at he
  simp only [List.mem_flatMap] at he
  obtain ⟨e0, he0, hee⟩ := he
  by_cases hset : e0.set = m.lastSet
  · rw [if_pos hset] at hee
    simp only [List.mem_map] at hee
    obtain ⟨pt, hptf, heq⟩ := hee
    subst heq
    have hptp := List.of_mem_filter hptf
    have hpt := List.mem_of_mem_filter hptf
    refine ⟨he0, hset, pt, hpt, ?_⟩
    have := of_decide_eq_true hptp
    rw [this, ← hkv2]
  · rw [if_neg hset] at hee
    cases hee

theorem latestEntries_nonDir (m : Manifest)
    (hdp : ∀ e ∈ m.entries, e.file.isDir = true → e.parts = [])
    (kv : String × List ManifestEntry) (hkv : kv ∈ m.LatestEntries)
    (e : ManifestEntry) (he : e ∈ kv.2) : e.file.isDir = false := by
  obtain ⟨hmem, _, pt, hpt, _⟩ := latestEntries_mem m kv hkv e he
  by_cases hd : e.file.isDir = true
  · rw [hdp e hmem hd] at hpt
    cases hpt
  · simpa using hd

/-- Claim C2: in backupLatest, a bundle whose open-pack, put or close
errors has every one of its (non-directory) files removed from the
manifest and its object absent from the store, the planned upload count
drops by one per failed bundle, processing continues (the function
still returns nil), and a bundle that succeeds keeps all its files in
the manifest and its object in the store — per-bundle atomicity.
Hypotheses: the manifest invariant, at most one part per entry and no
parts on directory entries (as Update produces), and no blob object of
this run pre-existing in the store; the concurrent Go loop is folded
sequentially, which the join-before-save and bundle-local mutation
justify. -/
theorem C2_backupLatest_rollback (fails : String → Bool) (st : StoreSt)
    (m : Manifest) (hInv : Inv m)
    (hparts : ∀ e ∈ m.entries, e.parts.length ≤ 1)
    (hdp : ∀ e ∈ m.entries, e.file.isDir = true → e.parts = [])
    (hfresh : ∀ kv ∈ m.LatestEntries, st.objs ("blob/" ++ kv.1) = false) :
    (backupLatest fails st m).2.2.2 = true
    ∧ (backupLatest fails st m).2.2.1 =
        (m.LatestEntries.length : Int) -
          ((m.LatestEntries.filter (fun kv => fails kv.1)).length : Int)
    ∧ (∀ kv ∈ m.LatestEntries, fails kv.1 = true →
        (∀ e ∈ kv.2, ((backupLatest fails st m).2.1).find e.path = none)
        ∧ (backupLatest fails st m).1.objs ("blob/" ++ kv.1) = false)
    ∧ (∀ kv ∈ m.LatestEntries, fails kv.1 = false →
        (∀ e ∈ kv.2, ((backupLatest fails st m).2.1).find e.path = some e)
        ∧ (backupLatest fails st m).1.objs ("blob/" ++ kv.1) = true) := by
  obtain ⟨hI, hfind, hobjs, htp⟩ :=
    backupFold_spec fails m.LatestEntries st m (m.LatestEntries.length : Int) hInv
  by_cases hN : (m.LatestEntries.length : Int) > 0
  · have hrun : backupLatest fails st m =
        (saveManifest
          (m.LatestEntries.foldl (backupBundle fails)
            ⟨st, m, (m.LatestEntries.length : Int)⟩).store
          (m.LatestEntries.foldl (backupBundle fails)
            ⟨st, m, (m.LatestEntries.length : Int)⟩).manifest,
        (m.LatestEntries.foldl (backupBundle fails)
          ⟨st, m, (m.LatestEntries.length : Int)⟩).manifest,
        (m.LatestEntries.foldl (backupBundle fails)
          ⟨st, m, (m.LatestEntries.length : Int)⟩).totalPuts, true) := by
      rw [backupLatest]
      rw [if_pos hN]
    rw [hrun]
    dsimp only
    have hsaveobjs : ∀ k2, (saveManifest
        (m.LatestEntries.foldl (backupBundle fails)
          ⟨st, m, (m.LatestEntries.length : Int)⟩).store
        (m.LatestEntries.foldl (backupBundle fails)
          ⟨st, m, (m.LatestEntries.length : Int)⟩).manifest).objs
          ("blob/" ++ k2) =
        (m.LatestEntries.foldl (backupBundle fails)
          ⟨st, m, (m.LatestEntries.length : Int)⟩).store.objs ("blob/" ++ k2) := by
      intro k2
      rw [saveManifest, StoreSt.put]
      dsimp only
      rw [if_neg (fun heq => manifest_blob_ne _ _ heq.symm)]
    refine ⟨rfl, htp, fun kv hkv hfl => ⟨fun e he => ?_, ?_⟩,
      fun kv hkv hfl => ⟨fun e he => ?_, ?_⟩⟩
    · -- failed bundle: every file removed
      rw [hfind e.path, if_pos ?_]
      simp only [List.mem_flatMap]
      refine ⟨kv, List.mem_filter.mpr ⟨hkv, by simpa using hfl⟩, ?_⟩
      rw [bundleRemovedPaths]
      simp only [List.mem_map]
      exact ⟨e.file, ⟨e, List.mem_filter.mpr ⟨he, by
        simpa using latestEntries_nonDir m hdp kv hkv e he⟩, rfl⟩, rfl⟩
    · -- failed bundle: object not in store
      rw [hsaveobjs kv.1, hobjs ("blob/" ++ kv.1), hfresh kv hkv]
      simp only [Bool.false_or]
      rw [List.any_eq_false]
      intro kv2 hkv2
      have hkf := List.of_mem_filter hkv2
      simp only [decide_eq_true_eq] at hkf ⊢
      intro heq
      have := string_append_left_cancel _ _ _ heq
      rw [this] at hkf
      rw [hfl] at hkf
      cases hkf
    · -- succeeded bundle: every file kept, identically
      obtain ⟨hmem, hset, pt, hpt, htag⟩ := latestEntries_mem m kv hkv e he
      rw [hfind e.path, if_neg ?_]
      · exact find_of_mem_inv m hInv e hmem
      · intro hin
        simp only [List.mem_flatMap] at hin
        obtain ⟨kv2, hkv2, hp2⟩ := hin
        have hkv2l := List.mem_of_mem_filter hkv2
        have hkv2f := List.of_mem_filter hkv2
        rw [bundleRemovedPaths] at hp2
        simp only [List.mem_map] at hp2
        obtain ⟨f2, ⟨e2, he2f, hfe⟩, hpp⟩ := hp2
        have he2 := List.mem_of_mem_filter he2f
        obtain ⟨hmem2, _, pt2, hpt2, htag2⟩ := latestEntries_mem m kv2 hkv2l e2 he2
        have hpe : e.path = e2.path := by
          show e.file.path = e2.file.path
          rw [hfe, hpp]
          rfl
        have hee : e = e2 := entry_unique_inv m hInv hmem hmem2 hpe
        subst hee
        have hptpt : pt = pt2 := list_len_le_one e.parts (hparts e hmem) hpt hpt2
        rw [← hptpt] at htag2
        rw [htag] at htag2
        have hk12 : kv.1 = kv2.1 := by
          rcases kv with ⟨k1, l1⟩
          rcases kv2 with ⟨k2, l2⟩
          exact htag2
        rw [← hk12] at hkv2f
        rw [hfl] at hkv2f
        cases hkv2f
    · -- succeeded bundle: object in store
      rw [hsaveobjs kv.1, hobjs ("blob/" ++ kv.1)]
      have : (m.LatestEntries.filter (fun kv => fails kv.1 = false)).any
          (fun kv2 => "blob/" ++ kv2.1 = "blob/" ++ kv.1) = true := by
        rw [List.any_eq_true]
        exact ⟨kv, List.mem_filter.mpr ⟨hkv, by simpa using hfl⟩, by simp⟩
      rw [this]
      simp
  · have hlen : m.LatestEntries.length = 0 := by omega
    have hnil : m.LatestEntries = [] := List.eq_nil_of_length_eq_zero hlen
    have hrun : backupLatest fails st m =
        (st, m, (m.LatestEntries.length : Int), true) := by
      rw [backupLatest]
      rw [if_neg hN]
    rw [hrun]
    refine ⟨rfl, by rw [hnil]; simp, ?_, ?_⟩
    · intro kv hkv
      rw [hnil] at hkv
      cases hkv
    · intro kv hkv
      rw [hnil] at hkv
      cases hkv

/-- Witness for C2: a one-file manifest built by `Update`, an empty
store and an all-success oracle satisfy the hypotheses, and the run
reports success. -/
theorem C2_backupLatest_rollback_witness :
    Inv c2m ∧ (backupLatest (fun _ => false) stEmpty c2m).2.2.2 = true :=
  ⟨Inv_NewManifest _ _ _ _,
   (C2_backupLatest_rollback (fun _ => false) stEmpty c2m
      (Inv_NewManifest _ _ _ _) (by decide) (by decide)
      (fun _ _ => rfl)).1⟩

/-! ### C10: a directories-only update persists nothing -/

theorem updateOne_lastSet (s k : String) (m : Manifest) (f : File) :
    (updateOne s k m f).lastSet = m.lastSet := by
  rw [updateOne]
  cases m.pathMap f.path <;> rfl

theorem foldl_updateOne_lastSet (s k : String) (fs : List File) :
    ∀ m : Manifest, (fs.foldl (updateOne s k) m).lastSet = m.lastSet := by
  induction fs with
  | nil => intro m; rfl
  | cons f fs ih =>
      intro m
      rw [List.foldl_cons, ih, updateOne_lastSet]

theorem foldl_bundles_lastSet (s : String) (keyf : Nat → String)
    (bs : List (Nat × List File)) :
    ∀ m : Manifest,
      (bs.foldl (fun m kb => kb.2.foldl (updateOne s (keyf kb.1)) m) m).lastSet
        = m.lastSet := by
  induction bs with
  | nil => intro m; rfl
  | cons kb rest ih =>
      intro m
      rw [List.foldl_cons, ih, foldl_updateOne_lastSet]

theorem Update_lastSet (m : Manifest) (cs : String → Bytes) (s : String)
    (now : Int) (files : List File) :
    (m.Update cs s now files).lastSet = s := by
  rw [Manifest.Update]
  rw [foldl_bundles_lastSet]

theorem updateOne_entries_cases (s k : String) (m : Manifest) (f : File)
    (e : ManifestEntry) (he : e ∈ (updateOne s k m f).entries) :
    e ∈ m.entries ∨ (e.set = s ∧ (e.file.isDir = true → e.parts = [])) := by
  rw [updateOne] at he
  cases hp : m.pathMap f.path with
  | some i =>
      rw [hp] at he
      dsimp only at he
      rcases List.mem_or_eq_of_mem_set he with h | h
      · exact Or.inl h
      · right
        subst h
        refine ⟨rfl, fun hd => ?_⟩
        show (if f.isDir then ([] : List ManifestEntryPart) else [⟨k, (0, 0)⟩]) = []
        rw [if_pos hd]
  | none =>
      rw [hp] at he
      dsimp only at he
      rcases List.mem_append.mp he with h | h
      · exact Or.inl h
      · right
        rw [List.mem_singleton] at h
        subst h
        refine ⟨rfl, fun hd => ?_⟩
        show (if f.isDir then ([] : List ManifestEntryPart) else [⟨k, (0, 0)⟩]) = []
        rw [if_pos hd]

theorem foldl_updateOne_entries_cases (s k : String) (fs : List File) :
    ∀ (m : Manifest) (e : ManifestEntry),
      e ∈ (fs.foldl (updateOne s k) m).entries →
      e ∈ m.entries ∨ (e.set = s ∧ (e.file.isDir = true → e.parts = [])) := by
  induction fs with
  | nil => intro m e he; exact Or.inl he
  | cons f fs ih =>
      intro m e he
      rw [List.foldl_cons] at he
      rcases ih _ e he with h | h
      · exact updateOne_entries_cases s k m f e h
      · exact Or.inr h

theorem foldl_bundles_entries_cases (s : String) (keyf : Nat → String)
    (bs : List (Nat × List File)) :
    ∀ (m : Manifest) (e : ManifestEntry),
      e ∈ (bs.foldl (fun m kb => kb.2.foldl (updateOne s (keyf kb.1)) m) m).entries →
      e ∈ m.entries ∨ (e.set = s ∧ (e.file.isDir = true → e.parts = [])) := by
  induction bs with
  | nil => intro m e he; exact Or.inl he
  | cons kb rest ih =>
      intro m e he
      rw [List.foldl_cons] at he
      rcases ih _ e he with h | h
      · exact foldl_updateOne_entries_cases s (keyf kb.1) kb.2 m e h
      · exact Or.inr h

theorem Update_entries_cases (m : Manifest) (cs : String → Bytes) (s : String)
    (now : Int) (files : List File) :
    ∀ e ∈ (m.Update cs s now files).entries,
      e ∈ m.entries ∨ (e.set = s ∧ (e.file.isDir = true → e.parts = [])) := by
  intro e he
  rw [Manifest.Update] at he
  rcases foldl_bundles_entries_cases _ _ _ _ e he with h | h
  · exact Or.inl h
  · exact Or.inr h

theorem latestEntries_nil (m : Manifest)
    (h : ∀ e ∈ m.entries, e.set = m.lastSet → e.parts = []) :
    m.LatestEntries = [] := by
  rw [Manifest.LatestEntries]
  have hkeys : (m.entries.flatMap fun e =>
      if e.set = m.lastSet then e.parts.map (fun p => m.lastSet ++ "/" ++ p.key)
      else []) = [] := by
    rw [List.flatMap_eq_nil_iff]
    intro e he
    by_cases hs : e.set = m.lastSet
    · rw [if_pos hs, h e he hs]
      rfl
    · rw [if_neg hs]
  rw [hkeys]
  rfl

theorem backupLatest_nil (fails : String → Bool) (st : StoreSt) (m : Manifest)
    (h : m.LatestEntries = []) : backupLatest fails st m = (st, m, 0, true) := by
  rw [backupLatest, h]
  simp

/-- Claim C10: after an update whose set label is new to the manifest,
if every entry of the updated manifest carrying the new set is a
directory, then LatestEntries is empty (directory entries get no parts)
and backupLatest returns success while leaving the store exactly as it
was: no bundle object, no manifest object, no latest-pointer update. -/
theorem C10_dirs_only_nothing_persisted (fails : String → Bool) (st : StoreSt)
    (m0 : Manifest) (cs : String → Bytes) (newSet : String) (now : Int)
    (files : List File)
    (hfresh : ∀ e ∈ m0.entries, e.set ≠ newSet)
    (hdirs : ∀ e ∈ (m0.Update cs newSet now files).entries,
      e.set = (m0.Update cs newSet now files).lastSet → e.file.isDir = true) :
    (m0.Update cs newSet now files).LatestEntries = []
    ∧ backupLatest fails st (m0.Update cs newSet now files) =
        (st, m0.Update cs newSet now files, 0, true) := by
  have hls := Update_lastSet m0 cs newSet now files
  have hnoparts : ∀ e ∈ (m0.Update cs newSet now files).entries,
      e.set = (m0.Update cs newSet now files).lastSet → e.parts = [] := by
    intro e he hset
    rcases Update_entries_cases m0 cs newSet now files e he with h | h
    · exact absurd (hset.trans hls) (hfresh e h)
    · exact h.2 (hdirs e he hset)
  have hnil := latestEntries_nil _ hnoparts
  exact ⟨hnil, backupLatest_nil fails st _ hnil⟩

/-- Witness for C10: updating the empty manifest with a single directory
yields a manifest whose latest entries are empty, and backing it up
returns success with the store untouched. -/
theorem C10_dirs_only_nothing_persisted_witness :
    (mEmpty.Update (fun _ => zeroSHA1) "k" 0 [c10dir]).LatestEntries = []
    ∧ backupLatest (fun _ => false) stEmpty
        (mEmpty.Update (fun _ => zeroSHA1) "k" 0 [c10dir]) =
      (stEmpty, mEmpty.Update (fun _ => zeroSHA1) "k" 0 [c10dir], 0, true) :=
  C10_dirs_only_nothing_persisted (fun _ => false) stEmpty mEmpty
    (fun _ => zeroSHA1) "k" 0 [c10dir] (by decide) (by decide)

/-! ### C6: metadata version dispatch -/

/-- Counterexample to C6: a metadata object that parses as JSON but has
no "version" key decodes to version 0, an unrecognized version, so the
error is ErrBadVersion, not ErrMalformedMetadata as claimed. -/
theorem C6_counterexample :
    getStoreMetadata (fun _ => true) (some (.jobj [("salt", .jstr "x")]))
        = .errBadVersion
    ∧ MetaResult.errBadVersion ≠ MetaResult.errMalformedMetadata :=
  ⟨rfl, fun h => by cases h⟩

/-- Claim C6 (amended): unparseable JSON gives ErrMalformedMetadata; a
parsed object lacking the "version" key (or carrying a null version)
decodes it as 0, an unrecognized version, giving ErrBadVersion; any
other integer version different from 1 gives ErrBadVersion; a version
value of a non-integer type fails the version parse, giving
ErrMalformedMetadata; and version 1 dispatches to the full metadata
unmarshal, whose failure also gives ErrMalformedMetadata. -/
theorem C6_metadata_version_dispatch (dec : JVal → Bool) :
    getStoreMetadata dec none = .errMalformedMetadata
    ∧ (∀ kvs, jlookup "version" kvs = none →
        getStoreMetadata dec (some (.jobj kvs)) = .errBadVersion)
    ∧ (∀ kvs (v : Int), jlookup "version" kvs = some (.jnum v) → v ≠ 1 →
        getStoreMetadata dec (some (.jobj kvs)) = .errBadVersion)
    ∧ (∀ kvs s, jlookup "version" kvs = some (.jstr s) →
        getStoreMetadata dec (some (.jobj kvs)) = .errMalformedMetadata)
    ∧ (∀ kvs, jlookup "version" kvs = some (.jnum 1) →
        getStoreMetadata dec (some (.jobj kvs)) =
          if dec (.jobj kvs) then .ok else .errMalformedMetadata) := by
  refine ⟨rfl, ?_, ?_, ?_, ?_⟩
  · intro kvs h
    have hv : ParseVersionJSON (some (.jobj kvs)) = some 0 := by
      rw [ParseVersionJSON, h]
    rw [getStoreMetadata, hv]
    dsimp only
    rw [if_neg (by decide)]
  · intro kvs v h hne
    have hv : ParseVersionJSON (some (.jobj kvs)) = some v := by
      rw [ParseVersionJSON, h]
    rw [getStoreMetadata, hv]
    dsimp only
    rw [if_neg hne]
  · intro kvs s h
    have hv : ParseVersionJSON (some (.jobj kvs)) = none := by
      rw [ParseVersionJSON, h]
    rw [getStoreMetadata, hv]
  · intro kvs h
    have hv : ParseVersionJSON (some (.jobj kvs)) = some 1 := by
      rw [ParseVersionJSON, h]
    rw [getStoreMetadata, hv]
    dsimp only
    rw [if_pos rfl]

/-- Witness for C6 at version 7: the lookup hypothesis holds, 7 is not
1, and the result is ErrBadVersion. -/
theorem C6_metadata_version_dispatch_witness :
    jlookup "version" [("version", JVal.jnum 7)] = some (.jnum 7)
    ∧ (7 : Int) ≠ 1
    ∧ getStoreMetadata (fun _ => true)
        (some (.jobj [("version", JVal.jnum 7)])) = .errBadVersion :=
  ⟨rfl, by decide,
   (C6_metadata_version_dispatch (fun _ => true)).2.2.1
     [("version", JVal.jnum 7)] 7 rfl (by decide)⟩

/-! ### C9: missing keys in manifest JSON cause panics -/

theorem unmarshalEntryV3_missing_panic (pt : String → Option Int)
    (b64 : String → Option Bytes) (ekvs : List (String × JVal))
    (h : jlookup "root" ekvs = none ∨ jlookup "name" ekvs = none
      ∨ jlookup "mode" ekvs = none ∨ jlookup "mtime" ekvs = none
      ∨ jlookup "uid" ekvs = none ∨ jlookup "gid" ekvs = none
      ∨ jlookup "set" ekvs = none) :
    unmarshalEntryV3 pt b64 (.jobj ekvs) = .panic := by
  rw [unmarshalEntryV3]
  split
  · exfalso
    rcases h with h | h | h | h | h | h | h <;> simp_all
  · rfl

theorem unmarshalEntryV2_missing_panic (pt : String → Option Int)
    (b64 : String → Option Bytes) (ekvs : List (String × JVal))
    (h : jlookup "root" ekvs = none ∨ jlookup "name" ekvs = none
      ∨ jlookup "mode" ekvs = none ∨ jlookup "mtime" ekvs = none
      ∨ jlookup "uid" ekvs = none ∨ jlookup "gid" ekvs = none) :
    unmarshalEntryV2 pt b64 (.jobj ekvs) = .panic := by
  rw [unmarshalEntryV2]
  split
  · exfalso
    rcases h with h | h | h | h | h | h <;> simp_all
  · rfl

theorem decList_ok_append_panic {α : Type} (dec : JVal → DRes α) (es0 : List JVal) :
    ∀ l, decList dec es0 = .ok l → ∀ x rest, dec x = .panic →
      decList dec (es0 ++ x :: rest) = .panic := by
  induction es0 with
  | nil =>
      intro l _ x rest hx
      rw [List.nil_append, decList, hx]
      rfl
  | cons e es ih =>
      intro l h x rest hx
      rw [List.cons_append, decList]
      rw [decList] at h
      cases hde : dec e with
      | ok a =>
          rw [hde] at h
          rw [DRes.bind] at h
          cases hdl : decList dec es with
          | ok l2 =>
              rw [DRes.bind, ih l2 hdl x rest hx]
              rfl
          | err =>
              rw [hdl] at h
              exact DRes.noConfusion h
          | panic =>
              rw [hdl] at h
              exact DRes.noConfusion h
      | err =>
          rw [hde] at h
          exact DRes.noConfusion h
      | panic =>
          rw [hde] at h
          exact DRes.noConfusion h

/-- Counterexample to C9 as stated: a version-2 manifest whose entry
object has root, name, mode, mtime, uid and gid but omits "set"
decodes without a panic and without an error — in the v2 codec "set"
is not a required key (the optional "_" value carries the set label
instead). -/
theorem C9_counterexample :
    (ReadManifestData (fun _ => some 0) (fun _ => some [])
      (some (.jobj [("version", .jnum 2), ("key", .jstr "s"),
        ("created", .jstr "t"),
        ("entries", .jarr [.jobj [("root", .jstr "/a"), ("name", .jstr "x"),
          ("mode", .jnum 0), ("mtime", .jstr "t"), ("uid", .jnum 0),
          ("gid", .jnum 0)]])]))).isOk = true := by
  decide

/-- Claim C9 (amended): ReadManifestData panics instead of returning an
error when (a) the data carries version 3 and, after some entries that
decode, an entry object omits one of the seven keys root, name, mode,
mtime, uid, gid, set; (b) the data carries version 2 and an entry
object omits one of the six keys root, name, mode, mtime, uid, gid
("set" is not required in the v2 codec); or (c) the data carries
version 1 or 2 and the top-level object omits key, created or entries
(version itself must be present for the version to be recognized). -/
theorem C9_missing_key_panics (pt : String → Option Int)
    (b64 : String → Option Bytes) :
    (∀ ekvs es0 l rest,
      decList (unmarshalEntryV3 pt b64) es0 = .ok l →
      (jlookup "root" ekvs = none ∨ jlookup "name" ekvs = none
        ∨ jlookup "mode" ekvs = none ∨ jlookup "mtime" ekvs = none
        ∨ jlookup "uid" ekvs = none ∨ jlookup "gid" ekvs = none
        ∨ jlookup "set" ekvs = none) →
      ReadManifestData pt b64 (some (.jobj [("version", .jnum 3),
          ("entries", .jarr (es0 ++ .jobj ekvs :: rest))])) = .panic)
    ∧ (∀ s c tc ekvs es0 l rest, pt c = some tc →
      decList (unmarshalEntryV2 pt b64) es0 = .ok l →
      (jlookup "root" ekvs = none ∨ jlookup "name" ekvs = none
        ∨ jlookup "mode" ekvs = none ∨ jlookup "mtime" ekvs = none
        ∨ jlookup "uid" ekvs = none ∨ jlookup "gid" ekvs = none) →
      ReadManifestData pt b64 (some (.jobj [("version", .jnum 2),
          ("key", .jstr s), ("created", .jstr c),
          ("entries", .jarr (es0 ++ .jobj ekvs :: rest))])) = .panic)
    ∧ (∀ (v : Int) kvs, jlookup "version" kvs = some (.jnum v) →
      (v = 1 ∨ v = 2) →
      (jlookup "key" kvs = none ∨ jlookup "created" kvs = none
        ∨ jlookup "entries" kvs = none) →
      ReadManifestData pt b64 (some (.jobj kvs)) = .panic) := by
  refine ⟨?_, ?_, ?_⟩
  · intro ekvs es0 l rest h0 h
    have hpanic := decList_ok_append_panic (unmarshalEntryV3 pt b64) es0 l h0
      (.jobj ekvs) rest (unmarshalEntryV3_missing_panic pt b64 ekvs h)
    have hred : ReadManifestData pt b64 (some (.jobj [("version", .jnum 3),
        ("entries", .jarr (es0 ++ .jobj ekvs :: rest))]))
        = DRes.bind (DRes.bind
            (decList (unmarshalEntryV3 pt b64) (es0 ++ .jobj ekvs :: rest))
            (fun es => DRes.ok (⟨3, "", 0, 0, es⟩ : ManifestFields)))
            (fun t => DRes.ok (Manifest.mk t.version t.lastSet t.created
              t.updated t.entries (buildPathMap t.entries))) := rfl
    rw [hred, hpanic]
    rfl
  · intro s c tc ekvs es0 l rest hpt h0 h
    have hpanic := decList_ok_append_panic (unmarshalEntryV2 pt b64) es0 l h0
      (.jobj ekvs) rest (unmarshalEntryV2_missing_panic pt b64 ekvs h)
    have hred : ReadManifestData pt b64 (some (.jobj [("version", .jnum 2),
        ("key", .jstr s), ("created", .jstr c),
        ("entries", .jarr (es0 ++ .jobj ekvs :: rest))]))
        = DRes.bind (decTimeField pt 0 (.jstr c)) (fun created =>
            DRes.bind (decList (unmarshalEntryV2 pt b64)
              (es0 ++ .jobj ekvs :: rest)) (fun es =>
              DRes.ok (Manifest.mk 2 s created 0 es (buildPathMap es)))) := rfl
    rw [hred]
    rw [decTimeField]
    rw [hpt]
    rw [DRes.bind]
    rw [hpanic]
    rfl
  · intro v kvs hv hrec h
    have hver : ParseVersionJSON (some (.jobj kvs)) = some v := by
      rw [ParseVersionJSON, hv]
    have hdis : ReadManifestData pt b64 (some (.jobj kvs))
        = unmarshalManifestV2 pt b64 (.jobj kvs) := by
      rw [ReadManifestData, hver]
      dsimp only
      rw [if_pos hrec]
    rw [hdis, unmarshalManifestV2]
    rw [hv]
    split
    · exfalso
      rcases h with h | h | h <;> simp_all
    · rfl

/-- Witness for C9: a version-2 document whose top-level object omits
key, created and entries panics in the map-literal dereference. -/
theorem C9_missing_key_panics_witness :
    jlookup "version" [("version", JVal.jnum 2)] = some (.jnum 2)
    ∧ ReadManifestData (fun _ => some 0) (fun _ => some [])
        (some (.jobj [("version", JVal.jnum 2)])) = .panic :=
  ⟨rfl, (C9_missing_key_panics (fun _ => some 0) (fun _ => some [])).2.2
    2 [("version", JVal.jnum 2)] rfl (Or.inr rfl) (Or.inl rfl)⟩

/-! ### CBC block lemmas shared by the crypto claims -/

theorem xorBytes_length (a b : Bytes) :
    (xorBytes a b).length = min a.length b.length := by
  rw [xorBytes, List.length_zipWith]

theorem xorBytes_cancel (a : Bytes) :
    ∀ b : Bytes, a.length ≤ b.length → xorBytes (xorBytes a b) b = a := by
  induction a with
  | nil => intro b _; rfl
  | cons x xs ih =>
      intro b h
      cases b with
      | nil => simp at h
      | cons y ys =>
          simp only [xorBytes, List.zipWith_cons_cons, List.cons.injEq] at *
          exact ⟨Nat.xor_cancel_right y x, ih ys (Nat.le_of_succ_le_succ h)⟩

theorem cbcEnc_nil (C : BlockCipher) (prev : Bytes) : cbcEnc C prev [] = [] := by
  rw [cbcEnc]
  rw [dif_pos rfl]

theorem cbcEnc_block (C : BlockCipher) (prev bs : Bytes) (h : bs ≠ []) :
    cbcEnc C prev bs = C.enc (xorBytes (bs.take aesBlockSize) prev) ++
      cbcEnc C (C.enc (xorBytes (bs.take aesBlockSize) prev))
        (bs.drop aesBlockSize) := by
  rw [cbcEnc]
  rw [dif_neg h]

theorem cbcEncChain_nil (C : BlockCipher) (prev : Bytes) :
    cbcEncChain C prev [] = prev := by
  rw [cbcEncChain]
  rw [dif_pos rfl]

theorem cbcEncChain_block (C : BlockCipher) (prev bs : Bytes) (h : bs ≠ []) :
    cbcEncChain C prev bs =
      cbcEncChain C (C.enc (xorBytes (bs.take aesBlockSize) prev))
        (bs.drop aesBlockSize) := by
  rw [cbcEncChain]
  rw [dif_neg h]

theorem cbcDec_nil (C : BlockCipher) (prev : Bytes) : cbcDec C prev [] = [] := by
  rw [cbcDec]
  rw [dif_pos rfl]

theorem cbcDec_block (C : BlockCipher) (prev bs : Bytes) (h : bs ≠ []) :
    cbcDec C prev bs = xorBytes (C.dec (bs.take aesBlockSize)) prev ++
      cbcDec C (bs.take aesBlockSize) (bs.drop aesBlockSize) := by
  rw [cbcDec]
  rw [dif_neg h]

theorem cbcDecChain_nil (prev : Bytes) : cbcDecChain prev [] = prev := by
  rw [cbcDecChain]
  rw [dif_pos rfl]

theorem cbcDecChain_block (prev bs : Bytes) (h : bs ≠ []) :
    cbcDecChain prev bs =
      cbcDecChain (bs.take aesBlockSize) (bs.drop aesBlockSize) := by
  rw [cbcDecChain]
  rw [dif_neg h]

theorem ne_nil_of_blocks {bs : Bytes} {n : Nat} (hl : bs.length = 16 * (n + 1)) :
    bs ≠ [] := by
  intro h
  rw [h] at hl
  simp at hl

theorem cbcEnc_length (C : BlockCipher)
    (henc : ∀ bl : Bytes, bl.length = 16 → (C.enc bl).length = 16) :
    ∀ (n : Nat) (prev bs : Bytes), prev.length = 16 → bs.length = 16 * n →
      (cbcEnc C prev bs).length = bs.length := by
  intro n
  induction n with
  | zero =>
      intro prev bs _ h
      have hbs : bs = [] := List.eq_nil_of_length_eq_zero (by omega)
      subst hbs
      rw [cbcEnc_nil]
  | succ n ih =>
      intro prev bs hp h
      have ht : (bs.take aesBlockSize).length = 16 := by
        rw [List.length_take, aesBlockSize]
        omega
      have hx : (xorBytes (bs.take aesBlockSize) prev).length = 16 := by
        rw [xorBytes_length, ht, hp]
        omega
      have hc : (C.enc (xorBytes (bs.take aesBlockSize) prev)).length = 16 :=
        henc _ hx
      have hd : (bs.drop aesBlockSize).length = 16 * n := by
        rw [List.length_drop, aesBlockSize]
        omega
      rw [cbcEnc_block C prev bs (ne_nil_of_blocks h), List.length_append, hc,
        ih _ _ hc hd, List.length_drop, aesBlockSize]
      omega

theorem cbcEncChain_length (C : BlockCipher)
    (henc : ∀ bl : Bytes, bl.length = 16 → (C.enc bl).length = 16) :
    ∀ (n : Nat) (prev bs : Bytes), prev.length = 16 → bs.length = 16 * n →
      (cbcEncChain C prev bs).length = 16 := by
  intro n
  induction n with
  | zero =>
      intro prev bs hp h
      have hbs : bs = [] := List.eq_nil_of_length_eq_zero (by omega)
      subst hbs
      rw [cbcEncChain_nil, hp]
  | succ n ih =>
      intro prev bs hp h
      have ht : (bs.take aesBlockSize).length = 16 := by
        rw [List.length_take, aesBlockSize]
        omega
      have hx : (xorBytes (bs.take aesBlockSize) prev).length = 16 := by
        rw [xorBytes_length, ht, hp]
        omega
      have hd : (bs.drop aesBlockSize).length = 16 * n := by
        rw [List.length_drop, aesBlockSize]
        omega
      rw [cbcEncChain_block C prev bs (ne_nil_of_blocks h)]
      exact ih _ _ (henc _ hx) hd

theorem cbcDec_length (C : BlockCipher)
    (hdec : ∀ bl : Bytes, bl.length = 16 → (C.dec bl).length = 16) :
    ∀ (n : Nat) (prev bs : Bytes), prev.length = 16 → bs.length = 16 * n →
      (cbcDec C prev bs).length = bs.length := by
  intro n
  induction n with
  | zero =>
      intro prev bs _ h
      have hbs : bs = [] := List.eq_nil_of_length_eq_zero (by omega)
      subst hbs
      rw [cbcDec_nil]
  | succ n ih =>
      intro prev bs hp h
      have ht : (bs.take aesBlockSize).length = 16 := by
        rw [List.length_take, aesBlockSize]
        omega
      have hd : (bs.drop aesBlockSize).length = 16 * n := by
        rw [List.length_drop, aesBlockSize]
        omega
      have hx : (xorBytes (C.dec (bs.take aesBlockSize)) prev).length = 16 := by
        rw [xorBytes_length, hdec _ ht, hp]
        omega
      rw [cbcDec_block C prev bs (ne_nil_of_blocks h), List.length_append, hx,
        ih _ _ ht hd, List.length_drop, aesBlockSize]
      omega

theorem cbcDecChain_length :
    ∀ (n : Nat) (prev bs : Bytes), prev.length = 16 → bs.length = 16 * n →
      (cbcDecChain prev bs).length = 16 := by
  intro n
  induction n with
  | zero =>
      intro prev bs hp h
      have hbs : bs = [] := List.eq_nil_of_length_eq_zero (by omega)
      subst hbs
      rw [cbcDecChain_nil, hp]
  | succ n ih =>
      intro prev bs hp h
      have ht : (bs.take aesBlockSize).length = 16 := by
        rw [List.length_take, aesBlockSize]
        omega
      have hd : (bs.drop aesBlockSize).length = 16 * n := by
        rw [List.length_drop, aesBlockSize]
        omega
      rw [cbcDecChain_block prev bs (ne_nil_of_blocks h)]
      exact ih _ _ ht hd

theorem cbcEnc_append (C : BlockCipher) :
    ∀ (n : Nat) (prev a b : Bytes), a.length = 16 * n →
      cbcEnc C prev (a ++ b) =
        cbcEnc C prev a ++ cbcEnc C (cbcEncChain C prev a) b
      ∧ cbcEncChain C prev (a ++ b) =
        cbcEncChain C (cbcEncChain C prev a) b := by
  intro n
  induction n with
  | zero =>
      intro prev a b h
      have ha : a = [] := List.eq_nil_of_length_eq_zero (by omega)
      subst ha
      rw [cbcEnc_nil, cbcEncChain_nil, List.nil_append]
      exact ⟨rfl, rfl⟩
  | succ n ih =>
      intro prev a b h
      have hne : a ≠ [] := ne_nil_of_blocks h
      have hne2 : a ++ b ≠ [] := by
        intro hc
        exact hne (List.append_eq_nil.mp hc).1
      have hta : (a ++ b).take aesBlockSize = a.take aesBlockSize := by
        rw [List.take_append_of_le_length]
        rw [aesBlockSize]
        omega
      have hda : (a ++ b).drop aesBlockSize = a.drop aesBlockSize ++ b := by
        rw [List.drop_append_of_le_length]
        rw [aesBlockSize]
        omega
      have hd : (a.drop aesBlockSize).length = 16 * n := by
        rw [List.length_drop, aesBlockSize]
        omega
      obtain ⟨ih1, ih2⟩ := ih (C.enc (xorBytes (a.take aesBlockSize) prev))
        (a.drop aesBlockSize) b hd
      constructor
      · rw [cbcEnc_block C prev (a ++ b) hne2, hta, hda, ih1]
        rw [cbcEnc_block C prev a hne, List.append_assoc]
        rw [cbcEncChain_block C prev a hne]
      · rw [cbcEncChain_block C prev (a ++ b) hne2, hta, hda, ih2]
        rw [cbcEncChain_block C prev a hne]

theorem cbcDec_append (C : BlockCipher) :
    ∀ (n : Nat) (prev a b : Bytes), a.length = 16 * n →
      cbcDec C prev (a ++ b) =
        cbcDec C prev a ++ cbcDec C (cbcDecChain prev a) b
      ∧ cbcDecChain prev (a ++ b) =
        cbcDecChain (cbcDecChain prev a) b := by
  intro n
  induction n with
  | zero =>
      intro prev a b h
      have ha : a = [] := List.eq_nil_of_length_eq_zero (by omega)
      subst ha
      rw [cbcDec_nil, cbcDecChain_nil, List.nil_append]
      exact ⟨rfl, rfl⟩
  | succ n ih =>
      intro prev a b h
      have hne : a ≠ [] := ne_nil_of_blocks h
      have hne2 : a ++ b ≠ [] := by
        intro hc
        exact hne (List.append_eq_nil.mp hc).1
      have hta : (a ++ b).take aesBlockSize = a.take aesBlockSize := by
        rw [List.take_append_of_le_length]
        rw [aesBlockSize]
        omega
      have hda : (a ++ b).drop aesBlockSize = a.drop aesBlockSize ++ b := by
        rw [List.drop_append_of_le_length]
        rw [aesBlockSize]
        omega
      have hd : (a.drop aesBlockSize).length = 16 * n := by
        rw [List.length_drop, aesBlockSize]
        omega
      obtain ⟨ih1, ih2⟩ := ih (a.take aesBlockSize) (a.drop aesBlockSize) b hd
      constructor
      · rw [cbcDec_block C prev (a ++ b) hne2, hta, hda, ih1]
        rw [cbcDec_block C prev a hne, List.append_assoc]
        rw [cbcDecChain_block prev a hne]
      · rw [cbcDecChain_block prev (a ++ b) hne2, hta, hda, ih2]
        rw [cbcDecChain_block prev a hne]

theorem cbc_roundtrip (C : BlockCipher)
    (henc : ∀ bl : Bytes, bl.length = 16 → (C.enc bl).length = 16)
    (hdec : ∀ bl : Bytes, bl.length = 16 → C.dec (C.enc bl) = bl) :
    ∀ (n : Nat) (prev bs : Bytes), prev.length = 16 → bs.length = 16 * n →
      cbcDec C prev (cbcEnc C prev bs) = bs
      ∧ cbcDecChain prev (cbcEnc C prev bs) = cbcEncChain C prev bs := by
  intro n
  induction n with
  | zero =>
      intro prev bs _ h
      have hbs : bs = [] := List.eq_nil_of_length_eq_zero (by omega)
      subst hbs
      rw [cbcEnc_nil, cbcDec_nil, cbcDecChain_nil, cbcEncChain_nil]
      exact ⟨rfl, rfl⟩
  | succ n ih =>
      intro prev bs hp h
      have hne : bs ≠ [] := ne_nil_of_blocks h
      have ht : (bs.take aesBlockSize).length = 16 := by
        rw [List.length_take, aesBlockSize]
        omega
      have hx : (xorBytes (bs.take aesBlockSize) prev).length = 16 := by
        rw [xorBytes_length, ht, hp]
        omega
      have hc : (C.enc (xorBytes (bs.take aesBlockSize) prev)).length = 16 :=
        henc _ hx
      have hd : (bs.drop aesBlockSize).length = 16 * n := by
        rw [List.length_drop, aesBlockSize]
        omega
      have hrest : (cbcEnc C (C.enc (xorBytes (bs.take aesBlockSize) prev))
          (bs.drop aesBlockSize)).length = 16 * n := by
        rw [cbcEnc_length C henc n _ _ hc hd, hd]
      obtain ⟨ih1, ih2⟩ := ih (C.enc (xorBytes (bs.take aesBlockSize) prev))
        (bs.drop aesBlockSize) hc hd
      have hblock : ∀ rest : Bytes,
          (C.enc (xorBytes (bs.take aesBlockSize) prev) ++ rest).take aesBlockSize
            = C.enc (xorBytes (bs.take aesBlockSize) prev)
          ∧ (C.enc (xorBytes (bs.take aesBlockSize) prev) ++ rest).drop aesBlockSize
            = rest := by
        intro rest
        constructor
        · rw [List.take_append_of_le_length (by rw [hc, aesBlockSize])]
          rw [List.take_of_length_le (by rw [hc, aesBlockSize])]
        · rw [List.drop_append_of_le_length (by rw [hc, aesBlockSize])]
          rw [List.drop_of_length_le (by rw [hc, aesBlockSize]), List.nil_append]
      constructor
      · rw [cbcEnc_block C prev bs hne]
        rw [cbcDec_block C prev _ (by
          intro hcon
          have := congrArg List.length hcon
          rw [List.length_append, hc] at this
          simp at this)]
        rw [(hblock _).1, (hblock _).2, ih1]
        rw [hdec _ hx, xorBytes_cancel (bs.take aesBlockSize) prev
          (by rw [ht, hp]), List.take_append_drop]
      · rw [cbcEnc_block C prev bs hne]
        rw [cbcDecChain_block prev _ (by
          intro hcon
          have := congrArg List.length hcon
          rw [List.length_append, hc] at this
          simp at this)]
        rw [(hblock _).1, (hblock _).2, ih2]
        rw [cbcEncChain_block C prev bs hne]

/-! ### Driving the decrypting reader -/

theorem decDrive_drain_fin (C : BlockCipher) (mac : Bytes → Bytes)
    (sched : Nat → Nat) (hs : ∀ j, 1 ≤ sched j) :
    ∀ (fuel : Nat) (st : DecSt), st.fin = true → st.buf.length < fuel →
      ∀ i, decDrive C mac sched fuel i st = some (.bytes st.buf) := by
  intro fuel
  induction fuel with
  | zero =>
      intro st _ hb i
      omega
  | succ fuel ih =>
      intro st hf hb i
      rw [decDrive]
      by_cases hempty : st.buf = []
      · rw [if_pos ⟨hf, hempty⟩, hempty]
      · rw [if_neg (fun hcon => hempty hcon.2)]
        rw [decStep]
        rw [if_pos (Or.inr hf)]
        have hbne : st.buf.length ≠ 0 :=
          fun h0 => hempty (List.eq_nil_of_length_eq_zero h0)
        have hlt : (st.buf.drop (min (sched i) st.buf.length)).length < fuel := by
          rw [List.length_drop]
          have := hs i
          omega
        dsimp only
        rw [ih { st with buf := st.buf.drop (min (sched i) st.buf.length) } hf hlt
          (i + 1)]
        show some (DecOut.bytes (st.buf.take (min (sched i) st.buf.length) ++
          st.buf.drop (min (sched i) st.buf.length))) = some (.bytes st.buf)
        rw [List.take_append_drop]

theorem decDrive_badlen (C : BlockCipher) (mac : Bytes → Bytes)
    (sched : Nat → Nat) (hs : ∀ j, 1 ≤ sched j)
    (hdlen : ∀ bl : Bytes, bl.length = 16 → (C.dec bl).length = 16)
    (y : Bytes) (hL : 16 ≤ y.length)
    (hnd : ¬ ((16 : Int) ∣ ((y.length : Int) - 36))) :
    ∀ (fuel c : Nat) (st : DecSt),
      st.fin = false → 16 ∣ c →
      st.text.length = y.length - 16 - c - st.enc.length →
      c + st.enc.length ≤ y.length - 16 →
      st.prev.length = 16 →
      2 * st.text.length + st.enc.length + st.buf.length < fuel →
      ∀ i, decDrive C mac sched fuel i st =
        some (.error "ciphertext is not a multiple of the block size") := by
  intro fuel
  induction fuel with
  | zero =>
      intro c st _ _ _ _ _ hmu i
      omega
  | succ fuel ih =>
      intro c st hfin hc htl hce hpl hmu i
      rw [decDrive]
      rw [if_neg (fun hcon => by rw [hfin] at hcon; exact Bool.false_ne_true hcon.1)]
      rw [decStep]
      by_cases hk : sched i ≤ st.buf.length
      · -- drain branch
        have hmin : min (sched i) st.buf.length = sched i := Nat.min_eq_left hk
        rw [if_pos (Or.inl hmin)]
        have hk1 := hs i
        have hlt : 2 * st.text.length + st.enc.length +
            (st.buf.drop (min (sched i) st.buf.length)).length < fuel := by
          rw [List.length_drop]
          omega
        dsimp only
        rw [ih c { st with buf := st.buf.drop (min (sched i) st.buf.length) }
          hfin hc htl hce hpl hlt (i + 1)]
        rfl
      · -- processing branch
        have hnk : st.buf.length < sched i := by omega
        have hcond : ¬ (min (sched i) st.buf.length = sched i ∨ st.fin = true) := by
          rw [hfin]
          simp only [Bool.false_eq_true, or_false]
          omega
        rw [if_neg hcond]
        by_cases hfin2 : st.text.length <
            ((sched i - min (sched i) st.buf.length) / aesBlockSize + 1) *
              aesBlockSize + c_HMAC_SIZE + 1
        · -- final read: the length check fires
          rw [if_pos hfin2]
          have hlen1 : (st.enc ++ st.text.take
              (((sched i - min (sched i) st.buf.length) / aesBlockSize + 1) *
                aesBlockSize + c_HMAC_SIZE + 1)).length
              = y.length - 16 - c := by
            rw [List.length_append, List.length_take]
            omega
          have hti : ((st.enc ++ st.text.take
              (((sched i - min (sched i) st.buf.length) / aesBlockSize + 1) *
                aesBlockSize + c_HMAC_SIZE + 1)).length : Int) - (c_HMAC_SIZE : Int)
              = (y.length : Int) - 36 - (c : Int) := by
            rw [hlen1]
            rw [c_HMAC_SIZE]
            push_cast
            omega
          have h16c : (16 : Int) ∣ (c : Int) := Int.natCast_dvd_natCast.mpr hc
          have hmod : (((st.enc ++ st.text.take
              (((sched i - min (sched i) st.buf.length) / aesBlockSize + 1) *
                aesBlockSize + c_HMAC_SIZE + 1)).length : Int) -
                (c_HMAC_SIZE : Int)).tmod 16 ≠ 0 := by
            intro h0
            have hdvd := Int.dvd_of_tmod_eq_zero h0
            rw [hti] at hdvd
            omega
          rw [if_pos hmod]
        · -- a middle read: decode one chunk and recurse
          rw [if_neg hfin2]
          rw [decProcess]
          rw [if_neg Bool.false_ne_true]
          have hlene : (st.enc ++ st.text.take
              (((sched i - min (sched i) st.buf.length) / aesBlockSize + 1) *
                aesBlockSize + c_HMAC_SIZE + 1)).length
              = st.enc.length + (((sched i - min (sched i) st.buf.length) /
                aesBlockSize + 1) * aesBlockSize + c_HMAC_SIZE + 1) := by
            rw [List.length_append, List.length_take]
            omega
          have hctlen : ((st.enc ++ st.text.take
              (((sched i - min (sched i) st.buf.length) / aesBlockSize + 1) *
                aesBlockSize + c_HMAC_SIZE + 1)).take
              (((sched i - min (sched i) st.buf.length) / aesBlockSize + 1) *
                aesBlockSize)).length
              = 16 * ((sched i - min (sched i) st.buf.length) / aesBlockSize + 1) := by
            rw [List.length_take, hlene, aesBlockSize]
            have heq : 16 * ((sched i - min (sched i) st.buf.length) / 16 + 1)
                = ((sched i - min (sched i) st.buf.length) / 16 + 1) * 16 := by ring
            omega
          have hptlen : (cbcDec C st.prev ((st.enc ++ st.text.take
              (((sched i - min (sched i) st.buf.length) / aesBlockSize + 1) *
                aesBlockSize + c_HMAC_SIZE + 1)).take
              (((sched i - min (sched i) st.buf.length) / aesBlockSize + 1) *
                aesBlockSize))).length
              = 16 * ((sched i - min (sched i) st.buf.length) / aesBlockSize + 1) := by
            rw [cbcDec_length C hdlen _ _ _ hpl hctlen, hctlen]
          have hprevlen : (cbcDecChain st.prev ((st.enc ++ st.text.take
              (((sched i - min (sched i) st.buf.length) / aesBlockSize + 1) *
                aesBlockSize + c_HMAC_SIZE + 1)).take
              (((sched i - min (sched i) st.buf.length) / aesBlockSize + 1) *
                aesBlockSize))).length = 16 :=
            cbcDecChain_length _ _ _ hpl hctlen
          dsimp only
          rw [ih (c + ((sched i - min (sched i) st.buf.length) / aesBlockSize + 1) *
              aesBlockSize) _ rfl
            (by
              apply Nat.dvd_add hc
              rw [aesBlockSize]
              exact Dvd.intro_left _ rfl)
            (by
              dsimp only
              rw [List.length_drop, List.length_drop, hlene]
              rw [aesBlockSize, c_HMAC_SIZE] at *
              omega)
            (by
              dsimp only
              rw [List.length_drop, hlene]
              rw [aesBlockSize, c_HMAC_SIZE] at *
              omega)
            (by
              dsimp only
              exact hprevlen)
            (by
              dsimp only
              rw [List.length_drop, List.length_drop, List.length_drop, hlene,
                hptlen]
              rw [aesBlockSize, c_HMAC_SIZE] at *
              omega)
            (i + 1)]
          rfl

/-! ### C7: decrypting malformed byte strings -/

/-- Counterexample to C7: a 17-byte input is below 32 bytes yet fails
with the block-size error, not "ciphertext too short"; and a 20-byte
input panics (its length minus IV minus HMAC is -16, which passes the
truncated-mod check and drives io.CopyN to copy a negative count), so
decryption does panic on some input lengths. -/
theorem C7_counterexample :
    decRun idCipher zmac (fun _ => 1) 64 (List.replicate 17 0)
        = some (.error "ciphertext is not a multiple of the block size")
    ∧ "ciphertext is not a multiple of the block size" ≠ "ciphertext too short"
    ∧ decRun idCipher zmac (fun _ => 1) 64 (List.replicate 20 0)
        = some .panicked := by
  refine ⟨by decide, by decide, by decide⟩

/-- Claim C7 (amended): only inputs shorter than 16 bytes (the IV) fail
with "ciphertext too short"; any input of at least 16 bytes whose
length minus 36 is not a multiple of 16 — including every length from
16 to 31 other than 20 — fails with "ciphertext is not a multiple of
the block size", for every positive read schedule and enough fuel; and
decryption is not panic-free (see the 20-byte counterexample). -/
theorem C7_decrypt_length_errors (C : BlockCipher) (mac : Bytes → Bytes)
    (sched : Nat → Nat) (fuel : Nat) (y : Bytes)
    (hs : ∀ j, 1 ≤ sched j)
    (hdlen : ∀ bl : Bytes, bl.length = 16 → (C.dec bl).length = 16)
    (hfuel : 2 * y.length < fuel) :
    (y.length < 16 →
      decRun C mac sched fuel y = some (.error "ciphertext too short"))
    ∧ (16 ≤ y.length → ¬ ((16 : Int) ∣ ((y.length : Int) - 36)) →
      decRun C mac sched fuel y =
        some (.error "ciphertext is not a multiple of the block size")) := by
  constructor
  · intro hshort
    rw [decRun]
    have hinit : decInit y = none := by
      rw [decInit, if_pos (by rw [aesBlockSize]; omega)]
    rw [hinit]
  · intro hL hnd
    rw [decRun]
    have hinit : decInit y = some ⟨y.drop aesBlockSize, [], [],
        y.take aesBlockSize, y.take aesBlockSize, false⟩ := by
      rw [decInit, if_neg (by rw [aesBlockSize]; omega)]
    rw [hinit]
    exact decDrive_badlen C mac sched hs hdlen y hL hnd fuel 0 _ rfl
      (dvd_zero 16)
      (by
        dsimp only
        rw [List.length_drop, aesBlockSize]
        simp)
      (by
        dsimp only
        simp)
      (by
        dsimp only
        rw [List.length_take, aesBlockSize]
        omega)
      (by
        dsimp only
        rw [List.length_drop, aesBlockSize]
        simp only [List.length_nil]
        omega)
      0

/-! ### Padding and unpadding -/

theorem getLastD_replicate (v : Nat) :
    ∀ (q : Nat) (d : Nat), 1 ≤ q → (List.replicate q v).getLastD d = v := by
  intro q
  induction q with
  | zero =>
      intro d h
      omega
  | succ q ih =>
      intro d _
      rw [List.replicate_succ, List.getLastD_cons]
      cases hq : q with
      | zero => rfl
      | succ q2 =>
          rw [← hq]
          exact ih v (by omega)

theorem getLastD_append_replicate (p v : Nat) (hp : 1 ≤ p) :
    ∀ (l : Bytes) (d : Nat),
      (l ++ List.replicate p v).getLastD d = v := by
  intro l
  induction l with
  | nil =>
      intro d
      rw [List.nil_append]
      exact getLastD_replicate v p d hp
  | cons a l2 ih =>
      intro d
      rw [List.cons_append, List.getLastD_cons]
      exact ih a

theorem all_replicate (p v : Nat) :
    (List.replicate p v).all (· = v) = true := by
  rw [List.all_eq_true]
  intro x hx
  rw [List.mem_replicate] at hx
  simp [hx.2]

theorem unpad_padded (l : Bytes) (p : Nat) (hp1 : 1 ≤ p) (hp16 : p ≤ 16) :
    unpadBytes (l ++ List.replicate p p) = .ok l := by
  rw [unpadBytes]
  have hlen : (l ++ List.replicate p p).length = l.length + p := by
    rw [List.length_append, List.length_replicate]
  rw [if_neg (by omega)]
  rw [getLastD_append_replicate p p hp1]
  rw [if_neg (by rw [aesBlockSize]; omega)]
  rw [if_neg (by omega)]
  have hdrop : (l ++ List.replicate p p).drop ((l ++ List.replicate p p).length - p)
      = List.replicate p p := by
    rw [hlen]
    have : l.length + p - p = l.length := by omega
    rw [this, List.drop_left]
  rw [hdrop, if_pos (all_replicate p p)]
  rw [hlen]
  have : l.length + p - p = l.length := by omega
  rw [this, List.take_left]

theorem padBytes_eq (x : Bytes) :
    padBytes x = x ++ List.replicate (aesBlockSize - x.length % aesBlockSize)
      (aesBlockSize - x.length % aesBlockSize) := by
  rw [padBytes]

theorem padBytes_length (x : Bytes) :
    (padBytes x).length = x.length + (aesBlockSize - x.length % aesBlockSize) := by
  rw [padBytes_eq, List.length_append, List.length_replicate]

theorem padBytes_blocks (x : Bytes) :
    (padBytes x).length = 16 * ((padBytes x).length / 16)
    ∧ x.length < (padBytes x).length
    ∧ (padBytes x).length ≤ x.length + 16 := by
  rw [padBytes_length, aesBlockSize]
  omega

theorem padBytes_split (x : Bytes) (c : Nat) (hc : 16 ∣ c) (hcx : c ≤ x.length) :
    padBytes x = x.take c ++ padBytes (x.drop c) := by
  rw [padBytes_eq, padBytes_eq, List.length_drop, aesBlockSize]
  have hmod : 16 - x.length % 16 = 16 - (x.length - c) % 16 := by omega
  rw [← List.append_assoc, List.take_append_drop, hmod]

/-! ### Driving the encrypting reader -/

theorem encDrive_drain_fin (C : BlockCipher) (mac : Bytes → Bytes)
    (sched : Nat → Nat) (hs : ∀ j, 1 ≤ sched j) :
    ∀ (fuel : Nat) (st : EncSt), st.fin = true → st.buf.length < fuel →
      ∀ i, encDrive C mac sched fuel i st = some st.buf := by
  intro fuel
  induction fuel with
  | zero =>
      intro st _ hb i
      omega
  | succ fuel ih =>
      intro st hf hb i
      rw [encDrive]
      by_cases hempty : st.buf = []
      · rw [if_pos ⟨hf, hempty⟩, hempty]
      · rw [if_neg (fun hcon => hempty hcon.2)]
        rw [encStep]
        rw [if_pos (Or.inr hf)]
        have hbne : st.buf.length ≠ 0 :=
          fun h0 => hempty (List.eq_nil_of_length_eq_zero h0)
        have hlt : (st.buf.drop (min (sched i) st.buf.length)).length < fuel := by
          rw [List.length_drop]
          have := hs i
          omega
        dsimp only
        rw [ih { st with buf := st.buf.drop (min (sched i) st.buf.length) } hf hlt
          (i + 1)]
        show some (st.buf.take (min (sched i) st.buf.length) ++
          st.buf.drop (min (sched i) st.buf.length)) = some st.buf
        rw [List.take_append_drop]

theorem encDrive_main (C : BlockCipher) (mac : Bytes → Bytes)
    (sched : Nat → Nat) (hs : ∀ j, 1 ≤ sched j)
    (henc : ∀ bl : Bytes, bl.length = 16 → (C.enc bl).length = 16)
    (hml : ∀ s : Bytes, (mac s).length = 20)
    (iv x : Bytes) (hiv : iv.length = 16) :
    ∀ (fuel c b : Nat) (st : EncSt),
      st.fin = false → 16 ∣ c → c ≤ x.length → b ≤ 16 + c →
      st.text = x.drop c →
      st.prev = cbcEncChain C iv (x.take c) →
      st.macMsg = iv ++ cbcEnc C iv (x.take c) →
      st.buf = (iv ++ cbcEnc C iv (x.take c)).drop b →
      2 * st.text.length + st.buf.length + 40 < fuel →
      ∀ i, encDrive C mac sched fuel i st =
        some ((refEncrypt C mac iv x).drop b) := by
  have henclen : ∀ c2 : Nat, 16 ∣ c2 → c2 ≤ x.length →
      (cbcEnc C iv (x.take c2)).length = c2 := by
    intro c2 h2 hle
    have hl2 : (x.take c2).length = 16 * (c2 / 16) := by
      rw [List.length_take]
      omega
    rw [cbcEnc_length C henc (c2 / 16) iv (x.take c2) hiv hl2, List.length_take]
    omega
  have hchain : ∀ c2 : Nat, 16 ∣ c2 → c2 ≤ x.length →
      (cbcEncChain C iv (x.take c2)).length = 16 := by
    intro c2 h2 hle
    have hl2 : (x.take c2).length = 16 * (c2 / 16) := by
      rw [List.length_take]
      omega
    exact cbcEncChain_length C henc (c2 / 16) iv (x.take c2) hiv hl2
  intro fuel
  induction fuel with
  | zero =>
      intro c b st _ _ _ _ _ _ _ _ hmu i
      omega
  | succ fuel ih =>
      intro c b st hfin hc hcx hb htext hprev hmsg hbuf hmu i
      obtain ⟨text, prev, macMsg, buf, fin⟩ := st
      dsimp only at htext hprev hmsg hbuf hfin hmu
      subst htext hprev hmsg hbuf hfin
      have hAl : (iv ++ cbcEnc C iv (x.take c)).length = 16 + c := by
        rw [List.length_append, hiv, henclen c hc hcx]
      have hbufl : ((iv ++ cbcEnc C iv (x.take c)).drop b).length = 16 + c - b := by
        rw [List.length_drop, hAl]
      have htextl : (x.drop c).length = x.length - c := List.length_drop c x
      rw [htextl, hbufl] at hmu
      rw [encDrive]
      rw [if_neg (fun hcon => Bool.false_ne_true hcon.1)]
      rw [encStep]
      dsimp only
      by_cases hk : sched i ≤ ((iv ++ cbcEnc C iv (x.take c)).drop b).length
      · -- drain from the buffer
        have hmin : min (sched i) ((iv ++ cbcEnc C iv (x.take c)).drop b).length
            = sched i := Nat.min_eq_left hk
        rw [if_pos (Or.inl hmin)]
        dsimp only
        rw [hmin]
        have hbk : b + sched i ≤ 16 + c := by omega
        have hdd := ih c (b + sched i)
          ⟨x.drop c, cbcEncChain C iv (x.take c), iv ++ cbcEnc C iv (x.take c),
            (iv ++ cbcEnc C iv (x.take c)).drop (b + sched i), false⟩
          rfl hc hcx hbk rfl rfl rfl rfl
          (by
            dsimp only
            rw [List.length_drop, List.length_drop, hAl]
            have := hs i
            omega)
          (i + 1)
        rw [show ((iv ++ cbcEnc C iv (x.take c)).drop b).drop (sched i)
            = (iv ++ cbcEnc C iv (x.take c)).drop (b + sched i) from
          List.drop_drop (sched i) b _]
        rw [hdd]
        obtain ⟨R, hR⟩ : ∃ R, refEncrypt C mac iv x =
            (iv ++ cbcEnc C iv (x.take c)) ++ R :=
          ⟨_, by
            rw [refEncrypt]
            rw [padBytes_split x c hc hcx]
            rw [(cbcEnc_append C (c / 16) iv (x.take c) (padBytes (x.drop c))
              (by rw [List.length_take]; omega)).1]
            simp only [List.append_assoc]
            rfl⟩
        have hsplit : (refEncrypt C mac iv x).drop b =
            ((iv ++ cbcEnc C iv (x.take c)).drop b).take (sched i) ++
              (refEncrypt C mac iv x).drop (b + sched i) := by
          have hble1 : b ≤ (iv ++ cbcEnc C iv (x.take c)).length := by
            rw [hAl]
            omega
          have hble2 : b + sched i ≤ (iv ++ cbcEnc C iv (x.take c)).length := by
            rw [hAl]
            omega
          rw [hR]
          rw [List.drop_append_of_le_length hble1]
          rw [List.drop_append_of_le_length hble2]
          rw [← List.drop_drop (sched i) b]
          rw [← List.append_assoc, List.take_append_drop]
        show some (((iv ++ cbcEnc C iv (x.take c)).drop b).take (sched i) ++
            (refEncrypt C mac iv x).drop (b + sched i))
          = some ((refEncrypt C mac iv x).drop b)
        rw [hsplit]
      · -- encrypt a fresh chunk
        have hklt : ((iv ++ cbcEnc C iv (x.take c)).drop b).length < sched i := by
          omega
        have hmin : min (sched i) ((iv ++ cbcEnc C iv (x.take c)).drop b).length
            = ((iv ++ cbcEnc C iv (x.take c)).drop b).length :=
          Nat.min_eq_right (by omega)
        rw [if_neg (by
          rw [hmin]
          simp only [Bool.false_eq_true, or_false]
          omega)]
        rw [hmin]
        rw [List.take_length, hbufl]
        rw [aesBlockSize]
        rw [hbufl] at hklt
        set T : Nat := ((sched i - (16 + c - b)) / 16 + 1) * 16 with hTdef
        have hTd : 16 ∣ T := by
          rw [hTdef]
          exact Dvd.intro_left _ rfl
        have hT16 : 16 ≤ T := by
          rw [hTdef]
          omega
        by_cases hfin2 : (x.drop c).length < T
        · -- the final chunk: pad, encrypt, append the tag
          rw [decide_eq_true hfin2]
          simp only [if_pos]
          have hchunk : (x.drop c).take T = x.drop c :=
            List.take_of_length_le (by omega)
          have htext2 : (x.drop c).drop T = ([] : Bytes) :=
            List.drop_of_length_le (by omega)
          rw [hchunk, htext2]
          have hmsg2 : (iv ++ cbcEnc C iv (x.take c)) ++
              cbcEnc C (cbcEncChain C iv (x.take c)) (padBytes (x.drop c))
              = iv ++ cbcEnc C iv (padBytes x) := by
            rw [padBytes_split x c hc hcx]
            rw [(cbcEnc_append C (c / 16) iv (x.take c) (padBytes (x.drop c))
              (by rw [List.length_take]; omega)).1]
            rw [List.append_assoc]
          rw [hmsg2]
          have hctlen : (cbcEnc C (cbcEncChain C iv (x.take c))
              (padBytes (x.drop c))).length = (padBytes (x.drop c)).length :=
            cbcEnc_length C henc ((padBytes (x.drop c)).length / 16)
              _ _ (hchain c hc hcx) (padBytes_blocks (x.drop c)).1
          have hpb2 := padBytes_blocks (x.drop c)
          have hbig : (cbcEnc C (cbcEncChain C iv (x.take c))
              (padBytes (x.drop c)) ++ mac (iv ++ cbcEnc C iv (padBytes x))).length
              = (padBytes (x.drop c)).length + 20 := by
            rw [List.length_append, hctlen, hml]
          rw [encDrive_drain_fin C mac sched hs fuel
            ⟨[], cbcEncChain C (cbcEncChain C iv (x.take c)) (padBytes (x.drop c)),
              iv ++ cbcEnc C iv (padBytes x),
              (cbcEnc C (cbcEncChain C iv (x.take c)) (padBytes (x.drop c)) ++
                mac (iv ++ cbcEnc C iv (padBytes x))).drop
                (min (sched i - (16 + c - b))
                  (cbcEnc C (cbcEncChain C iv (x.take c)) (padBytes (x.drop c)) ++
                    mac (iv ++ cbcEnc C iv (padBytes x))).length), true⟩
            rfl
            (by
              dsimp only
              rw [List.length_drop, hbig]
              rw [htextl] at hfin2 hpb2
              omega)
            (i + 1)]
          show some (((iv ++ cbcEnc C iv (x.take c)).drop b ++
              (cbcEnc C (cbcEncChain C iv (x.take c)) (padBytes (x.drop c)) ++
                mac (iv ++ cbcEnc C iv (padBytes x))).take
                (min (sched i - (16 + c - b))
                  (cbcEnc C (cbcEncChain C iv (x.take c)) (padBytes (x.drop c)) ++
                    mac (iv ++ cbcEnc C iv (padBytes x))).length)) ++
              (cbcEnc C (cbcEncChain C iv (x.take c)) (padBytes (x.drop c)) ++
                mac (iv ++ cbcEnc C iv (padBytes x))).drop
                (min (sched i - (16 + c - b))
                  (cbcEnc C (cbcEncChain C iv (x.take c)) (padBytes (x.drop c)) ++
                    mac (iv ++ cbcEnc C iv (padBytes x))).length))
            = some ((refEncrypt C mac iv x).drop b)
          rw [List.append_assoc, List.take_append_drop]
          have hpreF : refEncrypt C mac iv x = (iv ++ cbcEnc C iv (x.take c)) ++
              (cbcEnc C (cbcEncChain C iv (x.take c)) (padBytes (x.drop c)) ++
                mac (iv ++ cbcEnc C iv (padBytes x))) := by
            rw [refEncrypt, ← hmsg2]
            simp only [List.append_assoc]
          have hble1 : b ≤ (iv ++ cbcEnc C iv (x.take c)).length := by
            rw [hAl]
            omega
          rw [hpreF, List.drop_append_of_le_length hble1]
        · -- a middle chunk: encrypt it and go on
          rw [decide_eq_false hfin2]
          simp only [Bool.false_eq_true, if_false]
          have hchunklen : ((x.drop c).take T).length = T := by
            rw [List.length_take]
            omega
          have hctlen : (cbcEnc C (cbcEncChain C iv (x.take c))
              ((x.drop c).take T)).length = T := by
            rw [cbcEnc_length C henc (T / 16) _ _ (hchain c hc hcx)
              (by rw [hchunklen]; omega), hchunklen]
          rw [hctlen]
          have hcx2 : c + T ≤ x.length := by omega
          have hc2 : 16 ∣ c + T := Nat.dvd_add hc hTd
          have htk : x.take (c + T) = x.take c ++ (x.drop c).take T :=
            List.take_add x c T
          have happ := cbcEnc_append C (c / 16) iv (x.take c) ((x.drop c).take T)
            (by rw [List.length_take]; omega)
          have hprev2 : cbcEncChain C (cbcEncChain C iv (x.take c))
              ((x.drop c).take T) = cbcEncChain C iv (x.take (c + T)) := by
            rw [htk, happ.2]
          have hmsg2 : (iv ++ cbcEnc C iv (x.take c)) ++
              cbcEnc C (cbcEncChain C iv (x.take c)) ((x.drop c).take T)
              = iv ++ cbcEnc C iv (x.take (c + T)) := by
            rw [htk, happ.1, List.append_assoc]
          have htext2 : (x.drop c).drop T = x.drop (c + T) :=
            List.drop_drop T c x
          rw [htext2, hprev2, hmsg2]
          have hAl2 : (iv ++ cbcEnc C iv (x.take (c + T))).length
              = 16 + (c + T) := by
            rw [List.length_append, hiv, henclen (c + T) hc2 hcx2]
          have hbufeq : (cbcEnc C (cbcEncChain C iv (x.take c))
              ((x.drop c).take T)).drop (min (sched i - (16 + c - b)) T)
              = (iv ++ cbcEnc C iv (x.take (c + T))).drop
                (16 + c + min (sched i - (16 + c - b)) T) := by
            rw [htk, happ.1, ← List.append_assoc]
            rw [show 16 + c + min (sched i - (16 + c - b)) T
              = (iv ++ cbcEnc C iv (x.take c)).length +
                min (sched i - (16 + c - b)) T from by rw [hAl]]
            rw [List.drop_append]
          rw [hbufeq]
          rw [ih (c + T) (16 + c + min (sched i - (16 + c - b)) T)
            ⟨x.drop (c + T), cbcEncChain C iv (x.take (c + T)),
              iv ++ cbcEnc C iv (x.take (c + T)),
              (iv ++ cbcEnc C iv (x.take (c + T))).drop
                (16 + c + min (sched i - (16 + c - b)) T), false⟩
            rfl hc2 hcx2 (by omega) rfl rfl rfl rfl
            (by
              dsimp only
              rw [List.length_drop, List.length_drop, hAl2]
              rw [htextl] at hfin2
              omega)
            (i + 1)]
          obtain ⟨R, hR⟩ : ∃ R, refEncrypt C mac iv x =
              (iv ++ cbcEnc C iv (x.take c)) ++
                (cbcEnc C (cbcEncChain C iv (x.take c)) ((x.drop c).take T) ++ R) :=
            ⟨_, by
              rw [refEncrypt]
              rw [padBytes_split x (c + T) hc2 hcx2]
              rw [(cbcEnc_append C ((c + T) / 16) iv (x.take (c + T))
                (padBytes (x.drop (c + T)))
                (by rw [List.length_take]; omega)).1]
              rw [htk, happ.1]
              simp only [List.append_assoc]
              rfl⟩
          have hdropb : (refEncrypt C mac iv x).drop b =
              (iv ++ cbcEnc C iv (x.take c)).drop b ++
                (cbcEnc C (cbcEncChain C iv (x.take c)) ((x.drop c).take T) ++ R) := by
            have hble1 : b ≤ (iv ++ cbcEnc C iv (x.take c)).length := by
              rw [hAl]
              omega
            rw [hR, List.drop_append_of_le_length hble1]
          have hdrop2 : (refEncrypt C mac iv x).drop
              (16 + c + min (sched i - (16 + c - b)) T) =
              (cbcEnc C (cbcEncChain C iv (x.take c)) ((x.drop c).take T)).drop
                (min (sched i - (16 + c - b)) T) ++ R := by
            rw [hR]
            rw [show 16 + c + min (sched i - (16 + c - b)) T
              = (iv ++ cbcEnc C iv (x.take c)).length +
                min (sched i - (16 + c - b)) T from by rw [hAl]]
            rw [List.drop_append]
            have hmle : min (sched i - (16 + c - b)) T ≤
                (cbcEnc C (cbcEncChain C iv (x.take c)) ((x.drop c).take T)).length := by
              rw [hctlen]
              omega
            rw [List.drop_append_of_le_length hmle]
          show some (((iv ++ cbcEnc C iv (x.take c)).drop b ++
              (cbcEnc C (cbcEncChain C iv (x.take c)) ((x.drop c).take T)).take
                (min (sched i - (16 + c - b)) T)) ++
              (refEncrypt C mac iv x).drop
                (16 + c + min (sched i - (16 + c - b)) T))
            = some ((refEncrypt C mac iv x).drop b)
          rw [hdrop2, hdropb]
          simp only [List.append_assoc]
          rw [← List.append_assoc ((cbcEnc C (cbcEncChain C iv (x.take c))
              ((x.drop c).take T)).take (min (sched i - (16 + c - b)) T))]
          rw [List.take_append_drop]

theorem decDrive_goodE (C : BlockCipher) (mac : Bytes → Bytes)
    (sched : Nat → Nat) (hs : ∀ j, 1 ≤ sched j)
    (henc : ∀ bl : Bytes, bl.length = 16 → (C.enc bl).length = 16)
    (hdec : ∀ bl : Bytes, bl.length = 16 → C.dec (C.enc bl) = bl)
    (hml : ∀ s : Bytes, (mac s).length = 20)
    (iv x : Bytes) (hiv : iv.length = 16) :
    ∀ (fuel c e b : Nat) (st : DecSt),
      st.fin = false → 16 ∣ c → c + 16 ≤ (padBytes x).length → b ≤ c →
      st.text = (cbcEnc C iv (padBytes x) ++
        mac (iv ++ cbcEnc C iv (padBytes x))).drop (c + e) →
      st.enc = ((cbcEnc C iv (padBytes x) ++
        mac (iv ++ cbcEnc C iv (padBytes x))).drop c).take e →
      c + e ≤ (cbcEnc C iv (padBytes x) ++
        mac (iv ++ cbcEnc C iv (padBytes x))).length →
      st.macMsg = iv ++ cbcEnc C iv ((padBytes x).take c) →
      st.prev = cbcEncChain C iv ((padBytes x).take c) →
      st.buf = (x.take c).drop b →
      2 * st.text.length + st.enc.length + st.buf.length < fuel →
      ∀ i, decDrive C mac sched fuel i st = some (.bytes (x.drop b)) := by
  have hpb := padBytes_blocks x
  have hCTlen : (cbcEnc C iv (padBytes x)).length = (padBytes x).length :=
    cbcEnc_length C henc ((padBytes x).length / 16) iv (padBytes x) hiv hpb.1
  have hSlen : (cbcEnc C iv (padBytes x) ++
      mac (iv ++ cbcEnc C iv (padBytes x))).length = (padBytes x).length + 20 := by
    rw [List.length_append, hCTlen, hml]
  have henc_take : ∀ c2 : Nat, 16 ∣ c2 → c2 ≤ (padBytes x).length →
      (cbcEnc C iv ((padBytes x).take c2)).length = c2 := by
    intro c2 h2 hle
    have hl2 : ((padBytes x).take c2).length = 16 * (c2 / 16) := by
      rw [List.length_take]
      omega
    rw [cbcEnc_length C henc (c2 / 16) iv _ hiv hl2, List.length_take]
    omega
  have hchain_take : ∀ c2 : Nat, 16 ∣ c2 → c2 ≤ (padBytes x).length →
      (cbcEncChain C iv ((padBytes x).take c2)).length = 16 := by
    intro c2 h2 hle
    have hl2 : ((padBytes x).take c2).length = 16 * (c2 / 16) := by
      rw [List.length_take]
      omega
    exact cbcEncChain_length C henc (c2 / 16) iv _ hiv hl2
  have hsplitC : ∀ c2 : Nat, 16 ∣ c2 → c2 ≤ (padBytes x).length →
      cbcEnc C iv (padBytes x) = cbcEnc C iv ((padBytes x).take c2) ++
        cbcEnc C (cbcEncChain C iv ((padBytes x).take c2))
          ((padBytes x).drop c2) := by
    intro c2 h2 hle
    have h0 := (cbcEnc_append C (c2 / 16) iv ((padBytes x).take c2)
      ((padBytes x).drop c2) (by rw [List.length_take]; omega)).1
    rw [List.take_append_drop] at h0
    exact h0
  have hCTdrop : ∀ c2 : Nat, 16 ∣ c2 → c2 ≤ (padBytes x).length →
      (cbcEnc C iv (padBytes x)).drop c2 =
        cbcEnc C (cbcEncChain C iv ((padBytes x).take c2))
          ((padBytes x).drop c2) := by
    intro c2 h2 hle
    rw [hsplitC c2 h2 hle]
    rw [List.drop_append_of_le_length (by rw [henc_take c2 h2 hle])]
    rw [List.drop_of_length_le (by rw [henc_take c2 h2 hle])]
    rw [List.nil_append]
  intro fuel
  induction fuel with
  | zero =>
      intro c e b st _ _ _ _ _ _ _ _ _ _ hmu i
      omega
  | succ fuel ih =>
      intro c e b st hfin hc hc16 hb htext henc2 hce hmsg hprev hbuf hmu i
      obtain ⟨text, enc, buf, macMsg, prev, fin⟩ := st
      dsimp only at htext henc2 hce hmsg hprev hbuf hfin hmu
      subst htext henc2 hmsg hprev hbuf hfin
      have hcx : c ≤ x.length := by omega
      have htextl : ((cbcEnc C iv (padBytes x) ++
          mac (iv ++ cbcEnc C iv (padBytes x))).drop (c + e)).length
          = (padBytes x).length + 20 - (c + e) := by
        rw [List.length_drop, hSlen]
      have hencl : (((cbcEnc C iv (padBytes x) ++
          mac (iv ++ cbcEnc C iv (padBytes x))).drop c).take e).length = e := by
        rw [List.length_take, List.length_drop, hSlen]
        rw [hSlen] at hce
        omega
      have hbufl : ((x.take c).drop b).length = c - b := by
        rw [List.length_drop, List.length_take]
        omega
      rw [hSlen] at hce
      rw [htextl, hencl, hbufl] at hmu
      rw [decDrive]
      rw [if_neg (fun hcon => Bool.false_ne_true hcon.1)]
      rw [decStep]
      dsimp only
      by_cases hk : sched i ≤ ((x.take c).drop b).length
      · -- drain the plaintext buffer
        have hmin : min (sched i) ((x.take c).drop b).length = sched i :=
          Nat.min_eq_left hk
        rw [if_pos (Or.inl hmin)]
        rw [hmin]
        rw [hbufl] at hk
        have hdd := ih c e (b + sched i)
          ⟨(cbcEnc C iv (padBytes x) ++
              mac (iv ++ cbcEnc C iv (padBytes x))).drop (c + e),
            ((cbcEnc C iv (padBytes x) ++
              mac (iv ++ cbcEnc C iv (padBytes x))).drop c).take e,
            (x.take c).drop (b + sched i),
            iv ++ cbcEnc C iv ((padBytes x).take c),
            cbcEncChain C iv ((padBytes x).take c), false⟩
          rfl hc hc16 (by omega) rfl rfl (by rw [hSlen]; omega) rfl rfl rfl
          (by
            dsimp only
            rw [htextl, hencl, List.length_drop, List.length_take]
            have := hs i
            omega)
          (i + 1)
        rw [show ((x.take c).drop b).drop (sched i)
            = (x.take c).drop (b + sched i) from List.drop_drop (sched i) b _]
        dsimp only
        rw [hdd]
        show some (DecOut.bytes (((x.take c).drop b).take (sched i) ++
            x.drop (b + sched i)))
          = some (.bytes (x.drop b))
        have hout : ((x.take c).drop b).take (sched i)
            = (x.drop b).take (sched i) := by
          rw [List.drop_take c b x, List.take_take]
          rw [show min (sched i) (c - b) = sched i from by omega]
        have hrest : x.drop (b + sched i) = (x.drop b).drop (sched i) :=
          (List.drop_drop (sched i) b x).symm
        rw [hout, hrest, List.take_append_drop]
      · -- decrypt a fresh chunk
        have hklt : ((x.take c).drop b).length < sched i := by omega
        have hmin : min (sched i) ((x.take c).drop b).length
            = ((x.take c).drop b).length := Nat.min_eq_right (by omega)
        rw [if_neg (by
          rw [hmin]
          simp only [Bool.false_eq_true, or_false]
          omega)]
        rw [hmin]
        rw [List.take_length, hbufl]
        rw [hbufl] at hklt
        rw [aesBlockSize, c_HMAC_SIZE]
        set T : Nat := ((sched i - (c - b)) / 16 + 1) * 16 with hTdef
        have hTd : 16 ∣ T := by
          rw [hTdef]
          exact Dvd.intro_left _ rfl
        have hT16 : 16 ≤ T := by
          rw [hTdef]
          omega
        by_cases hfin2 : ((cbcEnc C iv (padBytes x) ++
            mac (iv ++ cbcEnc C iv (padBytes x))).drop (c + e)).length < T + 20 + 1
        · -- the end of the stream: authenticate and unpad
          rw [if_pos hfin2]
          have htake_all : ((cbcEnc C iv (padBytes x) ++
              mac (iv ++ cbcEnc C iv (padBytes x))).drop (c + e)).take (T + 20 + 1)
              = (cbcEnc C iv (padBytes x) ++
                mac (iv ++ cbcEnc C iv (padBytes x))).drop (c + e) :=
            List.take_of_length_le (by omega)
          rw [htake_all]
          have henc1 : ((cbcEnc C iv (padBytes x) ++
              mac (iv ++ cbcEnc C iv (padBytes x))).drop c).take e ++
              (cbcEnc C iv (padBytes x) ++
                mac (iv ++ cbcEnc C iv (padBytes x))).drop (c + e)
              = (cbcEnc C iv (padBytes x) ++
                mac (iv ++ cbcEnc C iv (padBytes x))).drop c := by
            rw [← List.drop_drop e c, List.take_append_drop]
          rw [henc1]
          have htiv : (((((cbcEnc C iv (padBytes x) ++
              mac (iv ++ cbcEnc C iv (padBytes x))).drop c).length : Int))
              - ((20 : Nat) : Int))
              = (((padBytes x).length - c : Nat) : Int) := by
            rw [List.length_drop, hSlen]
            push_cast
            omega
          rw [htiv]
          have hdvdP : (16 : Int) ∣ (((padBytes x).length - c : Nat) : Int) := by
            have h1 := hpb.1
            omega
          rw [if_neg (not_not_intro (Int.tmod_eq_zero_of_dvd hdvdP))]
          rw [if_neg (by omega : ¬ ((((padBytes x).length - c : Nat) : Int) < 0))]
          rw [Int.toNat_natCast]
          rw [decProcess]
          rw [if_pos (show (true : Bool) = true from rfl)]
          have hSc : (cbcEnc C iv (padBytes x) ++
              mac (iv ++ cbcEnc C iv (padBytes x))).drop c
              = (cbcEnc C iv (padBytes x)).drop c ++
                mac (iv ++ cbcEnc C iv (padBytes x)) :=
            List.drop_append_of_le_length (by rw [hCTlen]; omega)
          have hchunk2 : ((cbcEnc C iv (padBytes x) ++
              mac (iv ++ cbcEnc C iv (padBytes x))).drop c).take
                ((padBytes x).length - c)
              = (cbcEnc C iv (padBytes x)).drop c := by
            rw [hSc]
            rw [List.take_append_of_le_length (by rw [List.length_drop, hCTlen])]
            rw [List.take_of_length_le (by rw [List.length_drop, hCTlen])]
          have henc2b : ((cbcEnc C iv (padBytes x) ++
              mac (iv ++ cbcEnc C iv (padBytes x))).drop c).drop
                ((padBytes x).length - c)
              = mac (iv ++ cbcEnc C iv (padBytes x)) := by
            rw [List.drop_drop]
            rw [show c + ((padBytes x).length - c) = (cbcEnc C iv (padBytes x)).length
              from by rw [hCTlen]; omega]
            rw [List.drop_left]
          rw [hchunk2, henc2b]
          rw [hCTdrop c hc (by omega)]
          have hPdc : ((padBytes x).drop c).length
              = 16 * (((padBytes x).length - c) / 16) := by
            rw [List.length_drop]
            have h1 := hpb.1
            omega
          have hround := cbc_roundtrip C henc hdec (((padBytes x).length - c) / 16)
            (cbcEncChain C iv ((padBytes x).take c)) ((padBytes x).drop c)
            (hchain_take c hc (by omega)) hPdc
          rw [hround.1]
          have hmm : iv ++ cbcEnc C iv ((padBytes x).take c) ++
              cbcEnc C (cbcEncChain C iv ((padBytes x).take c))
                ((padBytes x).drop c)
              = iv ++ cbcEnc C iv (padBytes x) := by
            rw [List.append_assoc, ← hsplitC c hc (by omega)]
          rw [hmm]
          rw [if_neg (not_not_intro rfl)]
          have hPdropc : (padBytes x).drop c = x.drop c ++
              List.replicate (16 - x.length % 16) (16 - x.length % 16) := by
            rw [padBytes_eq, aesBlockSize]
            rw [List.drop_append_of_le_length hcx]
          rw [hPdropc]
          rw [unpad_padded (x.drop c) (16 - x.length % 16) (by omega) (by omega)]
          dsimp only
          rw [decDrive_drain_fin C mac sched hs fuel
            ⟨(cbcEnc C iv (padBytes x) ++
                mac (iv ++ cbcEnc C iv (padBytes x))).drop (c + e) |>.drop
                (T + 20 + 1),
              mac (iv ++ cbcEnc C iv (padBytes x)),
              (x.drop c).drop (min (sched i - (c - b)) (x.drop c).length),
              iv ++ cbcEnc C iv (padBytes x),
              cbcDecChain (cbcEncChain C iv ((padBytes x).take c))
                (cbcEnc C (cbcEncChain C iv ((padBytes x).take c))
                  (x.drop c ++ List.replicate (16 - x.length % 16)
                    (16 - x.length % 16))),
              true⟩
            rfl
            (by
              dsimp only
              rw [List.length_drop, List.length_drop]
              omega)
            (i + 1)]
          show some (DecOut.bytes (((x.take c).drop b ++
              (x.drop c).take (min (sched i - (c - b)) (x.drop c).length)) ++
              (x.drop c).drop (min (sched i - (c - b)) (x.drop c).length)))
            = some (.bytes (x.drop b))
          rw [List.append_assoc, List.take_append_drop]
          have hassemble : (x.take c).drop b ++ x.drop c = x.drop b := by
            rw [List.drop_take c b x]
            rw [show x.drop c = (x.drop b).drop (c - b) from by
              rw [List.drop_drop]
              rw [show b + (c - b) = c from by omega]]
            rw [List.take_append_drop]
          rw [hassemble]
        · -- a middle read: decrypt one chunk and recurse
          rw [if_neg hfin2]
          rw [decProcess]
          rw [if_neg Bool.false_ne_true]
          rw [htextl] at hfin2
          have hcT : c + T + 16 ≤ (padBytes x).length := by
            have h1 := hpb.1
            omega
          have hcTx : c + T ≤ x.length := by omega
          have hcTd : 16 ∣ c + T := Nat.dvd_add hc hTd
          have htakeW : ((cbcEnc C iv (padBytes x) ++
              mac (iv ++ cbcEnc C iv (padBytes x))).drop (c + e)).take (T + 20 + 1)
              = (((cbcEnc C iv (padBytes x) ++
                mac (iv ++ cbcEnc C iv (padBytes x))).drop c).drop e).take
                (T + 20 + 1) := by
            rw [List.drop_drop]
          have henc1 : ((cbcEnc C iv (padBytes x) ++
              mac (iv ++ cbcEnc C iv (padBytes x))).drop c).take e ++
              (((cbcEnc C iv (padBytes x) ++
                mac (iv ++ cbcEnc C iv (padBytes x))).drop c).drop e).take
                (T + 20 + 1)
              = ((cbcEnc C iv (padBytes x) ++
                mac (iv ++ cbcEnc C iv (padBytes x))).drop c).take
                (e + (T + 20 + 1)) := (List.take_add _ e (T + 20 + 1)).symm
          rw [htakeW, henc1]
          have hctch : (((cbcEnc C iv (padBytes x) ++
              mac (iv ++ cbcEnc C iv (padBytes x))).drop c).take
                (e + (T + 20 + 1))).take T
              = ((cbcEnc C iv (padBytes x) ++
                mac (iv ++ cbcEnc C iv (padBytes x))).drop c).take T := by
            rw [List.take_take]
            rw [show min T (e + (T + 20 + 1)) = T from by omega]
          rw [hctch]
          have hctr : c + T + 16 ≤ (padBytes x).length := by
            have h1 := hpb.1
            omega
          have hmidPlen : (((padBytes x).drop c).take T).length = T := by
            rw [List.length_take, List.length_drop]
            omega
          have hmidblocks : (((padBytes x).drop c).take T).length = 16 * (T / 16) := by
            rw [hmidPlen]
            omega
          have hmidenclen : (cbcEnc C (cbcEncChain C iv ((padBytes x).take c))
              (((padBytes x).drop c).take T)).length = T := by
            rw [cbcEnc_length C henc (T / 16) _ _ (hchain_take c hc (by omega))
              hmidblocks, hmidPlen]
          have hmid : ((cbcEnc C iv (padBytes x) ++
              mac (iv ++ cbcEnc C iv (padBytes x))).drop c).take T
              = cbcEnc C (cbcEncChain C iv ((padBytes x).take c))
                (((padBytes x).drop c).take T) := by
            rw [List.drop_append_of_le_length (by rw [hCTlen]; omega)]
            rw [List.take_append_of_le_length (by rw [List.length_drop, hCTlen]; omega)]
            rw [hCTdrop c hc (by omega)]
            have hsplit2 := (cbcEnc_append C (T / 16)
              (cbcEncChain C iv ((padBytes x).take c))
              (((padBytes x).drop c).take T) (((padBytes x).drop c).drop T)
              hmidblocks).1
            rw [List.take_append_drop] at hsplit2
            rw [hsplit2]
            rw [List.take_append_of_le_length (by rw [hmidenclen])]
            rw [List.take_of_length_le (by rw [hmidenclen])]
          rw [hmid]
          have hr2 := cbc_roundtrip C henc hdec (T / 16)
            (cbcEncChain C iv ((padBytes x).take c)) (((padBytes x).drop c).take T)
            (hchain_take c hc (by omega)) hmidblocks
          rw [hr2.1, hr2.2]
          have htkP : (padBytes x).take (c + T)
              = (padBytes x).take c ++ ((padBytes x).drop c).take T :=
            List.take_add (padBytes x) c T
          have happ3 := cbcEnc_append C (c / 16) iv ((padBytes x).take c)
            (((padBytes x).drop c).take T)
            (by rw [List.length_take]; omega)
          have hmsg3 : iv ++ cbcEnc C iv ((padBytes x).take c) ++
              cbcEnc C (cbcEncChain C iv ((padBytes x).take c))
                (((padBytes x).drop c).take T)
              = iv ++ cbcEnc C iv ((padBytes x).take (c + T)) := by
            rw [htkP, happ3.1, List.append_assoc]
          have hprev3 : cbcEncChain C (cbcEncChain C iv ((padBytes x).take c))
              (((padBytes x).drop c).take T)
              = cbcEncChain C iv ((padBytes x).take (c + T)) := by
            rw [htkP, happ3.2]
          rw [hmsg3, hprev3]
          have hcTx : c + T ≤ x.length := by omega
          have hmidx : ((padBytes x).drop c).take T = (x.drop c).take T := by
            rw [padBytes_eq, aesBlockSize]
            rw [List.drop_append_of_le_length hcx]
            rw [List.take_append_of_le_length (by rw [List.length_drop]; omega)]
          rw [hmidx]
          have hlenmidx : ((x.drop c).take T).length = T := by
            rw [List.length_take, List.length_drop]
            omega
          rw [hlenmidx]
          have htext3 : ((cbcEnc C iv (padBytes x) ++
              mac (iv ++ cbcEnc C iv (padBytes x))).drop (c + e)).drop (T + 20 + 1)
              = (cbcEnc C iv (padBytes x) ++
                mac (iv ++ cbcEnc C iv (padBytes x))).drop ((c + T) + (e + 21)) := by
            rw [List.drop_drop]
            rw [show c + e + (T + 20 + 1) = c + T + (e + 21) from by omega]
          have henc3 : (((cbcEnc C iv (padBytes x) ++
              mac (iv ++ cbcEnc C iv (padBytes x))).drop c).take
                (e + (T + 20 + 1))).drop T
              = ((cbcEnc C iv (padBytes x) ++
                mac (iv ++ cbcEnc C iv (padBytes x))).drop (c + T)).take
                (e + 21) := by
            rw [List.drop_take]
            rw [List.drop_drop]
            rw [show e + (T + 20 + 1) - T = e + 21 from by omega]
          have hbuf3 : ((x.drop c).take T).drop (min (sched i - (c - b)) T)
              = (x.take (c + T)).drop (c + min (sched i - (c - b)) T) := by
            rw [List.take_add x c T]
            rw [show c + min (sched i - (c - b)) T
              = (x.take c).length + min (sched i - (c - b)) T from by
                rw [List.length_take]
                omega]
            rw [List.drop_append]
          dsimp only
          rw [htext3, henc3, hbuf3]
          rw [ih (c + T) (e + 21) (c + min (sched i - (c - b)) T)
            ⟨(cbcEnc C iv (padBytes x) ++
                mac (iv ++ cbcEnc C iv (padBytes x))).drop ((c + T) + (e + 21)),
              ((cbcEnc C iv (padBytes x) ++
                mac (iv ++ cbcEnc C iv (padBytes x))).drop (c + T)).take (e + 21),
              (x.take (c + T)).drop (c + min (sched i - (c - b)) T),
              iv ++ cbcEnc C iv ((padBytes x).take (c + T)),
              cbcEncChain C iv ((padBytes x).take (c + T)), false⟩
            rfl hcTd (by omega) (by omega) rfl rfl
            (by rw [hSlen]; omega)
            rfl rfl rfl
            (by
              dsimp only
              rw [List.length_drop, List.length_take, List.length_drop,
                List.length_drop, List.length_take, hSlen]
              omega)
            (i + 1)]
          have hptm : ((x.drop c).take T).take (min (sched i - (c - b)) T)
              = (x.drop c).take (min (sched i - (c - b)) T) := by
            rw [List.take_take]
            rw [show min (min (sched i - (c - b)) T) T
              = min (sched i - (c - b)) T from by omega]
          show some (DecOut.bytes (((x.take c).drop b ++
              ((x.drop c).take T).take (min (sched i - (c - b)) T)) ++
              x.drop (c + min (sched i - (c - b)) T)))
            = some (.bytes (x.drop b))
          rw [hptm]
          rw [show (x.take c).drop b = (x.drop b).take (c - b) from
            List.drop_take c b x]
          rw [show (x.drop c).take (min (sched i - (c - b)) T)
              = ((x.drop b).drop (c - b)).take (min (sched i - (c - b)) T) from by
            rw [List.drop_drop]
            rw [show b + (c - b) = c from by omega]]
          rw [show x.drop (c + min (sched i - (c - b)) T)
              = ((x.drop b).drop (c - b)).drop (min (sched i - (c - b)) T) from by
            rw [List.drop_drop, List.drop_drop]
            rw [show b + (c - b + min (sched i - (c - b)) T)
              = c + min (sched i - (c - b)) T from by omega]]
          rw [List.append_assoc]
          rw [List.take_append_drop]
          rw [List.take_append_drop]

/-- Claim C1: for every plaintext x, including the empty one, the
streaming encrypter driven to the end of stream by any positive read
schedule produces exactly the envelope iv ++ CBC(pad x) ++ HMAC, and
the streaming decrypter driven over that envelope by any positive read
schedule returns exactly x — so the bulk Encrypt/Decrypt pair (one big
read on each side) and the composed reader pipeline (any chunk sizes,
including 1-byte reads) both round-trip byte-exactly.  The cipher is
hypothesised to be a 16-byte block permutation and the MAC 20 bytes
wide, as crypto/aes and HMAC-SHA1 guarantee. -/
theorem C1_encrypt_decrypt_roundtrip (C : BlockCipher) (mac : Bytes → Bytes)
    (schedE schedD : Nat → Nat) (fuelE fuelD : Nat) (iv x : Bytes)
    (henc : ∀ bl : Bytes, bl.length = 16 → (C.enc bl).length = 16)
    (hdec : ∀ bl : Bytes, bl.length = 16 → C.dec (C.enc bl) = bl)
    (hml : ∀ s : Bytes, (mac s).length = 20)
    (hiv : iv.length = 16)
    (hsE : ∀ j, 1 ≤ schedE j) (hsD : ∀ j, 1 ≤ schedD j)
    (hfE : 2 * x.length + 56 < fuelE) (hfD : 2 * x.length + 80 < fuelD) :
    encDrive C mac schedE fuelE 0 (encInit iv x) =
      some (refEncrypt C mac iv x)
    ∧ decRun C mac schedD fuelD (refEncrypt C mac iv x) =
      some (.bytes x) := by
  have hpb := padBytes_blocks x
  have hCTlen : (cbcEnc C iv (padBytes x)).length = (padBytes x).length :=
    cbcEnc_length C henc ((padBytes x).length / 16) iv (padBytes x) hiv hpb.1
  constructor
  · have hed := encDrive_main C mac schedE hsE henc hml iv x hiv fuelE 0 0
      (encInit iv x) rfl (dvd_zero 16) (Nat.zero_le _) (by omega)
      (by rw [List.drop_zero]; rfl)
      (by rw [List.take_zero, cbcEncChain_nil]; rfl)
      (by rw [List.take_zero, cbcEnc_nil, List.append_nil]; rfl)
      (by rw [List.take_zero, cbcEnc_nil, List.append_nil, List.drop_zero]; rfl)
      (by
        dsimp only [encInit]
        rw [hiv]
        omega)
      0
    rw [List.drop_zero] at hed
    exact hed
  · have hElen : (refEncrypt C mac iv x).length = (padBytes x).length + 36 := by
      rw [refEncrypt]
      rw [List.length_append, List.length_append, hiv, hCTlen, hml]
      omega
    have hEeq : refEncrypt C mac iv x = iv ++ (cbcEnc C iv (padBytes x) ++
        mac (iv ++ cbcEnc C iv (padBytes x))) := by
      rw [refEncrypt, List.append_assoc]
    have htake16 : (refEncrypt C mac iv x).take aesBlockSize = iv := by
      rw [hEeq, aesBlockSize]
      rw [List.take_append_of_le_length (by rw [hiv])]
      rw [List.take_of_length_le (by rw [hiv])]
    have hdrop16 : (refEncrypt C mac iv x).drop aesBlockSize =
        cbcEnc C iv (padBytes x) ++ mac (iv ++ cbcEnc C iv (padBytes x)) := by
      rw [hEeq, aesBlockSize]
      rw [List.drop_append_of_le_length (by rw [hiv])]
      rw [List.drop_of_length_le (by rw [hiv]), List.nil_append]
    rw [decRun]
    have hinit : decInit (refEncrypt C mac iv x) =
        some ⟨cbcEnc C iv (padBytes x) ++ mac (iv ++ cbcEnc C iv (padBytes x)),
          [], [], iv, iv, false⟩ := by
      rw [decInit]
      rw [if_neg (by rw [hElen, aesBlockSize]; omega)]
      rw [htake16, hdrop16]
    rw [hinit]
    have hdd := decDrive_goodE C mac schedD hsD henc hdec hml iv x hiv fuelD
      0 0 0
      ⟨cbcEnc C iv (padBytes x) ++ mac (iv ++ cbcEnc C iv (padBytes x)),
        [], [], iv, iv, false⟩
      rfl (dvd_zero 16) (by omega) (Nat.le_refl 0)
      (by simp)
      (by simp)
      (by omega)
      (by rw [List.take_zero, cbcEnc_nil, List.append_nil])
      (by rw [List.take_zero, cbcEncChain_nil])
      (by simp)
      (by
        dsimp only
        rw [List.length_append, hCTlen, hml]
        simp only [List.length_nil]
        omega)
      0
    rw [List.drop_zero] at hdd
    exact hdd

/-- Witness for C1: the identity block cipher, a constant 20-byte MAC,
a 16-byte IV and a 3-byte plaintext, with 1-byte reads on both sides. -/
theorem C1_encrypt_decrypt_roundtrip_witness :
    encDrive idCipher zmac (fun _ => 1) 70 0
        (encInit (List.replicate 16 3) [1, 2, 3])
      = some (refEncrypt idCipher zmac (List.replicate 16 3) [1, 2, 3])
    ∧ decRun idCipher zmac (fun _ => 1) 100
        (refEncrypt idCipher zmac (List.replicate 16 3) [1, 2, 3])
      = some (.bytes [1, 2, 3]) :=
  C1_encrypt_decrypt_roundtrip idCipher zmac (fun _ => 1) (fun _ => 1) 70 100
    (List.replicate 16 3) [1, 2, 3]
    (fun _ h => h) (fun _ _ => rfl) (fun _ => rfl) (by decide)
    (fun _ => Nat.le_refl 1) (fun _ => Nat.le_refl 1) (by decide) (by decide)

/-- Witness for C7 at a 17-byte input with one-byte reads. -/
theorem C7_decrypt_length_errors_witness :
    16 ≤ (List.replicate 17 0 : Bytes).length
    ∧ ¬ ((16 : Int) ∣ (((List.replicate 17 0 : Bytes).length : Int) - 36))
    ∧ decRun idCipher zmac (fun _ => 1) 64 (List.replicate 17 0)
        = some (.error "ciphertext is not a multiple of the block size") :=
  ⟨by decide, by decide,
   (C7_decrypt_length_errors idCipher zmac (fun _ => 1) 64 (List.replicate 17 0)
      (fun _ => Nat.le_refl 1) (fun _ h => h) (by decide)).2
     (by decide) (by decide)⟩

end Inc
